import Mathlib

/-!
A verification development for the jump-ahead core of the `nessan/xoshiro`
library (`include/xoshiro.h`).

The development has two layers:

* a spec layer: polynomials over GF(2) encoded as bit-packed naturals
  (bit `i` of the natural is the coefficient of `x^i`), with carry-less
  multiplication `pmul`, squaring-by-bit-spreading `spread`, and polynomial
  long-division remainder `pmod`;

* a code layer: shallow embeddings of the C++ functions
  (`xso::internal::reduce` and its helper lambdas, `xso::riffle`,
  `xso::jump`, `xso::jump_coefficients`, `xso::partition`, and the
  `xso::xoshiro` / `xso::xoroshiro` state classes), with the state arrays
  modelled as lists of naturals and machine-word arithmetic made explicit
  via `% 2 ^ W`.

Theorems at the end relate the two layers.
-/

namespace xso

/-! ### Spec layer: GF(2) polynomial arithmetic on bit-packed naturals -/

/-- Carry-less (GF(2)[x]) product of two bit-packed polynomials: the grade
school shift-and-xor multiplication, recursing on the bits of `a`. -/
def pmul (a b : Nat) : Nat :=
  if h : a = 0 then 0
  else (if a % 2 = 1 then b else 0) ^^^ (pmul (a / 2) b) <<< 1
termination_by a
decreasing_by exact Nat.div_lt_self (Nat.pos_of_ne_zero h) (by omega)

/-- Squaring over GF(2)[x] spreads the coefficients out with zeros in
between: bit `i` of `x` becomes bit `2 * i` of `spread x`. -/
def spread (x : Nat) : Nat :=
  if h : x = 0 then 0
  else (x % 2) ||| (spread (x / 2)) <<< 2
termination_by x
decreasing_by exact Nat.div_lt_self (Nat.pos_of_ne_zero h) (by omega)

/-- The repeating bit pattern `i` ones / `i` zeros (`m` blocks of `2i`
bits, ones in the low half of each block): the value of the riffle mask
`ones / ((1 << i) | 1)` in closed recursive form. -/
def maskPat (i m : Nat) : Nat :=
  match m with
  | 0 => 0
  | m + 1 => (2 ^ i - 1) ||| (maskPat i m) <<< (2 * i)

/-- Remainder of GF(2)[x] long division of `a` by `c` (bit-packed): while
`a` has degree at least that of `c`, line the divisor up under the leading
coefficient of `a` and subtract (xor).  For `c = 0` we return `a`. -/
def pmod (a c : Nat) : Nat :=
  if c = 0 ∨ a.size < c.size then a
  else pmod (a ^^^ c <<< (a.size - c.size)) c
termination_by a
decreasing_by
  rename_i h
  push_neg at h
  obtain ⟨hc, hsz⟩ := h
  have hc1 : 1 ≤ c.size := Nat.size_pos.mpr (Nat.pos_of_ne_zero hc)
  have ha1 : 1 ≤ a.size := le_trans hc1 hsz
  have hxor : a ^^^ c <<< (a.size - c.size) < 2 ^ (a.size - 1) := by
    apply Nat.lt_pow_two_of_testBit
    intro i hi
    rcases Nat.lt_or_ge i a.size with hi2 | hi2
    · have hieq : i = a.size - 1 := by omega
      have htopa : a.testBit (a.size - 1) = true := by
        have h1 : 2 ^ (a.size - 1) ≤ a := Nat.lt_size.mp (by omega)
        have h2 : a < 2 ^ a.size := Nat.lt_size_self a
        have h3 : a / 2 ^ (a.size - 1) = 1 := by
          have h4 : 2 ^ a.size = 2 ^ (a.size - 1) * 2 := by
            rw [← Nat.pow_succ]
            congr 1
            omega
          have h5 : a / 2 ^ (a.size - 1) < 2 :=
            Nat.div_lt_of_lt_mul (by omega)
          have h6 : 1 ≤ a / 2 ^ (a.size - 1) :=
            (Nat.one_le_div_iff (Nat.pos_pow_of_pos _ (by omega))).mpr h1
          omega
        simp [Nat.testBit_to_div_mod, h3]
      have htopc : (c <<< (a.size - c.size)).testBit (a.size - 1) = true := by
        rw [Nat.testBit_shiftLeft]
        have hge : a.size - 1 ≥ a.size - c.size := by omega
        have htc : c.testBit (c.size - 1) = true := by
          have h1 : 2 ^ (c.size - 1) ≤ c := Nat.lt_size.mp (by omega)
          have h2 : c < 2 ^ c.size := Nat.lt_size_self c
          have h3 : c / 2 ^ (c.size - 1) = 1 := by
            have h4 : 2 ^ c.size = 2 ^ (c.size - 1) * 2 := by
              rw [← Nat.pow_succ]
              congr 1
              omega
            have h5 : c / 2 ^ (c.size - 1) < 2 :=
              Nat.div_lt_of_lt_mul (by omega)
            have h6 : 1 ≤ c / 2 ^ (c.size - 1) :=
              (Nat.one_le_div_iff (Nat.pos_pow_of_pos _ (by omega))).mpr h1
            omega
          simp [Nat.testBit_to_div_mod, h3]
        have : a.size - 1 - (a.size - c.size) = c.size - 1 := by omega
        simp [hge, this, htc]
      rw [Nat.testBit_xor, hieq, htopa, htopc]
      rfl
    · have h1 : a.testBit i = false :=
        Nat.testBit_lt_two_pow (lt_of_lt_of_le (Nat.lt_size_self a)
          (Nat.pow_le_pow_right (by omega) hi2))
      have h2 : (c <<< (a.size - c.size)).testBit i = false := by
        apply Nat.testBit_lt_two_pow
        have hsh : c <<< (a.size - c.size) < 2 ^ (c.size + (a.size - c.size)) := by
          rw [Nat.shiftLeft_eq_mul_pow, Nat.pow_add]
          exact Nat.mul_lt_mul_of_lt_of_le (Nat.lt_size_self c) (le_refl _)
            (Nat.pos_pow_of_pos _ (by omega))
        have : c.size + (a.size - c.size) = a.size := by omega
        rw [this] at hsh
        exact lt_of_lt_of_le hsh (Nat.pow_le_pow_right (by omega) hi2)
      rw [Nat.testBit_xor, h1, h2]
      rfl
  calc a ^^^ c <<< (a.size - c.size) < 2 ^ (a.size - 1) := hxor
    _ ≤ a := Nat.lt_size.mp (by omega)

/-- Congruence modulo `c` in GF(2)[x]: `a` and `b` differ by a multiple
of `c` (in GF(2), subtraction is xor). -/
def Cong (c a b : Nat) : Prop := ∃ q, a ^^^ b = pmul q c

/-! ### Code layer: words and word vectors

Machine words of width `W` are naturals below `2 ^ W`; a `std::array<T, N>`
of state or coefficient words is a list of naturals of length `N`. -/

/-- Embedding of `std::rotl(x, s)` on a `W`-bit unsigned word. -/
def rotl (W x s : Nat) : Nat :=
  ((x <<< (s % W)) ||| (x >>> (W - s % W))) % 2 ^ W

/-- The all-zero word vector (`sum.fill(0)` / a zero-initialised array). -/
def zeroV (N : Nat) : List Nat := List.replicate N 0

/-- Pointwise xor of two word vectors. -/
def xorV (a b : List Nat) : List Nat := List.zipWith (fun x y => x ^^^ y) a b

/-- Well-formedness of a word vector: `N` words, each of `W` bits. -/
def WFv (N W : Nat) (v : List Nat) : Prop :=
  v.length = N ∧ ∀ x ∈ v, x < 2 ^ W

/-- The unit word vector whose only set bit is (flat) bit `t`. -/
def unitV (N W t : Nat) : List Nat :=
  (List.range N).map fun i => if i = t / W then 1 <<< (t % W) else 0

/-- Packs a word vector into a single natural, little-endian in both the
words and the bits: flat bit `i * W + b` of the result is bit `b` of word
`i`.  This is exactly the coefficient-packing convention of the library. -/
def toNat (W : Nat) : List Nat → Nat
  | [] => 0
  | w :: ws => w + 2 ^ W * toNat W ws

/-- The GF(2) action of a bit-packed polynomial `q` on a vector `v`
through a linear operator `T`: `act q v = sum of T^i v over set bits i of
q`, computed by peeling bits off the low end of `q`. -/
def actV (N : Nat) (T : List Nat → List Nat) (q : Nat) (v : List Nat) : List Nat :=
  if h : q = 0 then zeroV N
  else xorV (if q % 2 = 1 then v else zeroV N) (actV N T (q / 2) (T v))
termination_by q
decreasing_by exact Nat.div_lt_self (Nat.pos_of_ne_zero h) (by omega)

/-- `T` maps well-formed vectors to well-formed vectors and is GF(2)
linear (it distributes over pointwise xor). -/
def LinearOn (N W : Nat) (T : List Nat → List Nat) : Prop :=
  (∀ v, WFv N W v → WFv N W (T v)) ∧
    ∀ u v, WFv N W u → WFv N W v → T (xorV u v) = xorV (T u) (T v)

/-- The bit-packed polynomial `c` annihilates the operator `T`: summing
`T^i v` over the set bits of `c` gives the zero vector for every
well-formed `v`.  This is the defining property of (any multiple of) the
characteristic polynomial of the transition operator. -/
def Annihilates (N W : Nat) (T : List Nat → List Nat) (c : Nat) : Prop :=
  ∀ v, WFv N W v → actV N T c v = zeroV N

end xso

/-! ### Code layer: `xso::internal` — polynomial reduction

Embeds `xso::internal::reduce` from `include/xoshiro.h` together with its
helper lambdas (kept under their source names) and the two `riffle`
overloads.  `W` is the width in bits of the word type `T`; coefficient
arrays are lists of `W`-bit words. -/

namespace xso.internal

/-- Lambda `word`: index of the word that holds coefficient `i`. -/
def word (W i : Nat) : Nat := i / W

/-- Lambda `bit`: bit position of coefficient `i` inside its word. -/
def bit (W i : Nat) : Nat := i % W

/-- Lambda `mask`: a mask isolating coefficient `i` within its word. -/
def mask (W i : Nat) : Nat := 1 <<< bit W i

/-- Lambda `test`: is coefficient `i` of `poly` equal to 1? -/
def test (W : Nat) (poly : List Nat) (i : Nat) : Bool :=
  poly.getD (word W i) 0 &&& mask W i ≠ 0

/-- Lambda `set`: sets coefficient `i` of `poly` to 1. -/
def set (W : Nat) (poly : List Nat) (i : Nat) : List Nat :=
  poly.set (word W i) (poly.getD (word W i) 0 ||| mask W i)

/-- Lambda `lsb` (`std::countr_zero`): index of the least significant set
bit of a nonzero word (the `npos` case is handled by the callers). -/
def lsb (w : Nat) : Nat :=
  if h : w % 2 = 1 ∨ w = 0 then 0
  else lsb (w / 2) + 1
termination_by w
decreasing_by
  exact Nat.div_lt_self (Nat.pos_of_ne_zero (fun hz => h (Or.inr hz))) (by omega)

/-- Lambda `msb` (`std::bit_width(w) - 1`): index of the most significant
set bit of a nonzero word. -/
def msb (w : Nat) : Nat := w.size - 1

/-- Lambda `first_set`: index of the first set coefficient of `poly`, or
`none` (the source's `npos`) if all coefficients are zero.  The source
scans the words upward and returns `i * bits_per_word + lsb(poly[i])` for
the first nonzero word; the recursion below does the same. -/
def first_set (W : Nat) : List Nat → Option Nat
  | [] => none
  | w :: ws => if w ≠ 0 then some (lsb w) else (first_set W ws).map (· + W)

/-- Lambda `final_set`: index of the last set coefficient of `poly`, or
`none` if all coefficients are zero.  The source scans the words downward
and returns `i * bits_per_word + msb(poly[i])` for the last nonzero word. -/
def final_set (W : Nat) : List Nat → Option Nat
  | [] => none
  | w :: ws =>
    match final_set W ws with
    | some r => some (r + W)
    | none => if w ≠ 0 then some (msb w) else none

/-- Lambda `monic`: is the highest coefficient of `poly` set? -/
def monic (W : Nat) (poly : List Nat) : Bool :=
  poly.getD (poly.length - 1) 0 &&& 1 <<< (W - 1) ≠ 0

/-- Lambda `add`: coefficient-wise GF(2) sum, `lhs <- lhs ^ rhs`. -/
def add (lhs rhs : List Nat) : List Nat := List.zipWith (fun x y => x ^^^ y) lhs rhs

/-- Lambda `shift`: one-place coefficient shift `[p0,p1,..] -> [0,p0,..]`.
The source's downward loop writes `poly[i] = poly[i] << 1 | poly[i-1] >>
(W-1)` for `i = N-1..1` (each read happening before the slot is written)
and then `poly[0] <<= 1`; word-type arithmetic truncates to `W` bits. -/
def shift (W : Nat) (poly : List Nat) : List Nat :=
  (List.range poly.length).map fun i =>
    if i = 0 then (poly.getD 0 0 <<< 1) % 2 ^ W
    else ((poly.getD i 0 <<< 1) % 2 ^ W) ||| (poly.getD (i - 1) 0 >>> (W - 1))

/-- Lambda `times_x_step`: `poly(x) <- x * poly(x) mod c(x)` for
`degree[poly] < n`, where `c(x) = x^n + p(x)`. -/
def times_x_step (W : Nat) (p poly : List Nat) : List Nat :=
  let add_p := monic W poly
  let poly := shift W poly
  if add_p then add poly p else poly

/-- The precomputed table `power_mod`: entry `i` holds the coefficients of
`x^(n+i) mod c(x)`, built iteratively from `power_mod[0] = p` by
`times_x_step` (the source stores the entries in a `std::vector`; we model
the table as a function of the index). -/
def power_mod (W : Nat) (p : List Nat) (i : Nat) : List Nat :=
  (times_x_step W p)^[i] p

/-- The shift-and-mask loop inside the word `riffle`: for
`i = W/4, W/8, ..., 1` replace `t` by `(t ^ (t << i)) & msk` where
`msk = ones / ((1 << i) | 1)`; word arithmetic truncates to `W` bits. -/
def riffle_loop (W i t : Nat) : Nat :=
  if h : i = 0 then t
  else riffle_loop W (i / 2) ((t ^^^ (t <<< i) % 2 ^ W) &&& ((2 ^ W - 1) / ((1 <<< i) ||| 1)))
termination_by i
decreasing_by exact Nat.div_lt_self (Nat.pos_of_ne_zero h) (by omega)

/-- Embedding of the word `riffle`: splits `src` into halves and
interleaves each half with zeros; returns the pair `(lo, hi)` in place of
the C++ output parameters. -/
def riffle (W src : Nat) : Nat × Nat :=
  let half_bits := W / 2
  let lo := src &&& ((2 ^ W - 1) >>> half_bits)
  let hi := src >>> half_bits
  (riffle_loop W (W / 4) lo, riffle_loop W (W / 4) hi)

/-- Embedding of the array `riffle`: treating `[lo|hi]` as contiguous
storage of `2N` words, words `2i` and `2i+1` receive the riffle of
`src[i]` (the source's reverse-order loop writes exactly these slots). -/
def riffle_arr (W : Nat) (src : List Nat) : List Nat × List Nat :=
  let both := (src.map fun w => [(riffle W w).1, (riffle W w).2]).flatten
  (both.take src.length, both.drop src.length)

/-- Lambda `square_step`: `poly(x) <- poly(x)^2 mod c(x)` for
`degree[poly] < n`.  Riffles `poly` into `lo` and `hi` with
`poly^2 = lo(x) + x^n hi(x)`, then folds the high part back in by xoring
the precomputed `power_mod` entries for every set coefficient of `hi`,
stepping by 2 from `hi_first` to `hi_final` (interleaving only sets bits
at even offsets). -/
def square_step (W : Nat) (p poly : List Nat) : List Nat :=
  let lohi := riffle_arr W poly
  let lo := lohi.1
  let hi := lohi.2
  match first_set W hi with
  | none => lo
  | some hi_first =>
    let hi_final := (final_set W hi).getD 0
    (List.range' hi_first ((hi_final - hi_first) / 2 + 1) 2).foldl
      (fun acc i => if test W hi i then add acc (power_mod W p i) else acc) lo

/-- The square-and-multiply loop of `reduce` for a literal `J > n`: for
each remaining bit of `J` below the leading one (tracked by the moving
mask `J_bit`), square `r` and, when the bit is set, multiply by `x`. -/
def smul_loop (W : Nat) (p : List Nat) (J J_bit : Nat) (r : List Nat) : List Nat :=
  if h : J_bit = 0 then r
  else
    let r := square_step W p r
    let r := if J &&& J_bit ≠ 0 then times_x_step W p r else r
    smul_loop W p J (J_bit >>> 1) r
termination_by J_bit
decreasing_by
  simp only [Nat.shiftRight_succ, Nat.shiftRight_zero]
  exact Nat.div_lt_self (Nat.pos_of_ne_zero h) (by omega)

/-- Embedding of `xso::internal::reduce`: computes `x^e mod c(x)` for
`e = J` or `e = 2^J` and `c(x) = x^n + p(x)`, `n = N * W`, returning the
result in the same packed-word format as `p`. -/
def reduce (W : Nat) (p : List Nat) (J : Nat) (J_is_pow2 : Bool) : List Nat :=
  let N := p.length
  let n := N * W
  let r := List.replicate N 0
  if J_is_pow2 then
    (square_step W p)^[J] (set W r 1)
  else if J < n then set W r J
  else if J = n then p
  else
    let J_bit := (1 <<< (J.size - 1)) >>> 1
    smul_loop W p J J_bit (set W r 1)

end xso.internal

/-! ### Code layer: the `xso::xoshiro` state class -/

namespace xso.xoshiro

/-- The `step()` method of `xso::xoshiro<4, T, A, B>`, translated with one
`let` per C++ statement (each statement reads the values produced by the
previous ones). -/
def step4 (W A B : Nat) (s : List Nat) : List Nat :=
  let s0 := s.getD 0 0
  let s1 := s.getD 1 0
  let s2 := s.getD 2 0
  let s3 := s.getD 3 0
  let tmp := (s1 <<< A) % 2 ^ W
  let s2 := s2 ^^^ s0
  let s3 := s3 ^^^ s1
  let s1 := s1 ^^^ s2
  let s0 := s0 ^^^ s3
  let s2 := s2 ^^^ tmp
  let s3 := rotl W s3 B
  [s0, s1, s2, s3]

/-- The `step()` method of `xso::xoshiro<8, T, A, B>`, translated with one
`let` per C++ statement. -/
def step8 (W A B : Nat) (s : List Nat) : List Nat :=
  let s0 := s.getD 0 0
  let s1 := s.getD 1 0
  let s2 := s.getD 2 0
  let s3 := s.getD 3 0
  let s4 := s.getD 4 0
  let s5 := s.getD 5 0
  let s6 := s.getD 6 0
  let s7 := s.getD 7 0
  let tmp := (s1 <<< A) % 2 ^ W
  let s2 := s2 ^^^ s0
  let s5 := s5 ^^^ s1
  let s1 := s1 ^^^ s2
  let s7 := s7 ^^^ s3
  let s3 := s3 ^^^ s4
  let s4 := s4 ^^^ s5
  let s0 := s0 ^^^ s6
  let s6 := s6 ^^^ s7
  let s6 := s6 ^^^ tmp
  let s7 := rotl W s7 B
  [s0, s1, s2, s3, s4, s5, s6, s7]

/-- The `step()` dispatch of `xso::xoshiro<N, T, A, B>`: hard-coded
formulas exist only for `N = 4` and `N = 8`; any other `N` fails to build
in C++ (`static_assert`), so the identity branch below is unreachable for
every instantiable parameterization. -/
def step (N W A B : Nat) (s : List Nat) : List Nat :=
  if N = 4 then step4 W A B s
  else if N = 8 then step8 W A B s
  else s

/-- The default-initialised state array `std::array<T, N> m_state = {1}`:
first word 1, remaining words 0. -/
def default_state (N : Nat) : List Nat := 1 :: List.replicate (N - 1) 0

/-- The precomputed characteristic-coefficient table of
`xso::xoshiro::characteristic_coefficients`: the chain of `if constexpr`
matches on the word type and the parameters, and the final `else` throws
(`none` here). -/
def characteristic_coefficients (N W A B : Nat) : Option (List Nat) :=
  if W = 32 ∧ N = 4 ∧ A = 9 ∧ B = 11 then
    some [0xde18fc01, 0x1b489db6, 0x6254b1, 0xfc65a2]
  else if W = 64 ∧ N = 4 ∧ A = 17 ∧ B = 45 then
    some [0x9d116f2bb0f0f001, 0x280002bcefd1a5e, 0x4b4edcf26259f85, 0x3c03c3f3ecb19]
  else if W = 64 ∧ N = 8 ∧ A = 11 ∧ B = 21 then
    some [0xcf3cff0c00000001, 0x7fdc78d886f00c63, 0xf05e63fca6d7b781, 0x7a67058e7bbab6f0,
          0xf11eef832e32518f, 0x51ba7c47edc758ad, 0x8f2d27268ce4b20b, 0x500055d8b77f]
  else none

end xso.xoshiro

/-! ### Code layer: the `xso::xoroshiro` state class -/

namespace xso

/-- The data members of `xso::xoroshiro<N, T, A, B, C>`: the state array
`m_state` (used as a ring buffer for `N > 2`) and `m_final`, the current
physical location of the final logical word of state. -/
structure xoroshiro_state where
  m_state : List Nat
  m_final : Nat

end xso

namespace xso.xoroshiro

/-- The `operator[]` of `xso::xoroshiro`: logical word `i` lives at
physical slot `(i + m_final + 1) % N`. -/
def elem (N : Nat) (st : xoroshiro_state) (i : Nat) : Nat :=
  st.m_state.getD ((i + st.m_final + 1) % N) 0

/-- The `get_state` method: reads the logical words in order, untangling
the ring buffer. -/
def get_state (N : Nat) (st : xoroshiro_state) : List Nat :=
  (List.range N).map (elem N st)

/-- The `seed` method: copies the words in and resets `m_final = N - 1`
so that logical and physical order coincide. -/
def seed (N : Nat) (ws : List Nat) : xoroshiro_state :=
  ⟨ws, N - 1⟩

/-- The default-constructed state: `m_state = {1}` and `m_final = N - 1`. -/
def default_state (N : Nat) : xoroshiro_state :=
  ⟨1 :: List.replicate (N - 1) 0, N - 1⟩

/-- The `simple_step` realization: shift the array down one slot and
recompute the first and final words explicitly (the source's shift loop
runs over `i = 0..N-3`, and the two writes at `N-2` and `N-1` happen after
it, so for `N = 2` the write at `N-2 = 0` is the one that lands). -/
def simple_step (W N A B C : Nat) (m : List Nat) : List Nat :=
  let s0 := m.getD 0 0
  let s1 := m.getD (N - 1) 0
  let s1 := s1 ^^^ s0
  (List.range N).map fun i =>
    if i = N - 2 then (rotl W s0 A) ^^^ ((s1 <<< B) % 2 ^ W) ^^^ s1
    else if i = N - 1 then rotl W s1 C
    else m.getD (i + 1) 0

/-- The `clever_step` realization: update the two physical slots holding
the final and first logical words, then advance `m_final`, which rotates
the ring buffer by one slot. -/
def clever_step (W N A B C : Nat) (st : xoroshiro_state) : xoroshiro_state :=
  let i_final := st.m_final
  let i_first := (st.m_final + 1) % N
  let s_final := st.m_state.getD i_final 0
  let s_first := st.m_state.getD i_first 0
  let s_final := s_final ^^^ s_first
  let arr := st.m_state.set i_final ((rotl W s_first A) ^^^ ((s_final <<< B) % 2 ^ W) ^^^ s_final)
  let arr := arr.set i_first (rotl W s_final C)
  ⟨arr, i_first⟩

/-- The `step()` dispatch of `xso::xoroshiro`: `simple_step` for `N = 2`
(which leaves `m_final` untouched), `clever_step` otherwise. -/
def step (W N A B C : Nat) (st : xoroshiro_state) : xoroshiro_state :=
  if N = 2 then ⟨simple_step W N A B C st.m_state, st.m_final⟩
  else clever_step W N A B C st

/-- The precomputed characteristic-coefficient table of
`xso::xoroshiro::characteristic_coefficients`. -/
def characteristic_coefficients (N W A B C : Nat) : Option (List Nat) :=
  if W = 32 ∧ N = 2 ∧ A = 26 ∧ B = 9 ∧ C = 13 then
    some [0x6e2286c1, 0x53be9da]
  else if W = 64 ∧ N = 2 ∧ A = 24 ∧ B = 16 ∧ C = 37 then
    some [0x95b8f76579aa001, 0x8828e513b43d5]
  else if W = 64 ∧ N = 2 ∧ A = 49 ∧ B = 21 ∧ C = 28 then
    some [0x8dae70779760b081, 0x31bcf2f855d6e5]
  else if W = 64 ∧ N = 16 ∧ A = 25 ∧ B = 27 ∧ C = 36 then
    some [0x5cfeb8cc48ddb211, 0xb73e379d035a06dd, 0x17d5100a20a0350e, 0x7550223f68f98cac,
          0x29d373b5c5ed3459, 0x3689b412ef70de48, 0xa1d3b6ee079a7cc6, 0x9bf0b669abd100f8,
          0x955c84e105f60997, 0x6ca140c61889cddd, 0xabaf68c5fc3a0e4a, 0xa46134526b83adc5,
          0x710704d05683d63,  0x580d080b44b606a2, 0x8040a0580158a1,   0x800081]
  else none

end xso.xoroshiro

/-! ### Code layer: jump machinery and stream partitioning -/

namespace xso

/-- The interface a `State` template argument offers to the non-member
jump machinery: word width and count, `step()`, `operator[]`, `seed`, and
the precomputed characteristic coefficients (with the throwing lookup
modelled as an `Option`). -/
structure StateModel where
  σ : Type
  W : Nat
  N : Nat
  step : σ → σ
  elem : σ → Nat → Nat
  seed : List Nat → σ
  characteristic_coefficients : Option (List Nat)

/-- The observable (logical) state: the `N` words read off through
`operator[]`, exactly what `get_state` copies out. -/
def logical (M : StateModel) (s : M.σ) : List Nat :=
  (List.range M.N).map (M.elem s)

/-- Embedding of `xso::jump_coefficients<State>(N, N_is_pow2)`: fetch the
precomputed characteristic coefficients and reduce (`none` models the
throw on a missing table entry). -/
def jump_coefficients (M : StateModel) (J : Nat) (J_is_pow2 : Bool) : Option (List Nat) :=
  M.characteristic_coefficients.map fun p => internal.reduce M.W p J J_is_pow2

/-- Embedding of `xso::jump(state, jump_coeff)`: walk every bit `b` of
every word `i` of the jump polynomial; when the bit is set, xor the
current state words (read through `operator[]`) into `sum`; step the state
once per bit either way; finally reseed the state from `sum`. -/
def jump (M : StateModel) (state : M.σ) (jump_coeff : List Nat) : M.σ :=
  let word_count := M.N
  let bits_per_word := M.W
  let start : M.σ × List Nat := (state, List.replicate word_count 0)
  let result := (List.range word_count).foldl
    (fun acc i =>
      let ji := jump_coeff.getD i 0
      (List.range bits_per_word).foldl
        (fun acc2 b =>
          let sum := if ji &&& 1 <<< b ≠ 0 then
              (List.range word_count).map (fun w => acc2.2.getD w 0 ^^^ M.elem acc2.1 w)
            else acc2.2
          (M.step acc2.1, sum))
        acc)
    start
  M.seed result.2

/-- The number of `state.step()` calls performed by `xso::jump` for a
given word count, word width, and jump polynomial: the loop body calls
`step()` unconditionally once per bit of every word. -/
def jump_step_calls (N W : Nat) (jump_coeff : List Nat) : Nat :=
  (List.range N).foldl
    (fun calls _i => (List.range W).foldl (fun calls2 _b => calls2 + 1) calls)
    0

/-- The data members of `xso::partition<State>`. -/
structure Partition (M : StateModel) where
  m_state : M.σ
  m_jump_coefficients : List Nat

/-- The `xso::partition` constructor: silently bump `n_partitions = 0` to
1, compute `n = bit_width(n_partitions - 1)` (so `2^n >= n_partitions`),
and cache the jump coefficients for a jump of `2^(n_bits - n)` steps.
`none` models the throw on a missing characteristic table entry. -/
def partition_new (M : StateModel) (state : M.σ) (n_partitions : Nat) :
    Option (Partition M) :=
  let n_partitions := if n_partitions = 0 then 1 else n_partitions
  let n_bits := M.N * M.W
  let n := (n_partitions - 1).size
  let power_2 := n_bits - n
  (jump_coefficients M power_2 true).map fun jc => ⟨state, jc⟩

/-- The `next()` method: return the current frontier state and advance the
frontier by one jump with the cached coefficients. -/
def Partition.next (M : StateModel) (pt : Partition M) : M.σ × Partition M :=
  (pt.m_state, ⟨jump M pt.m_state pt.m_jump_coefficients, pt.m_jump_coefficients⟩)

/-- The state returned by the `(i+1)`-th call of `next()`: the frontier
after `i` jumps. -/
def partition_nth (M : StateModel) (pt : Partition M) (i : Nat) : M.σ :=
  (fun s => jump M s pt.m_jump_coefficients)^[i] pt.m_state

/-- The `xso::xoshiro` family packaged as a `StateModel`. -/
def xoshiro.model (N W A B : Nat) : StateModel where
  σ := List Nat
  W := W
  N := N
  step := xoshiro.step N W A B
  elem := fun s i => s.getD i 0
  seed := fun ws => ws
  characteristic_coefficients := xoshiro.characteristic_coefficients N W A B

/-- The `xso::xoroshiro` family packaged as a `StateModel`. -/
def xoroshiro.model (N W A B C : Nat) : StateModel where
  σ := xoroshiro_state
  W := W
  N := N
  step := xoroshiro.step W N A B C
  elem := xoroshiro.elem N
  seed := xoroshiro.seed N
  characteristic_coefficients := xoroshiro.characteristic_coefficients N W A B C

/-! ### Theorems: Nat bit-twiddling helpers -/

theorem shiftLeft_xor_distrib (a b k : Nat) : (a ^^^ b) <<< k = a <<< k ^^^ b <<< k := by
  apply Nat.eq_of_testBit_eq
  intro i
  simp only [Nat.testBit_shiftLeft, Nat.testBit_xor]
  cases Decidable.em (k ≤ i) with
  | inl h => simp [h]
  | inr h => simp [h]

theorem shiftRight_xor_distrib (a b k : Nat) : (a ^^^ b) >>> k = a >>> k ^^^ b >>> k := by
  apply Nat.eq_of_testBit_eq
  intro i
  simp [Nat.testBit_shiftRight]

theorem testBit_size_sub_one {a : Nat} (h : a ≠ 0) : a.testBit (a.size - 1) = true := by
  have h1 : 2 ^ (a.size - 1) ≤ a := by
    apply Nat.lt_size.mp
    have := Nat.size_pos.mpr (Nat.pos_of_ne_zero h)
    omega
  have h2 : a < 2 ^ a.size := Nat.lt_size_self a
  have h4 : 2 ^ a.size = 2 ^ (a.size - 1) * 2 := by
    rw [← Nat.pow_succ]
    congr 1
    have := Nat.size_pos.mpr (Nat.pos_of_ne_zero h)
    omega
  have h3 : a / 2 ^ (a.size - 1) = 1 := by
    have h5 : a / 2 ^ (a.size - 1) < 2 := Nat.div_lt_of_lt_mul (by omega)
    have h6 : 1 ≤ a / 2 ^ (a.size - 1) :=
      (Nat.one_le_div_iff (Nat.pos_pow_of_pos _ (by omega))).mpr h1
    omega
  simp [Nat.testBit_to_div_mod, h3]

theorem testBit_false_of_size_le {a i : Nat} (h : a.size ≤ i) : a.testBit i = false :=
  Nat.testBit_lt_two_pow (lt_of_lt_of_le (Nat.lt_size_self a)
    (Nat.pow_le_pow_right (by omega) h))

theorem xor_left_comm (a b c : Nat) : a ^^^ (b ^^^ c) = b ^^^ (a ^^^ c) := by
  rw [← Nat.xor_assoc, Nat.xor_comm a b, Nat.xor_assoc]

theorem testBit_lt_two (x : Nat) (i : Nat) (h : x < 2) : x.testBit (i + 1) = false := by
  apply Nat.testBit_lt_two_pow
  have h2p : (2 : Nat) ^ 1 ≤ 2 ^ (i + 1) := Nat.pow_le_pow_right (by omega) (by omega)
  rw [pow_one] at h2p
  omega

theorem lowbit_xor_shl {x : Nat} (y : Nat) (h : x < 2) : x ^^^ y <<< 1 = 2 * y + x := by
  apply Nat.eq_of_testBit_eq
  intro i
  cases i with
  | zero =>
    have h1 : (y <<< 1).testBit 0 = false := by simp [Nat.testBit_shiftLeft]
    have h2 : (2 * y + x) % 2 = x % 2 := by omega
    rw [Nat.testBit_xor, h1, Bool.xor_false, Nat.testBit_zero, Nat.testBit_zero, h2]
  | succ i =>
    have h1 : x.testBit (i + 1) = false := testBit_lt_two x i h
    have h2 : (2 * y + x) / 2 = y := by omega
    rw [Nat.testBit_xor, h1, Bool.false_xor, Nat.testBit_add_one, Nat.testBit_add_one, h2]
    have h3 : y <<< 1 / 2 = y := by
      rw [Nat.shiftLeft_eq, pow_one]
      omega
    rw [h3]

theorem xor_mod_two (a b : Nat) : (a ^^^ b) % 2 = (a % 2 + b % 2) % 2 := by
  have hx := Nat.xor_mod_two_eq_one (a := a) (b := b)
  rcases Nat.mod_two_eq_zero_or_one a with hpa | hpa <;>
    rcases Nat.mod_two_eq_zero_or_one b with hpb | hpb <;>
      simp [hpa, hpb] at hx ⊢ <;> omega

theorem split_bits (a : Nat) : a % 2 ^^^ (a / 2) <<< 1 = a := by
  rw [lowbit_xor_shl _ (by omega)]
  omega

theorem size_xor_of_size_lt {a b : Nat} (h : b.size < a.size) :
    (a ^^^ b).size = a.size := by
  have ha : a ≠ 0 := by
    intro hz
    rw [hz] at h
    simp [Nat.size_zero] at h
  apply le_antisymm
  · apply Nat.size_le.mpr
    exact Nat.xor_lt_two_pow (Nat.lt_size_self a)
      (lt_of_lt_of_le (Nat.lt_size_self b) (Nat.pow_le_pow_right (by omega) (by omega)))
  · have htop : (a ^^^ b).testBit (a.size - 1) = true := by
      rw [Nat.testBit_xor, testBit_size_sub_one ha,
        testBit_false_of_size_le (show b.size ≤ a.size - 1 by omega)]
      rfl
    have h1 : 2 ^ (a.size - 1) ≤ a ^^^ b := Nat.testBit_implies_ge htop
    have h2 := Nat.size_pos.mpr (Nat.pos_of_ne_zero ha)
    have h3 := Nat.lt_size.mpr h1
    omega

theorem size_shiftLeft_eq {a : Nat} (h : a ≠ 0) (k : Nat) : (a <<< k).size = a.size + k :=
  Nat.size_shiftLeft h k

/-! ### Theorems: carry-less multiplication `pmul` -/

theorem pmul_zero_left (b : Nat) : pmul 0 b = 0 := by
  rw [pmul]
  simp

theorem pmul_bits (a b : Nat) :
    pmul a b = (if a % 2 = 1 then b else 0) ^^^ (pmul (a / 2) b) <<< 1 := by
  by_cases h : a = 0
  · subst h
    rw [pmul_zero_left]
    simp [pmul_zero_left]
  · rw [pmul, dif_neg h]

theorem pmul_zero_right (a : Nat) : pmul a 0 = 0 := by
  induction a using Nat.strong_induction_on with
  | _ a ih =>
    by_cases h : a = 0
    · subst h; exact pmul_zero_left 0
    · rw [pmul_bits, ih (a / 2) (Nat.div_lt_self (Nat.pos_of_ne_zero h) (by omega))]
      simp

theorem pmul_one_left (b : Nat) : pmul 1 b = b := by
  rw [pmul_bits]
  simp [pmul_zero_left]

theorem pmul_one_right (a : Nat) : pmul a 1 = a := by
  induction a using Nat.strong_induction_on with
  | _ a ih =>
    by_cases h : a = 0
    · subst h; exact pmul_zero_left 1
    · rw [pmul_bits, ih (a / 2) (Nat.div_lt_self (Nat.pos_of_ne_zero h) (by omega))]
      have hif : (if a % 2 = 1 then 1 else 0) = a % 2 := by
        by_cases hp : a % 2 = 1 <;> simp [hp] <;> omega
      rw [hif, split_bits]

theorem pmul_xor_left (a b c : Nat) : pmul (a ^^^ b) c = pmul a c ^^^ pmul b c := by
  induction a using Nat.strong_induction_on generalizing b with
  | _ a ih =>
    by_cases h : a = 0
    · subst h
      simp [pmul_zero_left]
    · rw [pmul_bits (a ^^^ b), pmul_bits a, pmul_bits b, Nat.xor_div_two,
        ih (a / 2) (Nat.div_lt_self (Nat.pos_of_ne_zero h) (by omega)) (b / 2),
        shiftLeft_xor_distrib]
      have hpar : (if (a ^^^ b) % 2 = 1 then c else 0) =
          (if a % 2 = 1 then c else 0) ^^^ (if b % 2 = 1 then c else 0) := by
        have hx := xor_mod_two a b
        rcases Nat.mod_two_eq_zero_or_one a with hpa | hpa <;>
          rcases Nat.mod_two_eq_zero_or_one b with hpb | hpb <;>
            rw [hpa, hpb] at hx <;> norm_num at hx <;>
              simp [hx, hpa, hpb, Nat.xor_self]
      rw [hpar]
      simp [Nat.xor_assoc, Nat.xor_comm, xor_left_comm]

theorem pmul_shiftLeft_left (a b : Nat) : pmul (a <<< 1) b = (pmul a b) <<< 1 := by
  rw [pmul_bits (a <<< 1)]
  have h1 : a <<< 1 % 2 = 0 := by
    rw [Nat.shiftLeft_eq]
    omega
  have h2 : a <<< 1 / 2 = a := by
    rw [Nat.shiftLeft_eq]
    omega
  simp [h1, h2]

theorem pmul_shiftLeft_right (a b : Nat) : pmul a (b <<< 1) = (pmul a b) <<< 1 := by
  induction a using Nat.strong_induction_on with
  | _ a ih =>
    by_cases h : a = 0
    · simp [h, pmul_zero_left]
    · rw [pmul_bits a (b <<< 1), pmul_bits a b,
        ih (a / 2) (Nat.div_lt_self (Nat.pos_of_ne_zero h) (by omega)),
        shiftLeft_xor_distrib]
      congr 1
      by_cases hp : a % 2 = 1 <;> simp [hp]

theorem pmul_xor_right (a b c : Nat) : pmul a (b ^^^ c) = pmul a b ^^^ pmul a c := by
  induction a using Nat.strong_induction_on with
  | _ a ih =>
    by_cases h : a = 0
    · simp [h, pmul_zero_left]
    · rw [pmul_bits a (b ^^^ c), pmul_bits a b, pmul_bits a c,
        ih (a / 2) (Nat.div_lt_self (Nat.pos_of_ne_zero h) (by omega)),
        shiftLeft_xor_distrib]
      have hpar : (if a % 2 = 1 then b ^^^ c else 0) =
          (if a % 2 = 1 then b else 0) ^^^ (if a % 2 = 1 then c else 0) := by
        by_cases hp : a % 2 = 1 <;> simp [hp]
      rw [hpar]
      simp [Nat.xor_assoc, Nat.xor_comm, xor_left_comm]

theorem pmul_assoc (a b c : Nat) : pmul (pmul a b) c = pmul a (pmul b c) := by
  induction a using Nat.strong_induction_on with
  | _ a ih =>
    by_cases h : a = 0
    · simp [h, pmul_zero_left]
    · rw [pmul_bits a b, pmul_xor_left, pmul_shiftLeft_left,
        ih (a / 2) (Nat.div_lt_self (Nat.pos_of_ne_zero h) (by omega)),
        pmul_bits a (pmul b c)]
      congr 1
      by_cases hp : a % 2 = 1 <;> simp [hp, pmul_zero_left]

theorem pmul_comm (a b : Nat) : pmul a b = pmul b a := by
  induction a using Nat.strong_induction_on with
  | _ a ih =>
    by_cases h : a = 0
    · simp [h, pmul_zero_left, pmul_zero_right]
    · have hsplit : a = (a % 2) ^^^ (a / 2) <<< 1 := (split_bits a).symm
      rw [pmul_bits a b]
      conv_rhs => rw [hsplit]
      rw [pmul_xor_right, pmul_shiftLeft_right,
        ← ih (a / 2) (Nat.div_lt_self (Nat.pos_of_ne_zero h) (by omega))]
      congr 1
      rcases Nat.mod_two_eq_zero_or_one a with hp | hp <;>
        simp [hp, pmul_one_right, pmul_zero_right]

theorem pmul_pow_left (k b : Nat) : pmul (2 ^ k) b = b <<< k := by
  induction k with
  | zero => simp [pmul_one_left]
  | succ k ih =>
    have : (2 : Nat) ^ (k + 1) = (2 ^ k) <<< 1 := by
      rw [Nat.shiftLeft_eq, Nat.pow_succ, pow_one]
    rw [this, pmul_shiftLeft_left, ih]
    apply Nat.eq_of_testBit_eq
    intro i
    simp only [Nat.testBit_shiftLeft]
    by_cases h1 : k + 1 ≤ i
    · simp [h1, show 1 ≤ i by omega, show k ≤ i - 1 by omega,
        show i - 1 - k = i - (k + 1) by omega]
    · by_cases h2 : 1 ≤ i <;> simp [h1, h2] <;> omega

theorem size_div_two {a : Nat} (h : a ≠ 0) : (a / 2).size = a.size - 1 := by
  have hs := Nat.size_pos.mpr (Nat.pos_of_ne_zero h)
  apply le_antisymm
  · apply Nat.size_le.mpr
    have h2 : a < 2 ^ a.size := Nat.lt_size_self a
    have h3 : (2 : Nat) ^ a.size = 2 ^ (a.size - 1) * 2 := by
      rw [← Nat.pow_succ]
      congr 1
      omega
    exact Nat.div_lt_of_lt_mul (by omega)
  · rcases Nat.eq_zero_or_pos (a / 2) with hz | hp
    · have : a = 1 := by omega
      simp [this, Nat.size_one, hz, Nat.size_zero]
    · apply Nat.le_of_lt_succ
      have h1 : a.size - 1 - 1 < (a / 2).size := by
        apply Nat.lt_size.mpr
        have h2 : 2 ^ (a.size - 1) ≤ a := Nat.lt_size.mp (by omega)
        rcases Nat.eq_zero_or_pos (a.size - 1) with hz1 | hp1
        · simp [hz1] at *
          omega
        · have h3 : (2 : Nat) ^ (a.size - 1) = 2 ^ (a.size - 1 - 1) * 2 := by
            rw [← Nat.pow_succ]
            congr 1
            omega
          rw [h3] at h2
          exact Nat.le_div_iff_mul_le (by omega) |>.mpr h2
      omega

theorem pmul_size {a b : Nat} (ha : a ≠ 0) (hb : b ≠ 0) :
    (pmul a b).size = a.size + b.size - 1 := by
  induction a using Nat.strong_induction_on with
  | _ a ih =>
    by_cases h2 : a / 2 = 0
    · have h1 : a = 1 := by omega
      subst h1
      rw [pmul_one_left]
      simp [Nat.size_one]
    · rw [pmul_bits]
      have hdiv : a / 2 < a := Nat.div_lt_self (Nat.pos_of_ne_zero ha) (by omega)
      have hrec := ih (a / 2) hdiv h2
      have hrecnz : pmul (a / 2) b ≠ 0 := by
        intro hzz
        rw [hzz, Nat.size_zero] at hrec
        have := Nat.size_pos.mpr (Nat.pos_of_ne_zero h2)
        have := Nat.size_pos.mpr (Nat.pos_of_ne_zero hb)
        omega
      have hsh : ((pmul (a / 2) b) <<< 1).size = (a / 2).size + b.size := by
        rw [size_shiftLeft_eq hrecnz, hrec]
        have := Nat.size_pos.mpr (Nat.pos_of_ne_zero h2)
        have := Nat.size_pos.mpr (Nat.pos_of_ne_zero hb)
        omega
      have hsz2 : (if a % 2 = 1 then b else 0).size < ((pmul (a / 2) b) <<< 1).size := by
        have := Nat.size_pos.mpr (Nat.pos_of_ne_zero h2)
        by_cases hp : a % 2 = 1 <;> simp [hp, Nat.size_zero, hsh]
        · omega
        · have := Nat.size_pos.mpr (Nat.pos_of_ne_zero hb)
          omega
      rw [Nat.xor_comm, size_xor_of_size_lt hsz2, hsh, size_div_two ha]
      have := Nat.size_pos.mpr (Nat.pos_of_ne_zero ha)
      omega

theorem pmul_ne_zero {a b : Nat} (ha : a ≠ 0) (hb : b ≠ 0) : pmul a b ≠ 0 := by
  intro hz
  have := pmul_size ha hb
  rw [hz, Nat.size_zero] at this
  have := Nat.size_pos.mpr (Nat.pos_of_ne_zero ha)
  have := Nat.size_pos.mpr (Nat.pos_of_ne_zero hb)
  omega

/-! ### Theorems: GF(2) squaring via `spread` -/

theorem spread_zero : spread 0 = 0 := by
  rw [spread]
  simp

theorem spread_bits (x : Nat) : spread x = (x % 2) ||| (spread (x / 2)) <<< 2 := by
  by_cases h : x = 0
  · subst h
    rw [spread_zero]
    simp [spread_zero]
  · rw [spread, dif_neg h]

theorem spread_testBit (x t : Nat) :
    (spread x).testBit t = (decide (t % 2 = 0) && x.testBit (t / 2)) := by
  induction x using Nat.strong_induction_on generalizing t with
  | _ x ih =>
    by_cases h : x = 0
    · subst h
      simp [spread_zero]
    · rw [spread_bits]
      match t with
      | 0 =>
        have h1 : ((spread (x / 2)) <<< 2).testBit 0 = false := by
          simp [Nat.testBit_shiftLeft]
        have h2 : x % 2 % 2 = x % 2 := by omega
        simp [Nat.testBit_or, h1, Nat.testBit_zero, h2]
      | 1 =>
        have h1 : ((spread (x / 2)) <<< 2).testBit 1 = false := by
          simp [Nat.testBit_shiftLeft]
        have h2 : (x % 2).testBit 1 = false := testBit_lt_two _ 0 (by omega)
        simp [Nat.testBit_or, h1, h2]
      | t + 2 =>
        have h1 : (x % 2).testBit (t + 2) = false := testBit_lt_two _ (t + 1) (by omega)
        have h2 : ((spread (x / 2)) <<< 2).testBit (t + 2) = (spread (x / 2)).testBit t := by
          simp [Nat.testBit_shiftLeft]
        rw [Nat.testBit_or, h1, Bool.false_or, h2,
          ih (x / 2) (Nat.div_lt_self (Nat.pos_of_ne_zero h) (by omega))]
        have h3 : (t + 2) % 2 = t % 2 := by omega
        have h4 : (t + 2) / 2 = t / 2 + 1 := by omega
        rw [h3, h4, Nat.testBit_add_one]

theorem spread_xor (a b : Nat) : spread (a ^^^ b) = spread a ^^^ spread b := by
  apply Nat.eq_of_testBit_eq
  intro t
  rw [Nat.testBit_xor, spread_testBit, spread_testBit, spread_testBit, Nat.testBit_xor]
  cases ht : decide (t % 2 = 0) <;> simp

theorem spread_shiftLeft (x : Nat) : spread (x <<< 1) = spread x <<< 2 := by
  apply Nat.eq_of_testBit_eq
  intro t
  rw [spread_testBit, Nat.testBit_shiftLeft, Nat.testBit_shiftLeft, spread_testBit]
  by_cases he : t % 2 = 0
  · by_cases h2 : 2 ≤ t
    · have ha : 1 ≤ t / 2 := by omega
      have hb : (t - 2) % 2 = 0 := by omega
      have hc : (t - 2) / 2 = t / 2 - 1 := by omega
      simp [he, h2, ha, hb, hc]
    · have ht0 : t = 0 := by omega
      subst ht0
      simp
  · by_cases h2 : 2 ≤ t
    · have hb : ¬((t - 2) % 2 = 0) := by omega
      simp [he, h2, hb]
    · have ht1 : t = 1 := by omega
      subst ht1
      simp

theorem shiftLeft_add_eq (x a b : Nat) : x <<< (a + b) = (x <<< a) <<< b := by
  simp only [Nat.shiftLeft_eq, pow_add]
  ring

theorem or_shl_eq_xor_shl {x : Nat} (z k : Nat) (h : x < 2 ^ k) :
    x ||| z <<< k = x ^^^ z <<< k := by
  apply Nat.eq_of_testBit_eq
  intro t
  rw [Nat.testBit_or, Nat.testBit_xor]
  by_cases ht : k ≤ t
  · rw [Nat.testBit_lt_two_pow (lt_of_lt_of_le h (Nat.pow_le_pow_right (by omega) ht))]
    simp
  · have : (z <<< k).testBit t = false := by simp [Nat.testBit_shiftLeft]; omega
    simp [this]

theorem pmul_self (a : Nat) : pmul a a = spread a := by
  induction a using Nat.strong_induction_on with
  | _ a ih =>
    by_cases h : a = 0
    · simp [h, pmul_zero_left, spread_zero]
    · have hdiv := Nat.div_lt_self (Nat.pos_of_ne_zero h) (show 1 < 2 by omega)
      have hx : pmul (a / 2) a = pmul (a / 2) (a % 2) ^^^ (spread (a / 2)) <<< 1 := by
        have h4 := split_bits a
        calc pmul (a / 2) a = pmul (a / 2) (a % 2 ^^^ (a / 2) <<< 1) := by rw [h4]
          _ = pmul (a / 2) (a % 2) ^^^ (pmul (a / 2) (a / 2)) <<< 1 := by
              rw [pmul_xor_right, pmul_shiftLeft_right]
          _ = pmul (a / 2) (a % 2) ^^^ (spread (a / 2)) <<< 1 := by rw [ih (a / 2) hdiv]
      have hsh : spread (a / 2) <<< 1 <<< 1 = spread (a / 2) <<< 2 := by
        rw [← shiftLeft_add_eq]
      have hmain : pmul a a =
          (if a % 2 = 1 then a else 0) ^^^
            ((pmul (a / 2) (a % 2)) <<< 1 ^^^ (spread (a / 2)) <<< 2) := by
        rw [pmul_bits a a, hx, shiftLeft_xor_distrib, hsh]
      rw [hmain]
      rcases Nat.mod_two_eq_zero_or_one a with hp | hp
      · rw [hp]
        conv_rhs => rw [spread_bits a, hp]
        simp [pmul_zero_right]
      · rw [hp, if_pos rfl, pmul_one_right]
        conv_rhs => rw [spread_bits a, hp]
        rw [← Nat.xor_assoc]
        have hxa : a ^^^ (a / 2) <<< 1 = 1 := by
          have h4 := split_bits a
          calc a ^^^ (a / 2) <<< 1
              = (a % 2 ^^^ (a / 2) <<< 1) ^^^ (a / 2) <<< 1 := by rw [h4]
            _ = a % 2 := by rw [Nat.xor_assoc, Nat.xor_self, Nat.xor_zero]
            _ = 1 := hp
        rw [hxa, or_shl_eq_xor_shl _ 2 (by omega)]

theorem spread_lt_two_pow {x m : Nat} (h : x < 2 ^ m) : spread x < 2 ^ (2 * m) := by
  apply Nat.lt_pow_two_of_testBit
  intro i hi
  rw [spread_testBit]
  by_cases he : i % 2 = 0
  · have : m ≤ i / 2 := by omega
    rw [Nat.testBit_lt_two_pow (lt_of_lt_of_le h (Nat.pow_le_pow_right (by omega) this))]
    simp
  · simp [he]

theorem spread_pow (e : Nat) : spread (2 ^ e) = 2 ^ (2 * e) := by
  rw [← pmul_self, pmul_pow_left, Nat.shiftLeft_eq, ← Nat.pow_add]
  congr 1
  omega

theorem spread_pmul (a b : Nat) : spread (pmul a b) = pmul (spread a) (spread b) := by
  induction a using Nat.strong_induction_on with
  | _ a ih =>
    by_cases h : a = 0
    · simp [h, pmul_zero_left, spread_zero]
    · have hdiv := Nat.div_lt_self (Nat.pos_of_ne_zero h) (show 1 < 2 by omega)
      rw [pmul_bits a b, spread_xor, spread_shiftLeft, ih (a / 2) hdiv]
      conv_rhs => rw [spread_bits a]
      rw [or_shl_eq_xor_shl _ 2 (by omega), pmul_xor_left]
      have hsh2 : pmul ((spread (a / 2)) <<< 2) (spread b) =
          (pmul (spread (a / 2)) (spread b)) <<< 2 := by
        have e2 : (spread (a / 2)) <<< 2 = ((spread (a / 2)) <<< 1) <<< 1 :=
          shiftLeft_add_eq _ 1 1
        rw [e2, pmul_shiftLeft_left, pmul_shiftLeft_left, ← shiftLeft_add_eq]
      rw [hsh2]
      congr 1
      rcases Nat.mod_two_eq_zero_or_one a with hp | hp <;>
        simp [hp, pmul_zero_left, pmul_one_left, spread_zero]

/-! ### Theorems: congruence `Cong` and the remainder `pmod` -/

theorem Cong.refl (c a : Nat) : Cong c a a :=
  ⟨0, by rw [pmul_zero_left, Nat.xor_self]⟩

theorem Cong.symm {c a b : Nat} (h : Cong c a b) : Cong c b a := by
  obtain ⟨q, hq⟩ := h
  exact ⟨q, by rw [Nat.xor_comm, hq]⟩

theorem Cong.trans {c a b d : Nat} (h1 : Cong c a b) (h2 : Cong c b d) : Cong c a d := by
  obtain ⟨q1, hq1⟩ := h1
  obtain ⟨q2, hq2⟩ := h2
  refine ⟨q1 ^^^ q2, ?_⟩
  have : a ^^^ d = (a ^^^ b) ^^^ (b ^^^ d) := by
    rw [Nat.xor_assoc, ← Nat.xor_assoc b b d, Nat.xor_self, Nat.zero_xor]
  rw [this, hq1, hq2, pmul_xor_left]

theorem Cong.xor {c a b a' b' : Nat} (h : Cong c a b) (h' : Cong c a' b') :
    Cong c (a ^^^ a') (b ^^^ b') := by
  obtain ⟨q, hq⟩ := h
  obtain ⟨q', hq'⟩ := h'
  refine ⟨q ^^^ q', ?_⟩
  have : (a ^^^ a') ^^^ (b ^^^ b') = (a ^^^ b) ^^^ (a' ^^^ b') := by
    simp [Nat.xor_assoc, Nat.xor_comm, xor_left_comm]
  rw [this, hq, hq', pmul_xor_left]

theorem Cong.shl1 {c a b : Nat} (h : Cong c a b) : Cong c (a <<< 1) (b <<< 1) := by
  obtain ⟨q, hq⟩ := h
  exact ⟨q <<< 1, by rw [← shiftLeft_xor_distrib, hq, pmul_shiftLeft_left]⟩

theorem Cong.square {c a b : Nat} (h : Cong c a b) : Cong c (spread a) (spread b) := by
  obtain ⟨q, hq⟩ := h
  refine ⟨pmul (spread q) c, ?_⟩
  rw [← spread_xor, hq, spread_pmul, pmul_assoc]
  congr 1
  exact (pmul_self c).symm

theorem xor_eq_zero_iff {a b : Nat} : a ^^^ b = 0 ↔ a = b := by
  constructor
  · intro h
    apply Nat.eq_of_testBit_eq
    intro i
    have : (a ^^^ b).testBit i = false := by rw [h]; simp
    rw [Nat.testBit_xor] at this
    cases ha : a.testBit i <;> cases hb : b.testBit i <;> simp_all
  · intro h
    rw [h, Nat.xor_self]

theorem cong_eq_of_lt {c a b : Nat} (h : Cong c a b)
    (ha : a < 2 ^ (c.size - 1)) (hb : b < 2 ^ (c.size - 1)) : a = b := by
  obtain ⟨q, hq⟩ := h
  by_cases hz : pmul q c = 0
  · rw [hz] at hq
    exact xor_eq_zero_iff.mp hq
  · exfalso
    have hqne : q ≠ 0 := by
      intro hq0
      rw [hq0, pmul_zero_left] at hz
      exact hz rfl
    have hcne : c ≠ 0 := by
      intro hc0
      rw [hc0, pmul_zero_right] at hz
      exact hz rfl
    have hsz : (pmul q c).size = q.size + c.size - 1 := pmul_size hqne hcne
    have h1 : (a ^^^ b).size ≤ c.size - 1 :=
      Nat.size_le.mpr (Nat.xor_lt_two_pow ha hb)
    have h2 := Nat.size_pos.mpr (Nat.pos_of_ne_zero hqne)
    have h3 := Nat.size_pos.mpr (Nat.pos_of_ne_zero hcne)
    rw [hq, hsz] at h1
    omega

theorem xor_shl_lt {a c : Nat} (hc : c ≠ 0) (hsz : c.size ≤ a.size) :
    a ^^^ c <<< (a.size - c.size) < 2 ^ (a.size - 1) := by
  have hc1 : 1 ≤ c.size := Nat.size_pos.mpr (Nat.pos_of_ne_zero hc)
  have ha1 : 1 ≤ a.size := le_trans hc1 hsz
  have ha : a ≠ 0 := by
    intro hz
    rw [hz, Nat.size_zero] at ha1
    omega
  apply Nat.lt_pow_two_of_testBit
  intro i hi
  rcases Nat.lt_or_ge i a.size with hi2 | hi2
  · have hieq : i = a.size - 1 := by omega
    have htopc : (c <<< (a.size - c.size)).testBit (a.size - 1) = true := by
      rw [Nat.testBit_shiftLeft]
      have hge : a.size - 1 ≥ a.size - c.size := by omega
      have : a.size - 1 - (a.size - c.size) = c.size - 1 := by omega
      simp [hge, this, testBit_size_sub_one hc]
    rw [Nat.testBit_xor, hieq, testBit_size_sub_one ha, htopc]
    rfl
  · have h1 : a.testBit i = false := testBit_false_of_size_le (by omega)
    have h2 : (c <<< (a.size - c.size)).testBit i = false := by
      apply testBit_false_of_size_le
      rw [size_shiftLeft_eq hc]
      omega
    rw [Nat.testBit_xor, h1, h2]
    rfl

theorem pmod_eq_self {a c : Nat} (h : a.size < c.size) : pmod a c = a := by
  rw [pmod, if_pos (Or.inr h)]

theorem pmod_eq_step {a c : Nat} (hc : c ≠ 0) (hsz : c.size ≤ a.size) :
    pmod a c = pmod (a ^^^ c <<< (a.size - c.size)) c := by
  conv_lhs => rw [pmod]
  rw [if_neg]
  push_neg
  exact ⟨hc, by omega⟩

theorem pmod_lt {a c : Nat} (hc : c ≠ 0) : pmod a c < 2 ^ (c.size - 1) := by
  induction a using Nat.strong_induction_on with
  | _ a ih =>
    by_cases h : a.size < c.size
    · rw [pmod_eq_self h]
      exact lt_of_lt_of_le (Nat.lt_size_self a)
        (Nat.pow_le_pow_right (by omega) (by omega))
    · push_neg at h
      rw [pmod_eq_step hc h]
      apply ih
      calc a ^^^ c <<< (a.size - c.size) < 2 ^ (a.size - 1) := xor_shl_lt hc h
        _ ≤ a := Nat.lt_size.mp (by
            have hc1 : 1 ≤ c.size := Nat.size_pos.mpr (Nat.pos_of_ne_zero hc)
            omega)

theorem pmod_cong {c : Nat} (a : Nat) (hc : c ≠ 0) : Cong c a (pmod a c) := by
  induction a using Nat.strong_induction_on with
  | _ a ih =>
    by_cases h : a.size < c.size
    · rw [pmod_eq_self h]
      exact Cong.refl c a
    · push_neg at h
      rw [pmod_eq_step hc h]
      have hdec : a ^^^ c <<< (a.size - c.size) < a := by
        calc a ^^^ c <<< (a.size - c.size) < 2 ^ (a.size - 1) := xor_shl_lt hc h
          _ ≤ a := Nat.lt_size.mp (by
              have hc1 : 1 ≤ c.size := Nat.size_pos.mpr (Nat.pos_of_ne_zero hc)
              omega)
      refine Cong.trans ?_ (ih _ hdec)
      refine ⟨2 ^ (a.size - c.size), ?_⟩
      rw [pmul_pow_left]
      have : a ^^^ (a ^^^ c <<< (a.size - c.size)) = c <<< (a.size - c.size) := by
        rw [← Nat.xor_assoc, Nat.xor_self, Nat.zero_xor]
      rw [this]

theorem pmod_eq_of_cong {c a b : Nat} (hc : c ≠ 0) (h : Cong c a b)
    (hb : b < 2 ^ (c.size - 1)) : pmod a c = b :=
  cong_eq_of_lt (Cong.trans (Cong.symm (pmod_cong a hc)) h) (pmod_lt hc) hb

theorem size_two_pow_add {n p : Nat} (hp : p < 2 ^ n) : (2 ^ n + p).size = n + 1 := by
  apply le_antisymm
  · apply Nat.size_le.mpr
    have : (2 : Nat) ^ (n + 1) = 2 ^ n + 2 ^ n := by rw [Nat.pow_succ]; omega
    omega
  · apply Nat.lt_size.mpr
    omega

/-! ### Theorems: packed word vectors and `toNat` -/

theorem and_two_pow_ne_zero (x b : Nat) : (x &&& 1 <<< b ≠ 0) ↔ x.testBit b = true := by
  have h1 : (1 : Nat) <<< b = 2 ^ b := by rw [Nat.shiftLeft_eq, Nat.one_mul]
  constructor
  · intro h
    obtain ⟨i, hi⟩ := Nat.ne_zero_implies_bit_true (x := x &&& 1 <<< b) h
    rw [Nat.testBit_and, h1, Nat.testBit_two_pow] at hi
    obtain ⟨h2, h3⟩ : x.testBit i = true ∧ b = i := by simpa using hi
    rw [h3]
    exact h2
  · intro h hz
    have : (x &&& 1 <<< b).testBit b = true := by
      rw [Nat.testBit_and, h, h1, Nat.testBit_two_pow_self]
      rfl
    rw [hz] at this
    simp at this

theorem getD_map_range {n i : Nat} (f : Nat → α) (d : α) (h : i < n) :
    ((List.range n).map f).getD i d = f i := by
  rw [List.getD_eq_getElem?_getD, List.getElem?_eq_getElem (by simpa using h)]
  simp

theorem getD_map_range_ge {n i : Nat} (f : Nat → α) (d : α) (h : n ≤ i) :
    ((List.range n).map f).getD i d = d := by
  rw [List.getD_eq_getElem?_getD, List.getElem?_eq_none (by simpa using h)]
  rfl

theorem getD_ge {v : List α} {i : Nat} (d : α) (h : v.length ≤ i) : v.getD i d = d := by
  rw [List.getD_eq_getElem?_getD, List.getElem?_eq_none h]
  rfl

theorem WFv.getD_lt {W : Nat} {v : List Nat} (hv : ∀ x ∈ v, x < 2 ^ W) (i : Nat) :
    v.getD i 0 < 2 ^ W := by
  by_cases h : i < v.length
  · rw [List.getD_eq_getElem?_getD, List.getElem?_eq_getElem h]
    exact hv _ (List.getElem_mem h)
  · rw [getD_ge 0 (by omega)]
    exact Nat.pos_pow_of_pos _ (by omega)

theorem toNat_nil (W : Nat) : toNat W [] = 0 := rfl

theorem toNat_cons (W w : Nat) (ws : List Nat) :
    toNat W (w :: ws) = w + 2 ^ W * toNat W ws := rfl

theorem toNat_lt {W : Nat} {v : List Nat} (hv : ∀ x ∈ v, x < 2 ^ W) :
    toNat W v < 2 ^ (v.length * W) := by
  induction v with
  | nil => simp [toNat_nil]
  | cons w ws ih =>
    rw [toNat_cons]
    have h1 : w < 2 ^ W := hv w (by simp)
    have h2 : toNat W ws < 2 ^ (ws.length * W) := ih (fun x hx => hv x (by simp [hx]))
    have h3 : (w :: ws).length * W = W + ws.length * W := by
      simp [List.length_cons]
      ring
    rw [h3, pow_add]
    have h4 : 2 ^ W * toNat W ws ≤ 2 ^ W * (2 ^ (ws.length * W) - 1) :=
      Nat.mul_le_mul_left _ (by omega)
    have h5 : 2 ^ W * (2 ^ (ws.length * W) - 1) + 2 ^ W = 2 ^ W * 2 ^ (ws.length * W) := by
      have h6 : 2 ^ (ws.length * W) - 1 + 1 = 2 ^ (ws.length * W) := by
        have := Nat.pos_pow_of_pos (ws.length * W) (show 0 < 2 by omega)
        omega
      calc 2 ^ W * (2 ^ (ws.length * W) - 1) + 2 ^ W
          = 2 ^ W * (2 ^ (ws.length * W) - 1 + 1) := by ring
        _ = 2 ^ W * 2 ^ (ws.length * W) := by rw [h6]
    omega

theorem toNat_testBit {W : Nat} (hW : 1 ≤ W) {v : List Nat}
    (hv : ∀ x ∈ v, x < 2 ^ W) (t : Nat) :
    (toNat W v).testBit t = (v.getD (t / W) 0).testBit (t % W) := by
  induction v generalizing t with
  | nil => simp [toNat_nil]
  | cons w ws ih =>
    rw [toNat_cons]
    have h1 : w < 2 ^ W := hv w (by simp)
    have hsplit : w + 2 ^ W * toNat W ws = 2 ^ W * toNat W ws + w := by omega
    rw [hsplit, Nat.testBit_mul_pow_two_add _ h1]
    by_cases ht : t < W
    · have hd : t / W = 0 := Nat.div_eq_of_lt ht
      have hm : t % W = t := Nat.mod_eq_of_lt ht
      simp [ht, hd, hm]
    · push_neg at ht
      have hd : t / W = (t - W) / W + 1 := Nat.div_eq_sub_div (by omega) ht
      have hm : t % W = (t - W) % W := (Nat.mod_eq_sub_mod ht).symm.symm
      rw [if_neg (by omega), ih (fun x hx => hv x (by simp [hx])) (t - W), hd, hm,
        List.getD_cons_succ]

theorem toNat_zeroV (N W : Nat) : toNat W (zeroV N) = 0 := by
  induction N with
  | zero => rfl
  | succ n ih =>
    show toNat W (0 :: List.replicate n 0) = 0
    rw [toNat_cons]
    have : toNat W (List.replicate n 0) = 0 := ih
    rw [this]
    omega

theorem zeroV_length (N : Nat) : (zeroV N).length = N := by
  simp [zeroV]

theorem WFv_zeroV (N W : Nat) : WFv N W (zeroV N) := by
  refine ⟨zeroV_length N, ?_⟩
  intro x hx
  rw [zeroV] at hx
  have := List.eq_of_mem_replicate hx
  subst this
  exact Nat.pos_pow_of_pos _ (by omega)

theorem xorV_length (a b : List Nat) : (xorV a b).length = min a.length b.length := by
  simp [xorV]

theorem xorV_getD {a b : List Nat} (h : a.length = b.length) (i : Nat) :
    (xorV a b).getD i 0 = a.getD i 0 ^^^ b.getD i 0 := by
  induction a generalizing b i with
  | nil =>
    cases b with
    | nil => simp [xorV]
    | cons y ys => simp at h
  | cons x xs ih =>
    cases b with
    | nil => simp at h
    | cons y ys =>
      cases i with
      | zero => simp [xorV]
      | succ i =>
        show (xorV xs ys).getD i 0 = xs.getD i 0 ^^^ ys.getD i 0
        exact ih (by simpa using h) i

theorem WFv_xorV {N W : Nat} {a b : List Nat} (ha : WFv N W a) (hb : WFv N W b) :
    WFv N W (xorV a b) := by
  refine ⟨by rw [xorV_length, ha.1, hb.1]; omega, ?_⟩
  intro x hx
  rw [xorV] at hx
  obtain ⟨i, hi, hx⟩ := List.mem_iff_getElem.mp hx
  rw [List.getElem_zipWith] at hx
  subst hx
  exact Nat.xor_lt_two_pow (ha.2 _ (List.getElem_mem _)) (hb.2 _ (List.getElem_mem _))

theorem toNat_xorV {N W : Nat} (hW : 1 ≤ W) {a b : List Nat}
    (ha : WFv N W a) (hb : WFv N W b) :
    toNat W (xorV a b) = toNat W a ^^^ toNat W b := by
  apply Nat.eq_of_testBit_eq
  intro t
  have hwf := WFv_xorV ha hb
  rw [toNat_testBit hW hwf.2, Nat.testBit_xor, toNat_testBit hW ha.2,
    toNat_testBit hW hb.2, xorV_getD (by rw [ha.1, hb.1]), Nat.testBit_xor]

theorem xorV_zero_right {N : Nat} {v : List Nat} (h : v.length = N) :
    xorV v (zeroV N) = v := by
  subst h
  induction v with
  | nil => rfl
  | cons x xs ih =>
    show (x ^^^ 0) :: xorV xs (zeroV xs.length) = x :: xs
    rw [Nat.xor_zero, ih]

theorem xorV_zero_left {N : Nat} {v : List Nat} (h : v.length = N) :
    xorV (zeroV N) v = v := by
  subst h
  induction v with
  | nil => rfl
  | cons x xs ih =>
    show (0 ^^^ x) :: xorV (zeroV xs.length) xs = x :: xs
    rw [Nat.zero_xor, ih]

theorem xorV_comm (a b : List Nat) : xorV a b = xorV b a := by
  induction a generalizing b with
  | nil => cases b <;> rfl
  | cons x xs ih =>
    cases b with
    | nil => rfl
    | cons y ys =>
      show (x ^^^ y) :: xorV xs ys = (y ^^^ x) :: xorV ys xs
      rw [Nat.xor_comm, ih]

theorem xorV_assoc {a b c : List Nat} (hab : a.length = b.length)
    (hbc : b.length = c.length) : xorV (xorV a b) c = xorV a (xorV b c) := by
  induction a generalizing b c with
  | nil => cases b <;> cases c <;> rfl
  | cons x xs ih =>
    cases b with
    | nil => simp at hab
    | cons y ys =>
      cases c with
      | nil => simp at hbc
      | cons z zs =>
        show (x ^^^ y ^^^ z) :: xorV (xorV xs ys) zs =
          (x ^^^ (y ^^^ z)) :: xorV xs (xorV ys zs)
        rw [Nat.xor_assoc, ih (by simpa using hab) (by simpa using hbc)]

theorem xorV_self {v : List Nat} : xorV v v = zeroV v.length := by
  induction v with
  | nil => rfl
  | cons x xs ih =>
    show (x ^^^ x) :: xorV xs xs = 0 :: List.replicate xs.length 0
    rw [Nat.xor_self, ih]
    rfl

/-! ### Theorems: the riffle mask `ones / ((1 << i) | 1)` -/

theorem maskPat_lt {i : Nat} (m : Nat) : maskPat i m < 2 ^ (2 * i * m) := by
  induction m with
  | zero => simp [maskPat]
  | succ m ih =>
    show (2 ^ i - 1) ||| (maskPat i m) <<< (2 * i) < 2 ^ (2 * i * (m + 1))
    have he : 2 * i * (m + 1) = 2 * i * m + 2 * i := by ring
    apply Nat.or_lt_two_pow
    · have h1 : (2 : Nat) ^ i - 1 < 2 ^ i := by
        have := Nat.pos_pow_of_pos i (show 0 < 2 by omega)
        omega
      exact lt_of_lt_of_le h1 (Nat.pow_le_pow_right (by omega) (by omega))
    · rw [Nat.shiftLeft_eq, he, pow_add]
      exact Nat.mul_lt_mul_of_lt_of_le ih (le_refl _) (Nat.pos_pow_of_pos _ (by omega))

theorem maskPat_ones_or_eq_add {i m : Nat} :
    (2 ^ i - 1) ||| (maskPat i m) <<< (2 * i) = 2 ^ (2 * i) * maskPat i m + (2 ^ i - 1) := by
  rw [Nat.or_comm, Nat.shiftLeft_eq, Nat.mul_comm (maskPat i m)]
  have hlow : (2 : Nat) ^ i - 1 < 2 ^ (2 * i) := by
    have h1 : (2 : Nat) ^ i ≤ 2 ^ (2 * i) := Nat.pow_le_pow_right (by omega) (by omega)
    have := Nat.pos_pow_of_pos i (show 0 < 2 by omega)
    omega
  exact (Nat.mul_add_lt_is_or hlow _).symm

theorem maskPat_mul {i : Nat} (hi : 1 ≤ i) (m : Nat) :
    (2 ^ i + 1) * maskPat i m = 2 ^ (2 * i * m) - 1 := by
  induction m with
  | zero => simp [maskPat]
  | succ m ih =>
    show (2 ^ i + 1) * ((2 ^ i - 1) ||| (maskPat i m) <<< (2 * i)) = _
    rw [maskPat_ones_or_eq_add]
    have hx2 : (2 : Nat) ^ (2 * i) = 2 ^ i * 2 ^ i := by
      rw [← pow_add]
      congr 1
      omega
    have hsq : (2 ^ i + 1) * (2 ^ i - 1) = 2 ^ (2 * i) - 1 := by
      have hpos : (2 : Nat) ≤ 2 ^ i := by
        calc (2 : Nat) = 2 ^ 1 := by norm_num
          _ ≤ 2 ^ i := Nat.pow_le_pow_right (by omega) hi
      obtain ⟨y, hy⟩ : ∃ y, (2 : Nat) ^ i = y + 1 := ⟨2 ^ i - 1, by omega⟩
      rw [hx2, hy]
      have h1 : (y + 1 + 1) * (y + 1 - 1) = y * y + 2 * y := by
        simp only [Nat.add_sub_cancel]
        ring
      have h2 : (y + 1) * (y + 1) = y * y + 2 * y + 1 := by ring
      omega
    have hdist : (2 ^ i + 1) * (2 ^ (2 * i) * maskPat i m + (2 ^ i - 1)) =
        2 ^ (2 * i) * ((2 ^ i + 1) * maskPat i m) + (2 ^ i + 1) * (2 ^ i - 1) := by
      ring
    rw [hdist, ih, hsq]
    have he : 2 * i * (m + 1) = 2 * i * m + 2 * i := by ring
    rw [he, pow_add]
    have h3 : (1 : Nat) ≤ 2 ^ (2 * i * m) := Nat.pos_pow_of_pos _ (by omega)
    have h4 : (1 : Nat) ≤ 2 ^ (2 * i) := Nat.pos_pow_of_pos _ (by omega)
    have h5 : 2 ^ (2 * i) * (2 ^ (2 * i * m) - 1) + 2 ^ (2 * i) =
        2 ^ (2 * i * m) * 2 ^ (2 * i) := by
      have h6 : 2 ^ (2 * i * m) - 1 + 1 = 2 ^ (2 * i * m) := by omega
      calc 2 ^ (2 * i) * (2 ^ (2 * i * m) - 1) + 2 ^ (2 * i)
          = 2 ^ (2 * i) * ((2 ^ (2 * i * m) - 1) + 1) := by ring
        _ = 2 ^ (2 * i * m) * 2 ^ (2 * i) := by rw [h6]; ring
    omega

theorem maskPat_testBit {i : Nat} (hi : 1 ≤ i) (m p : Nat) :
    (maskPat i m).testBit p = (decide (p < 2 * i * m) && decide (p % (2 * i) < i)) := by
  induction m generalizing p with
  | zero => simp [maskPat]
  | succ m ih =>
    show ((2 ^ i - 1) ||| (maskPat i m) <<< (2 * i)).testBit p = _
    rw [Nat.testBit_or, Nat.testBit_shiftLeft, Nat.testBit_two_pow_sub_one]
    by_cases h1 : p < i
    · have hc1 : p < 2 * i * (m + 1) := by
        have : i ≤ 2 * i * (m + 1) := by
          calc i = i * 1 := by ring
            _ ≤ 2 * i * (m + 1) := Nat.mul_le_mul (by omega) (by omega)
        omega
      have hc2 : p % (2 * i) < i := by
        rw [Nat.mod_eq_of_lt (by omega)]
        exact h1
      simp [h1, hc1, hc2]
    · push_neg at h1
      by_cases h2 : 2 * i ≤ p
      · have hd : (p - 2 * i) % (2 * i) = p % (2 * i) := (Nat.mod_eq_sub_mod h2).symm
        have he : (p - 2 * i < 2 * i * m) ↔ (p < 2 * i * (m + 1)) := by
          have : 2 * i * (m + 1) = 2 * i * m + 2 * i := by ring
          omega
        rw [ih (p - 2 * i)]
        have h3 : ¬(p < i) := by omega
        simp [h2, hd, he, h3]
      · push_neg at h2
        have hm : p % (2 * i) = p := Nat.mod_eq_of_lt h2
        have : ¬(p % (2 * i) < i) := by omega
        simp [h1, h2, this, show ¬(2 * i ≤ p) by omega]

theorem riffle_mask_eq {W i : Nat} (hi : 1 ≤ i) (hdvd : 2 * i ∣ W) :
    (2 ^ W - 1) / ((1 <<< i) ||| 1) = maskPat i (W / (2 * i)) := by
  have h1 : (1 : Nat) <<< i ||| 1 = 2 ^ i + 1 := by
    have hlt : (1 : Nat) < 2 ^ i := by
      calc (1 : Nat) < 2 ^ 1 := by norm_num
        _ ≤ 2 ^ i := Nat.pow_le_pow_right (by omega) hi
    have h2 := Nat.mul_add_lt_is_or (b := 1) (i := i) (by omega) 1
    rw [Nat.mul_one] at h2
    rw [Nat.shiftLeft_eq, Nat.one_mul]
    exact h2.symm
  obtain ⟨m, hm⟩ := hdvd
  have hWm : W / (2 * i) = m := by
    rw [hm, Nat.mul_div_cancel_left _ (by omega)]
  have h2 : (2 : Nat) ^ W - 1 = (2 ^ i + 1) * maskPat i m := by
    rw [maskPat_mul hi, ← hm]
  rw [h1, hWm, h2, Nat.mul_div_cancel_left _ (by positivity)]

theorem riffle_mask_testBit {W i : Nat} (hi : 1 ≤ i) (hdvd : 2 * i ∣ W) (p : Nat) :
    ((2 ^ W - 1) / ((1 <<< i) ||| 1)).testBit p =
      (decide (p < W) && decide (p % (2 * i) < i)) := by
  rw [riffle_mask_eq hi hdvd, maskPat_testBit hi]
  obtain ⟨m, hm⟩ := hdvd
  have hWm : W / (2 * i) = m := by
    rw [hm, Nat.mul_div_cancel_left _ (by omega)]
  rw [hWm, ← hm]

/-! ### Theorems: the riffle loop computes `spread` -/

theorem mod_mul_add {s B : Nat} (hs : s < B) (q : Nat) : (B * q + s) % B = s := by
  rw [Nat.mul_add_mod, Nat.mod_eq_of_lt hs]

theorem div_mul_add {s B : Nat} (hB : 0 < B) (hs : s < B) (q : Nat) :
    (B * q + s) / B = q := by
  rw [Nat.mul_add_div hB, Nat.div_eq_of_lt hs, Nat.add_zero]

/-- One pass of the shift-and-mask loop refines the block structure: if
`t` holds the bits of `x` spread out in blocks of `2i` (each block of `2i`
source bits sitting at the bottom of a `4i`-bit window), then
`(t ^ (t << i)) & mask` holds them in blocks of `i`. -/
theorem riffle_loop_step {W i x t : Nat} (hi : 1 ≤ i) (hdvd : 2 * i ∣ W)
    (hx : x < 2 ^ (W / 2))
    (hInv : ∀ p, t.testBit p =
      (decide (p % (2 * (2 * i)) < 2 * i) &&
        x.testBit (2 * i * (p / (2 * (2 * i))) + p % (2 * (2 * i))))) (p : Nat) :
    ((t ^^^ (t <<< i) % 2 ^ W) &&& ((2 ^ W - 1) / ((1 <<< i) ||| 1))).testBit p =
      (decide (p % (2 * i) < i) && x.testBit (i * (p / (2 * i)) + p % (2 * i))) := by
  have hB4 : 0 < 2 * (2 * i) := by omega
  rw [Nat.testBit_and, riffle_mask_testBit hi hdvd p, Nat.testBit_xor,
    Nat.testBit_mod_two_pow, Nat.testBit_shiftLeft]
  set q := p / (2 * i) with hqdef
  set r := p % (2 * i) with hrdef
  have hqr : 2 * i * q + r = p := Nat.div_add_mod p (2 * i)
  have hrlt : r < 2 * i := Nat.mod_lt _ (by omega)
  set qb := q % 2 with hqbdef
  set q2 := q / 2 with hq2def
  have hqb : 2 * q2 + qb = q := Nat.div_add_mod q 2
  have hqblt : qb < 2 := Nat.mod_lt _ (by omega)
  by_cases hri : r < i
  · by_cases hpW : p < W
    · -- the interesting region: the mask keeps bit p
      have hqb01 : qb = 0 ∨ qb = 1 := by omega
      rcases hqb01 with hqb0 | hqb1
      · -- source block index q is even
        have hq2q : q = 2 * q2 := by omega
        have hp4 : 2 * (2 * i) * q2 + r = p := by
          rw [← hqr, hq2q]
          ring
        have hpmod : p % (2 * (2 * i)) = r := by
          rw [← hp4, mod_mul_add (by omega)]
        have hpdiv : p / (2 * (2 * i)) = q2 := by
          rw [← hp4, div_mul_add hB4 (by omega)]
        have htp : t.testBit p = x.testBit (2 * i * q2 + r) := by
          rw [hInv p, hpmod, hpdiv, decide_eq_true (by omega : r < 2 * i),
            Bool.true_and]
        by_cases hpi : i ≤ p
        · -- the shifted term contributes nothing: bit p - i of t is empty
          have hq2pos : q2 ≠ 0 := by
            intro hz
            rw [hz] at hp4
            simp at hp4
            omega
          obtain ⟨q3, hq3⟩ : ∃ q3, q2 = q3 + 1 := ⟨q2 - 1, by omega⟩
          have hpeq : p = 4 * (i * q3) + 4 * i + r := by
            rw [← hp4, hq3]
            ring
          have hpi4 : 2 * (2 * i) * q3 + (3 * i + r) = p - i := by
            have : 2 * (2 * i) * q3 = 4 * (i * q3) := by ring
            omega
          have hpimod : (p - i) % (2 * (2 * i)) = 3 * i + r := by
            rw [← hpi4, mod_mul_add (by omega)]
          have htpi : t.testBit (p - i) = false := by
            rw [hInv (p - i), hpimod, decide_eq_false (by omega : ¬(3 * i + r < 2 * i))]
            simp
          rw [htp, htpi, hq2q]
          have hidx : 2 * i * q2 + r = i * (2 * q2) + r := by ring
          simp [hpW, hpi, hri, hidx]
        · -- p < i: both block index and shift guard collapse
          push_neg at hpi
          rw [htp]
          have hq20 : q2 = 0 := by
            rcases Nat.eq_zero_or_pos q2 with h0 | hpos
            · exact h0
            · exfalso
              have : 2 * (2 * i) * q2 ≥ 2 * (2 * i) * 1 := Nat.mul_le_mul_left _ hpos
              omega
          rw [hq20] at hp4 ⊢
          have hidx2 : i * q + r = r := by
            rw [hq2q, hq20]
            ring
          simp [hpW, show ¬(i ≤ p) by omega, hri, hidx2]
      · -- source block index q is odd
        have hq2q : q = 2 * q2 + 1 := by omega
        have hp4 : 2 * (2 * i) * q2 + (2 * i + r) = p := by
          rw [← hqr, hq2q]
          ring
        have hpmod : p % (2 * (2 * i)) = 2 * i + r := by
          rw [← hp4, mod_mul_add (by omega)]
        have htp : t.testBit p = false := by
          rw [hInv p, hpmod, decide_eq_false (by omega : ¬(2 * i + r < 2 * i))]
          simp
        have hpi : i ≤ p := by
          have h1 : 2 * (2 * i) * q2 ≥ 0 := by omega
          omega
        have hpi4 : 2 * (2 * i) * q2 + (i + r) = p - i := by omega
        have hpimod : (p - i) % (2 * (2 * i)) = i + r := by
          rw [← hpi4, mod_mul_add (by omega)]
        have hpidiv : (p - i) / (2 * (2 * i)) = q2 := by
          rw [← hpi4, div_mul_add hB4 (by omega)]
        have htpi : t.testBit (p - i) = x.testBit (2 * i * q2 + (i + r)) := by
          rw [hInv (p - i), hpimod, hpidiv,
            decide_eq_true (by omega : i + r < 2 * i), Bool.true_and]
        rw [htp, htpi, hq2q]
        have hidx : 2 * i * q2 + (i + r) = i * (2 * q2 + 1) + r := by ring
        simp [hpW, hpi, hri, hidx]
    · -- p ≥ W: the mask clears the bit, and the source bit is ≥ W/2
      push_neg at hpW
      obtain ⟨m, hm⟩ := hdvd
      have him : W = 2 * (i * m) := by rw [hm]; ring
      have hqm : m ≤ q := by
        have h1 : W / (2 * i) ≤ p / (2 * i) := Nat.div_le_div_right hpW
        have h2 : W / (2 * i) = m := by rw [hm, Nat.mul_div_cancel_left _ (by omega)]
        rw [h2] at h1
        exact h1
      have hxbit : x.testBit (i * q + r) = false := by
        apply Nat.testBit_lt_two_pow
        have h3 : i * m ≤ i * q := Nat.mul_le_mul_left _ hqm
        have h4 : W / 2 = i * m := by omega
        calc x < 2 ^ (W / 2) := hx
          _ ≤ 2 ^ (i * q + r) := Nat.pow_le_pow_right (by omega) (by omega)
      rw [hxbit]
      simp [show ¬(p < W) by omega]
  · -- r ≥ i: the mask clears the bit, and the target formula is false
    simp [hri]

theorem riffle_loop_zero (W t : Nat) : internal.riffle_loop W 0 t = t := by
  rw [internal.riffle_loop]
  simp

theorem riffle_loop_eq_step {W i : Nat} (t : Nat) (h : i ≠ 0) :
    internal.riffle_loop W i t =
      internal.riffle_loop W (i / 2)
        ((t ^^^ (t <<< i) % 2 ^ W) &&& ((2 ^ W - 1) / ((1 <<< i) ||| 1))) := by
  conv_lhs => rw [internal.riffle_loop]
  rw [dif_neg h]

theorem spread_small {x : Nat} (h : x < 2) : spread x = x := by
  match x, h with
  | 0, _ => exact spread_zero
  | 1, _ =>
    rw [spread_bits]
    simp [spread_zero]

theorem riffle_loop_spec {W x : Nat} (hx : x < 2 ^ (W / 2)) :
    ∀ m t, 2 ^ (m + 1) ∣ W →
    (∀ p, t.testBit p =
      (decide (p % (2 * (2 * 2 ^ m)) < 2 * 2 ^ m) &&
        x.testBit (2 * 2 ^ m * (p / (2 * (2 * 2 ^ m))) + p % (2 * (2 * 2 ^ m))))) →
    internal.riffle_loop W (2 ^ m) t = spread x := by
  intro m
  induction m with
  | zero =>
    intro t hdvd hInv
    rw [pow_zero] at *
    rw [riffle_loop_eq_step t (by omega)]
    have h1 : (1 : Nat) / 2 = 0 := by omega
    rw [h1, riffle_loop_zero]
    have hstep := riffle_loop_step (W := W) (le_refl 1)
      (by simpa using hdvd) hx (by simpa using hInv)
    apply Nat.eq_of_testBit_eq
    intro p
    rw [hstep p, spread_testBit]
    by_cases hp : p % 2 = 0
    · have hidx : 1 * (p / (2 * 1)) + p % (2 * 1) = p / 2 := by omega
      have hp2 : p % (2 * 1) < 1 := by omega
      simp [hp, hp2, hidx]
    · have hp2 : ¬(p % (2 * 1) < 1) := by omega
      simp [hp, hp2]
  | succ m ih =>
    intro t hdvd hInv
    have hpow : (2 : Nat) ^ (m + 1) = 2 * 2 ^ m := by rw [pow_succ]; ring
    have hne : (2 : Nat) ^ (m + 1) ≠ 0 := by positivity
    rw [riffle_loop_eq_step t hne]
    have hdiv2 : 2 ^ (m + 1) / 2 = 2 ^ m := by
      rw [hpow, Nat.mul_div_cancel_left _ (by omega)]
    rw [hdiv2]
    have hdvd1 : 2 * 2 ^ (m + 1) ∣ W := by
      have : (2 : Nat) ^ (m + 2) = 2 * 2 ^ (m + 1) := by rw [pow_succ]; ring
      rw [← this]
      exact hdvd
    have hstep := riffle_loop_step (W := W) (i := 2 ^ (m + 1))
      (Nat.pos_pow_of_pos _ (by omega)) (by
        obtain ⟨c, hc⟩ := hdvd1
        exact ⟨c, by rw [hc]⟩) hx (by
        intro p
        rw [hInv p, hpow])
    apply ih _ (dvd_trans (pow_dvd_pow 2 (by omega)) hdvd) (by
      intro p
      rw [hstep p, hpow])

theorem ones_shiftRight (W h : Nat) : (2 ^ W - 1) >>> h = 2 ^ (W - h) - 1 := by
  apply Nat.eq_of_testBit_eq
  intro t
  rw [Nat.testBit_shiftRight, Nat.testBit_two_pow_sub_one, Nat.testBit_two_pow_sub_one]
  by_cases hlt : h + t < W <;> simp [hlt] <;> omega

theorem riffle_init_inv {H x : Nat} (hx : x < 2 ^ H) (p : Nat) :
    x.testBit p = (decide (p % (2 * H) < H) && x.testBit (H * (p / (2 * H)) + p % (2 * H))) := by
  by_cases hH : H = 0
  · subst hH
    have : x = 0 := by omega
    subst this
    simp
  by_cases h1 : p < H
  · have hm : p % (2 * H) = p := Nat.mod_eq_of_lt (by omega)
    have hd : p / (2 * H) = 0 := Nat.div_eq_of_lt (by omega)
    simp [hm, hd, h1]
  · push_neg at h1
    have hxp : x.testBit p = false :=
      Nat.testBit_lt_two_pow (lt_of_lt_of_le hx (Nat.pow_le_pow_right (by omega) h1))
    rw [hxp]
    by_cases h2 : p < 2 * H
    · have hm : p % (2 * H) = p := Nat.mod_eq_of_lt h2
      simp [hm, show ¬(p < H) by omega]
    · push_neg at h2
      by_cases h3 : p % (2 * H) < H
      · have hd : 1 ≤ p / (2 * H) := (Nat.one_le_div_iff (by omega)).mpr h2
        have hidx : H ≤ H * (p / (2 * H)) + p % (2 * H) := by
          calc H = H * 1 := by ring
            _ ≤ H * (p / (2 * H)) := Nat.mul_le_mul_left _ hd
            _ ≤ _ := by omega
        rw [Nat.testBit_lt_two_pow (lt_of_lt_of_le hx (Nat.pow_le_pow_right (by omega) hidx))]
        simp
      · simp [h3]

/-- The word-level `riffle` interleaves each half of `src` with zeros:
`lo` is the spread low half and `hi` the spread high half. -/
theorem riffle_spec {W k : Nat} (hk : 1 ≤ k) (hW : W = 2 ^ k) (src : Nat)
    (hsrc : src < 2 ^ W) :
    internal.riffle W src = (spread (src % 2 ^ (W / 2)), spread (src >>> (W / 2))) := by
  subst hW
  have hW2 : (2 : Nat) ^ k = 2 * 2 ^ (k - 1) := by
    rw [← pow_succ']
    congr 1
    omega
  have hhalf : 2 ^ k / 2 = 2 ^ (k - 1) := by
    rw [hW2, Nat.mul_div_cancel_left _ (by omega)]
  have hlo : src &&& ((2 ^ 2 ^ k - 1) >>> (2 ^ k / 2)) = src % 2 ^ (2 ^ k / 2) := by
    rw [ones_shiftRight]
    have hsub : 2 ^ k - 2 ^ k / 2 = 2 ^ k / 2 := by omega
    rw [hsub, Nat.and_pow_two_sub_one_eq_mod]
  have hlo_lt : src % 2 ^ (2 ^ k / 2) < 2 ^ (2 ^ k / 2) := Nat.mod_lt _ (by positivity)
  have hhi_lt : src >>> (2 ^ k / 2) < 2 ^ (2 ^ k / 2) := by
    rw [Nat.shiftRight_eq_div_pow]
    apply Nat.div_lt_of_lt_mul
    rw [← pow_add]
    have : 2 ^ k / 2 + 2 ^ k / 2 = 2 ^ k := by omega
    rw [this]
    exact hsrc
  simp only [internal.riffle]
  rw [hlo]
  by_cases hk1 : k = 1
  · subst hk1
    norm_num at *
    rw [riffle_loop_zero, riffle_loop_zero, spread_small hlo_lt, spread_small hhi_lt]
    exact ⟨rfl, rfl⟩
  · have hk2 : 2 ≤ k := by omega
    have hq : 2 ^ k / 4 = 2 ^ (k - 2) := by
      have h4 : (2 : Nat) ^ k = 4 * 2 ^ (k - 2) := by
        have he : k = (k - 2) + 2 := by omega
        conv_lhs => rw [he]
        rw [pow_add]
        ring
      rw [h4, Nat.mul_div_cancel_left _ (by omega)]
    have he1 : 2 * 2 ^ (k - 2) = 2 ^ k / 2 := by
      rw [hhalf, ← pow_succ']
      congr 1
      omega
    have hdvd : (2 : Nat) ^ (k - 2 + 1) ∣ 2 ^ k := pow_dvd_pow 2 (by omega)
    rw [hq]
    have hgo : ∀ y : Nat, y < 2 ^ (2 ^ k / 2) →
        internal.riffle_loop (2 ^ k) (2 ^ (k - 2)) y = spread y := by
      intro y hy
      apply riffle_loop_spec (x := y) hy (k - 2) y hdvd
      intro p
      have := riffle_init_inv (H := 2 * 2 ^ (k - 2)) (x := y) (by rw [he1]; exact hy) p
      convert this using 3
    rw [hgo _ hlo_lt, hgo _ hhi_lt]

/-! ### Theorems: the array riffle in terms of `spread` -/

theorem spread_add_split {a : Nat} (h b : Nat) (ha : a < 2 ^ h) :
    spread (a + 2 ^ h * b) = spread a + 2 ^ (2 * h) * spread b := by
  have hsa : spread a < 2 ^ (2 * h) := spread_lt_two_pow ha
  apply Nat.eq_of_testBit_eq
  intro t
  have hl : (a + 2 ^ h * b).testBit (t / 2) =
      (if t / 2 < h then a.testBit (t / 2) else b.testBit (t / 2 - h)) := by
    rw [show a + 2 ^ h * b = 2 ^ h * b + a by omega, Nat.testBit_mul_pow_two_add _ ha]
  have hr : (spread a + 2 ^ (2 * h) * spread b).testBit t =
      (if t < 2 * h then (spread a).testBit t else (spread b).testBit (t - 2 * h)) := by
    rw [show spread a + 2 ^ (2 * h) * spread b = 2 ^ (2 * h) * spread b + spread a by omega,
      Nat.testBit_mul_pow_two_add _ hsa]
  rw [hr, spread_testBit, hl]
  by_cases ht : t < 2 * h
  · have : t / 2 < h := by omega
    simp [ht, this, spread_testBit]
  · have h1 : ¬(t / 2 < h) := by omega
    have h2 : (t - 2 * h) % 2 = t % 2 := by omega
    have h3 : (t - 2 * h) / 2 = t / 2 - h := by omega
    simp [ht, h1, spread_testBit, h2, h3]

theorem riffle_word_sum {W k : Nat} (hk : 1 ≤ k) (hW : W = 2 ^ k) {w : Nat}
    (hw : w < 2 ^ W) :
    (internal.riffle W w).1 + 2 ^ W * (internal.riffle W w).2 = spread w := by
  rw [riffle_spec hk hW w hw]
  have heven : 2 * (W / 2) = W := by
    subst hW
    have : (2 : Nat) ^ k = 2 * 2 ^ (k - 1) := by
      rw [← pow_succ']
      congr 1
      omega
    omega
  have hsplit : w = w % 2 ^ (W / 2) + 2 ^ (W / 2) * (w >>> (W / 2)) := by
    rw [Nat.shiftRight_eq_div_pow]
    have := Nat.div_add_mod w (2 ^ (W / 2))
    omega
  conv_rhs => rw [hsplit]
  rw [spread_add_split _ _ (Nat.mod_lt _ (by positivity)), heven]

theorem riffle_lt {W k : Nat} (hk : 1 ≤ k) (hW : W = 2 ^ k) {w : Nat} (hw : w < 2 ^ W) :
    (internal.riffle W w).1 < 2 ^ W ∧ (internal.riffle W w).2 < 2 ^ W := by
  rw [riffle_spec hk hW w hw]
  have heven : 2 * (W / 2) = W := by
    subst hW
    have : (2 : Nat) ^ k = 2 * 2 ^ (k - 1) := by
      rw [← pow_succ']
      congr 1
      omega
    omega
  constructor
  · have := spread_lt_two_pow (Nat.mod_lt w (y := 2 ^ (W / 2)) (by positivity))
    rw [heven] at this
    exact this
  · have hhi : w >>> (W / 2) < 2 ^ (W / 2) := by
      rw [Nat.shiftRight_eq_div_pow]
      apply Nat.div_lt_of_lt_mul
      rw [← pow_add]
      have h2 : W / 2 + W / 2 = W := by omega
      rw [h2]
      exact hw
    have := spread_lt_two_pow hhi
    rw [heven] at this
    exact this

theorem toNat_take_drop (W : Nat) : ∀ (n : Nat) (l : List Nat), n ≤ l.length →
    toNat W l = toNat W (l.take n) + 2 ^ (n * W) * toNat W (l.drop n) := by
  intro n
  induction n with
  | zero =>
    intro l _
    simp [toNat_nil]
  | succ n ih =>
    intro l hl
    cases l with
    | nil => simp at hl
    | cons x xs =>
      rw [List.take_succ_cons, List.drop_succ_cons, toNat_cons, toNat_cons,
        ih xs (by simpa using hl)]
      have hpow : (2 : Nat) ^ ((n + 1) * W) = 2 ^ W * 2 ^ (n * W) := by
        rw [← pow_add]
        congr 1
        ring
      rw [hpow]
      ring

theorem riffle_arr_flat_toNat {W k : Nat} (hk : 1 ≤ k) (hW : W = 2 ^ k)
    {src : List Nat} (hsrc : ∀ x ∈ src, x < 2 ^ W) :
    toNat W ((src.map fun w => [(internal.riffle W w).1, (internal.riffle W w).2]).flatten) =
      spread (toNat W src) := by
  induction src with
  | nil => simp [toNat_nil, spread_zero]
  | cons w ws ih =>
    rw [List.map_cons, List.flatten_cons]
    have hw : w < 2 ^ W := hsrc w (by simp)
    simp only [List.cons_append, List.nil_append]
    rw [toNat_cons, toNat_cons, toNat_cons,
      ih (fun x hx => hsrc x (by simp [hx])),
      spread_add_split _ _ hw]
    have hsum := riffle_word_sum hk hW hw
    have hpow : (2 : Nat) ^ (2 * W) = 2 ^ W * 2 ^ W := by
      rw [← pow_add]
      congr 1
      ring
    rw [← hsum, hpow]
    ring

theorem riffle_arr_flat_wf {W k : Nat} (hk : 1 ≤ k) (hW : W = 2 ^ k)
    {src : List Nat} (hsrc : ∀ x ∈ src, x < 2 ^ W) :
    ∀ x ∈ (src.map fun w => [(internal.riffle W w).1, (internal.riffle W w).2]).flatten,
      x < 2 ^ W := by
  intro x hx
  rw [List.mem_flatten] at hx
  obtain ⟨l, hl, hxl⟩ := hx
  rw [List.mem_map] at hl
  obtain ⟨w, hw, rfl⟩ := hl
  have hwlt := hsrc w hw
  have hb := riffle_lt hk hW hwlt
  simp only [List.mem_cons, List.not_mem_nil, or_false] at hxl
  rcases hxl with h | h
  · rw [h]; exact hb.1
  · rw [h]; exact hb.2

theorem riffle_arr_flat_length (W : Nat) (src : List Nat) :
    ((src.map fun w => [(internal.riffle W w).1, (internal.riffle W w).2]).flatten).length =
      2 * src.length := by
  induction src with
  | nil => rfl
  | cons w ws ih =>
    rw [List.map_cons, List.flatten_cons]
    simp only [List.length_append, List.length_cons]
    simp at ih ⊢
    omega

/-- The array `riffle`: `[lo|hi]` packs to the spread of the input, with
`lo` and `hi` each the same word count as the input. -/
theorem riffle_arr_spec {W k : Nat} (hk : 1 ≤ k) (hW : W = 2 ^ k)
    {src : List Nat} (hsrc : ∀ x ∈ src, x < 2 ^ W) :
    (internal.riffle_arr W src).1.length = src.length ∧
    (internal.riffle_arr W src).2.length = src.length ∧
    (∀ x ∈ (internal.riffle_arr W src).1, x < 2 ^ W) ∧
    (∀ x ∈ (internal.riffle_arr W src).2, x < 2 ^ W) ∧
    toNat W (internal.riffle_arr W src).1 +
        2 ^ (src.length * W) * toNat W (internal.riffle_arr W src).2 =
      spread (toNat W src) := by
  have hlen := riffle_arr_flat_length W src
  have hwf := riffle_arr_flat_wf hk hW hsrc
  have htn := riffle_arr_flat_toNat hk hW hsrc
  simp only [internal.riffle_arr]
  refine ⟨?_, ?_, ?_, ?_, ?_⟩
  · rw [List.length_take, hlen]
    omega
  · rw [List.length_drop, hlen]
    omega
  · intro x hx
    exact hwf x (List.mem_of_mem_take hx)
  · intro x hx
    exact hwf x (List.mem_of_mem_drop hx)
  · rw [← toNat_take_drop W src.length _ (by omega), htn]

/-! ### Theorems: the `reduce` helper lambdas in terms of `toNat` -/

theorem two_pow_add_eq_xor {m : Nat} (n : Nat) (hm : m < 2 ^ n) :
    2 ^ n + m = 2 ^ n ^^^ m := by
  apply Nat.eq_of_testBit_eq
  intro j
  have h1 : 2 ^ n + m = 2 ^ n * 1 + m := by ring
  rw [h1, Nat.testBit_mul_pow_two_add _ hm, Nat.testBit_xor, Nat.testBit_two_pow]
  by_cases hj : j < n
  · simp [hj, show n ≠ j by omega]
  · push_neg at hj
    have hmj : m.testBit j = false :=
      Nat.testBit_lt_two_pow (lt_of_lt_of_le hm (Nat.pow_le_pow_right (by omega) hj))
    by_cases hje : j = n
    · subst hje
      simp [hmj, Nat.testBit_one_eq_true_iff_self_eq_zero]
    · have : (1 : Nat).testBit (j - n) = false := by
        have : 1 ≤ j - n := by omega
        exact Nat.testBit_lt_two_pow (lt_of_lt_of_le (by omega)
          (Nat.pow_le_pow_right (by omega) this))
      simp [show ¬(j < n) by omega, this, hmj, show n ≠ j by omega]

theorem test_spec {W : Nat} (hW : 1 ≤ W) {poly : List Nat}
    (hwf : ∀ x ∈ poly, x < 2 ^ W) (i : Nat) :
    internal.test W poly i = (toNat W poly).testBit i := by
  have h := and_two_pow_ne_zero (poly.getD (internal.word W i) 0) (internal.bit W i)
  rw [toNat_testBit hW hwf]
  show decide (poly.getD (internal.word W i) 0 &&& internal.mask W i ≠ 0) = _
  by_cases hz : poly.getD (internal.word W i) 0 &&& internal.mask W i = 0
  · rw [decide_eq_false (by simpa using hz)]
    cases hb : (poly.getD (i / W) 0).testBit (i % W)
    · rfl
    · exact absurd hz (h.mpr hb)
  · rw [decide_eq_true hz]
    exact (h.mp hz).symm

theorem zeroV_getD (N j : Nat) : (zeroV N).getD j 0 = 0 := by
  by_cases h : j < N
  · rw [List.getD_eq_getElem?_getD, List.getElem?_eq_getElem (by simpa [zeroV] using h)]
    simp [zeroV]
  · rw [getD_ge 0 (by simp [zeroV]; omega)]

theorem toNat_zeroV_set {W : Nat} : ∀ {N k : Nat} (x : Nat), k < N →
    toNat W ((zeroV N).set k x) = 2 ^ (k * W) * x := by
  intro N
  induction N with
  | zero => intro k x h; omega
  | succ n ih =>
    intro k x h
    cases k with
    | zero =>
      show toNat W (x :: List.replicate n 0) = 2 ^ (0 * W) * x
      rw [toNat_cons]
      have : toNat W (List.replicate n 0) = 0 := toNat_zeroV n W
      rw [this]
      simp
    | succ k =>
      show toNat W (0 :: (zeroV n).set k x) = 2 ^ ((k + 1) * W) * x
      rw [toNat_cons, ih x (by omega)]
      have : (2 : Nat) ^ ((k + 1) * W) = 2 ^ W * 2 ^ (k * W) := by
        rw [← pow_add]
        congr 1
        ring
      rw [this]
      ring

theorem set_zero_spec {N W i : Nat} (hW : 1 ≤ W) (hi : i < N * W) :
    toNat W (internal.set W (zeroV N) i) = 2 ^ i ∧
      (internal.set W (zeroV N) i).length = N ∧
      ∀ x ∈ internal.set W (zeroV N) i, x < 2 ^ W := by
  have hiW : i / W < N := Nat.div_lt_of_lt_mul (by rw [Nat.mul_comm]; exact hi)
  have hmask : internal.mask W i = 2 ^ (i % W) := by
    show (1 : Nat) <<< (i % W) = 2 ^ (i % W)
    rw [Nat.shiftLeft_eq, Nat.one_mul]
  have hset : internal.set W (zeroV N) i = (zeroV N).set (i / W) (2 ^ (i % W)) := by
    show (zeroV N).set (internal.word W i) _ = _
    rw [internal.word, zeroV_getD, hmask]
    simp
  refine ⟨?_, ?_, ?_⟩
  · rw [hset, toNat_zeroV_set _ hiW, ← pow_add]
    congr 1
    have hdm := Nat.div_add_mod i W
    calc i / W * W + i % W = W * (i / W) + i % W := by ring
      _ = i := hdm
  · rw [hset, List.length_set, zeroV_length]
  · intro x hx
    rw [hset] at hx
    have := List.mem_or_eq_of_mem_set hx
    rcases this with h | h
    · rw [zeroV] at h
      rw [List.eq_of_mem_replicate h]
      positivity
    · rw [h]
      exact Nat.pow_lt_pow_right (by omega) (Nat.mod_lt _ (by omega))

theorem monic_spec {W : Nat} (hW : 1 ≤ W) {poly : List Nat} (hlen : 1 ≤ poly.length)
    (hwf : ∀ x ∈ poly, x < 2 ^ W) :
    internal.monic W poly = (toNat W poly).testBit (poly.length * W - 1) := by
  have h := and_two_pow_ne_zero (poly.getD (poly.length - 1) 0) (W - 1)
  obtain ⟨L, hL⟩ : ∃ L, poly.length = L + 1 := ⟨poly.length - 1, by omega⟩
  have he : (L + 1) * W = W * L + W := by ring
  have ht : poly.length * W - 1 = W * L + (W - 1) := by
    rw [hL, he]
    omega
  have hdiv : (poly.length * W - 1) / W = L := by
    rw [ht, div_mul_add (by omega) (by omega)]
  have hmod : (poly.length * W - 1) % W = W - 1 := by
    rw [ht, mod_mul_add (by omega)]
  rw [toNat_testBit hW hwf, hdiv, hmod]
  show decide (poly.getD (poly.length - 1) 0 &&& 1 <<< (W - 1) ≠ 0) = _
  rw [hL]
  simp only [Nat.add_sub_cancel]
  by_cases hz : poly.getD L 0 &&& 1 <<< (W - 1) = 0
  · rw [decide_eq_false (by simpa using hz)]
    cases hb : (poly.getD L 0).testBit (W - 1)
    · rfl
    · rw [hL] at h
      simp only [Nat.add_sub_cancel] at h
      exact absurd hz (h.mpr hb)
  · rw [decide_eq_true hz]
    rw [hL] at h
    simp only [Nat.add_sub_cancel] at h
    exact (h.mp hz).symm

theorem shift_length (W : Nat) (poly : List Nat) :
    (internal.shift W poly).length = poly.length := by
  simp [internal.shift]

theorem shift_wf {W : Nat} (hW : 1 ≤ W) {poly : List Nat}
    (hwf : ∀ x ∈ poly, x < 2 ^ W) : ∀ x ∈ internal.shift W poly, x < 2 ^ W := by
  intro x hx
  rw [internal.shift, List.mem_map] at hx
  obtain ⟨i, _hi, rfl⟩ := hx
  by_cases h0 : i = 0
  · rw [if_pos h0]
    exact Nat.mod_lt _ (by positivity)
  · rw [if_neg h0]
    apply Nat.or_lt_two_pow
    · exact Nat.mod_lt _ (by positivity)
    · rw [Nat.shiftRight_eq_div_pow]
      have h1 : poly.getD (i - 1) 0 < 2 ^ W := WFv.getD_lt hwf _
      have h2 : (2 : Nat) ^ W = 2 ^ (W - 1) * 2 := by
        rw [← Nat.pow_succ]
        congr 1
        omega
      have h3 : poly.getD (i - 1) 0 / 2 ^ (W - 1) < 2 := Nat.div_lt_of_lt_mul (by omega)
      have h4 : (2 : Nat) ≤ 2 ^ W := by
        calc (2 : Nat) = 2 ^ 1 := by norm_num
          _ ≤ 2 ^ W := Nat.pow_le_pow_right (by omega) hW
      omega

theorem shift_toNat {W : Nat} (hW : 1 ≤ W) {poly : List Nat}
    (hwf : ∀ x ∈ poly, x < 2 ^ W) :
    toNat W (internal.shift W poly) = (toNat W poly <<< 1) % 2 ^ (poly.length * W) := by
  apply Nat.eq_of_testBit_eq
  intro t
  rw [toNat_testBit hW (shift_wf hW hwf), Nat.testBit_mod_two_pow, Nat.testBit_shiftLeft]
  by_cases htn : t < poly.length * W
  · have hj : t / W < poly.length := Nat.div_lt_of_lt_mul (by rw [Nat.mul_comm]; exact htn)
    have hb : t % W < W := Nat.mod_lt _ (by omega)
    have htj : W * (t / W) + t % W = t := Nat.div_add_mod t W
    have hsh : (internal.shift W poly).getD (t / W) 0 =
        (if t / W = 0 then (poly.getD 0 0 <<< 1) % 2 ^ W
         else ((poly.getD (t / W) 0 <<< 1) % 2 ^ W) |||
           (poly.getD (t / W - 1) 0 >>> (W - 1))) := by
      rw [internal.shift, getD_map_range _ _ hj]
    rw [hsh]
    by_cases hj0 : t / W = 0
    · rw [if_pos hj0]
      rw [Nat.testBit_mod_two_pow, Nat.testBit_shiftLeft]
      rw [hj0] at htj
      by_cases hb1 : 1 ≤ t % W
      · have ht1 : 1 ≤ t := by omega
        rw [toNat_testBit hW hwf (t - 1)]
        have hd : (t - 1) / W = 0 := Nat.div_eq_of_lt (by omega)
        have hm : (t - 1) % W = t % W - 1 := by
          rw [Nat.mod_eq_of_lt (by omega)]
          omega
        rw [hd, hm]
        simp [hb, hb1, ht1, htn]
      · have ht0 : t = 0 := by omega
        subst ht0
        simp
    · rw [if_neg hj0]
      rw [Nat.testBit_or, Nat.testBit_mod_two_pow, Nat.testBit_shiftLeft,
        Nat.testBit_shiftRight]
      have ht1 : 1 ≤ t := by
        have h5 : W * 1 ≤ W * (t / W) :=
          Nat.mul_le_mul_left W (Nat.pos_of_ne_zero hj0)
        omega
      rw [toNat_testBit hW hwf (t - 1)]
      by_cases hb1 : 1 ≤ t % W
      · have hhigh : (poly.getD (t / W - 1) 0).testBit (W - 1 + t % W) = false :=
          Nat.testBit_lt_two_pow (lt_of_lt_of_le (WFv.getD_lt hwf _)
            (Nat.pow_le_pow_right (by omega) (by omega)))
        have he : t - 1 = W * (t / W) + (t % W - 1) := by omega
        have hd : (t - 1) / W = t / W := by
          rw [he, div_mul_add (by omega) (by omega)]
        have hm : (t - 1) % W = t % W - 1 := by
          rw [he, mod_mul_add (by omega)]
        rw [hd, hm, hhigh]
        simp [hb, hb1, ht1, htn]
      · have hb0 : t % W = 0 := by omega
        obtain ⟨j2, hj2⟩ : ∃ j2, t / W = j2 + 1 :=
          ⟨t / W - 1, by have := Nat.pos_of_ne_zero hj0; omega⟩
        have he : t - 1 = W * j2 + (W - 1) := by
          have h6 : W * (t / W) = W * j2 + W := by rw [hj2]; ring
          omega
        have hd : (t - 1) / W = j2 := by
          rw [he, div_mul_add (by omega) (by omega)]
        have hm : (t - 1) % W = W - 1 := by
          rw [he, mod_mul_add (by omega)]
        rw [hd, hm]
        have hj1 : t / W - 1 = j2 := by omega
        rw [hj1]
        have hwb : W - 1 + t % W = W - 1 := by omega
        rw [hwb]
        simp [hb, hb0, ht1, htn]
  · push_neg at htn
    have hj : poly.length ≤ t / W := by
      rw [Nat.le_div_iff_mul_le (by omega)]
      exact htn
    rw [getD_ge 0 (by rw [shift_length]; exact hj)]
    simp [show ¬(t < poly.length * W) by omega]

theorem add_eq_xorV : @internal.add = @xorV := rfl

theorem times_x_wf {W : Nat} (hW : 1 ≤ W) {N : Nat} {p poly : List Nat}
    (hplen : p.length = N) (hpw : ∀ x ∈ p, x < 2 ^ W)
    (hlen : poly.length = N) (hwf : ∀ x ∈ poly, x < 2 ^ W) :
    (internal.times_x_step W p poly).length = N ∧
      ∀ x ∈ internal.times_x_step W p poly, x < 2 ^ W := by
  have hswf : WFv N W (internal.shift W poly) :=
    ⟨by rw [shift_length, hlen], shift_wf hW hwf⟩
  have hx : internal.times_x_step W p poly =
      if internal.monic W poly then internal.add (internal.shift W poly) p
      else internal.shift W poly := rfl
  rw [hx]
  by_cases hm : internal.monic W poly
  · rw [if_pos hm, add_eq_xorV]
    have h2 := WFv_xorV hswf ⟨hplen, hpw⟩
    exact ⟨h2.1, h2.2⟩
  · rw [if_neg hm]
    exact ⟨hswf.1, hswf.2⟩

theorem times_x_cong {W N : Nat} (hW : 1 ≤ W) (hN : 1 ≤ N) {p poly : List Nat}
    (hplen : p.length = N) (hpw : ∀ x ∈ p, x < 2 ^ W)
    (hlen : poly.length = N) (hwf : ∀ x ∈ poly, x < 2 ^ W) :
    Cong (2 ^ (N * W) + toNat W p) (toNat W poly <<< 1)
      (toNat W (internal.times_x_step W p poly)) := by
  have hvlt : toNat W poly < 2 ^ (N * W) := by
    have := toNat_lt hwf
    rw [hlen] at this
    exact this
  have hplt : toNat W p < 2 ^ (N * W) := by
    have := toNat_lt hpw
    rw [hplen] at this
    exact this
  have hswf : WFv N W (internal.shift W poly) :=
    ⟨by rw [shift_length, hlen], shift_wf hW hwf⟩
  have hstn : toNat W (internal.shift W poly) = (toNat W poly <<< 1) % 2 ^ (N * W) := by
    rw [shift_toNat hW hwf, hlen]
  have hn1 : 1 ≤ N * W := by
    calc 1 = 1 * 1 := by ring
      _ ≤ N * W := Nat.mul_le_mul hN hW
  have hmon := monic_spec hW (by omega) hwf
  rw [hlen] at hmon
  show Cong _ _ (toNat W (if internal.monic W poly
    then internal.add (internal.shift W poly) p else internal.shift W poly))
  by_cases hm : internal.monic W poly
  · rw [if_pos hm, add_eq_xorV, toNat_xorV hW hswf ⟨hplen, hpw⟩, hstn]
    have htop : (toNat W poly).testBit (N * W - 1) = true := by
      rw [hm] at hmon
      exact hmon.symm
    have hge : 2 ^ (N * W - 1) ≤ toNat W poly := Nat.testBit_implies_ge htop
    have hv2 : toNat W poly <<< 1 = 2 * toNat W poly := by
      rw [Nat.shiftLeft_eq, pow_one]
      ring
    have hpow : (2 : Nat) ^ (N * W) = 2 * 2 ^ (N * W - 1) := by
      rw [← pow_succ']
      congr 1
      omega
    set m := (toNat W poly <<< 1) % 2 ^ (N * W) with hmdef
    have hmod_lt : m < 2 ^ (N * W) := by
      rw [hmdef]
      exact Nat.mod_lt _ (by positivity)
    have hsplit : toNat W poly <<< 1 = 2 ^ (N * W) + m := by
      rw [hmdef]
      have hdm := Nat.div_add_mod (toNat W poly <<< 1) (2 ^ (N * W))
      have hub : toNat W poly <<< 1 < 2 ^ (N * W) * 2 := by
        rw [hv2]
        omega
      have h1 : toNat W poly <<< 1 / 2 ^ (N * W) < 2 := Nat.div_lt_of_lt_mul hub
      have h2 : 1 ≤ toNat W poly <<< 1 / 2 ^ (N * W) :=
        (Nat.one_le_div_iff (by positivity)).mpr (by rw [hv2]; omega)
      have h3 : toNat W poly <<< 1 / 2 ^ (N * W) = 1 := by omega
      rw [h3, Nat.mul_one] at hdm
      omega
    refine ⟨1, ?_⟩
    rw [pmul_one_left]
    calc toNat W poly <<< 1 ^^^ (m ^^^ toNat W p)
        = (2 ^ (N * W) + m) ^^^ (m ^^^ toNat W p) := by rw [hsplit]
      _ = (2 ^ (N * W) ^^^ m) ^^^ (m ^^^ toNat W p) := by
          rw [two_pow_add_eq_xor _ hmod_lt]
      _ = 2 ^ (N * W) ^^^ (m ^^^ (m ^^^ toNat W p)) := by rw [Nat.xor_assoc]
      _ = 2 ^ (N * W) ^^^ toNat W p := by
          rw [← Nat.xor_assoc m, Nat.xor_self, Nat.zero_xor]
      _ = 2 ^ (N * W) + toNat W p := (two_pow_add_eq_xor _ hplt).symm
  · rw [if_neg hm, hstn]
    have htop : (toNat W poly).testBit (N * W - 1) = false := by
      rw [Bool.not_eq_true] at hm
      rw [hm] at hmon
      exact hmon.symm
    have hlt : toNat W poly < 2 ^ (N * W - 1) := by
      apply Nat.lt_pow_two_of_testBit
      intro i hi
      by_cases hie : i = N * W - 1
      · rw [hie]; exact htop
      · exact Nat.testBit_lt_two_pow (lt_of_lt_of_le hvlt
          (Nat.pow_le_pow_right (by omega) (by omega)))
    have hshlt : toNat W poly <<< 1 < 2 ^ (N * W) := by
      rw [Nat.shiftLeft_eq, pow_one]
      have hpow : (2 : Nat) ^ (N * W) = 2 * 2 ^ (N * W - 1) := by
        rw [← pow_succ']
        congr 1
        omega
      omega
    rw [Nat.mod_eq_of_lt hshlt]
    exact Cong.refl _ _

theorem power_mod_spec {W N : Nat} (hW : 1 ≤ W) (hN : 1 ≤ N) {p : List Nat}
    (hplen : p.length = N) (hpw : ∀ x ∈ p, x < 2 ^ W) (i : Nat) :
    (internal.power_mod W p i).length = N ∧
      (∀ x ∈ internal.power_mod W p i, x < 2 ^ W) ∧
      Cong (2 ^ (N * W) + toNat W p) (2 ^ (N * W + i))
        (toNat W (internal.power_mod W p i)) := by
  induction i with
  | zero =>
    have h0 : internal.power_mod W p 0 = p := rfl
    have hplt : toNat W p < 2 ^ (N * W) := by
      have := toNat_lt hpw
      rw [hplen] at this
      exact this
    refine ⟨by rw [h0, hplen], by rw [h0]; exact hpw, 1, ?_⟩
    rw [h0, pmul_one_left, Nat.add_zero, two_pow_add_eq_xor _ hplt]
  | succ i ih =>
    obtain ⟨ihlen, ihwf, ihcong⟩ := ih
    have hstep : internal.power_mod W p (i + 1) =
        internal.times_x_step W p (internal.power_mod W p i) :=
      Function.iterate_succ_apply' _ _ _
    rw [hstep]
    obtain ⟨hlen2, hwf2⟩ := times_x_wf hW hplen hpw ihlen ihwf
    refine ⟨hlen2, hwf2, ?_⟩
    have hsh : (2 : Nat) ^ (N * W + (i + 1)) = 2 ^ (N * W + i) <<< 1 := by
      rw [Nat.shiftLeft_eq, pow_one, ← pow_succ]
      congr 1
    rw [hsh]
    exact Cong.trans (Cong.shl1 ihcong) (times_x_cong hW hN hplen hpw ihlen ihwf)

/-! ### Theorems: `first_set` and `final_set` find the extreme set bits -/

theorem lsb_eq (w : Nat) :
    internal.lsb w = if w % 2 = 1 ∨ w = 0 then 0 else internal.lsb (w / 2) + 1 := by
  rw [internal.lsb]
  by_cases h : w % 2 = 1 ∨ w = 0
  · rw [dif_pos h, if_pos h]
  · rw [dif_neg h, if_neg h]

theorem lsb_spec {w : Nat} (hw : w ≠ 0) :
    w.testBit (internal.lsb w) = true ∧ ∀ j < internal.lsb w, w.testBit j = false := by
  induction w using Nat.strong_induction_on with
  | _ w ih =>
    rw [lsb_eq]
    by_cases h : w % 2 = 1 ∨ w = 0
    · rw [if_pos h]
      have hodd : w % 2 = 1 := by
        rcases h with h | h
        · exact h
        · exact absurd h hw
      refine ⟨by simp [Nat.testBit_zero, hodd], fun j hj => by omega⟩
    · rw [if_neg h]
      push_neg at h
      have heven : w % 2 = 0 := by omega
      have hw2 : w / 2 ≠ 0 := by omega
      obtain ⟨ih1, ih2⟩ := ih (w / 2) (Nat.div_lt_self (by omega) (by omega)) hw2
      refine ⟨by rw [Nat.testBit_add_one]; exact ih1, ?_⟩
      intro j hj
      cases j with
      | zero => simp [Nat.testBit_zero, heven]
      | succ j =>
        rw [Nat.testBit_add_one]
        exact ih2 j (by omega)

theorem word_split_testBit {W w : Nat} (rest : Nat) (hw : w < 2 ^ W) (j : Nat) :
    (w + 2 ^ W * rest).testBit j =
      if j < W then w.testBit j else rest.testBit (j - W) := by
  rw [show w + 2 ^ W * rest = 2 ^ W * rest + w by omega,
    Nat.testBit_mul_pow_two_add _ hw]

theorem first_set_eq_none {W : Nat} : ∀ {v : List Nat},
    internal.first_set W v = none → toNat W v = 0 := by
  intro v
  induction v with
  | nil => intro; rfl
  | cons w ws ih =>
    intro h
    rw [internal.first_set] at h
    by_cases hw : w ≠ 0
    · rw [if_pos hw] at h
      cases h
    · rw [if_neg hw] at h
      push_neg at hw
      have h2 : internal.first_set W ws = none := by
        cases he : internal.first_set W ws
        · rfl
        · rw [he] at h
          cases h
      rw [toNat_cons, ih h2, hw]
      omega

theorem first_set_eq_some {W : Nat} (hW : 1 ≤ W) : ∀ {v : List Nat} {f : Nat},
    (∀ x ∈ v, x < 2 ^ W) → internal.first_set W v = some f →
    (toNat W v).testBit f = true ∧ ∀ j < f, (toNat W v).testBit j = false := by
  intro v
  induction v with
  | nil => intro f _ h; cases h
  | cons w ws ih =>
    intro f hwf h
    have hwlt : w < 2 ^ W := hwf w (by simp)
    rw [internal.first_set] at h
    rw [toNat_cons]
    by_cases hw : w ≠ 0
    · rw [if_pos hw] at h
      obtain ⟨hl1, hl2⟩ := lsb_spec hw
      have hf : f = internal.lsb w := by
        cases h
        rfl
      subst hf
      have hlt : internal.lsb w < W := by
        have h1 : 2 ^ internal.lsb w ≤ w := Nat.testBit_implies_ge hl1
        by_contra hc
        push_neg at hc
        have : (2 : Nat) ^ W ≤ 2 ^ internal.lsb w := Nat.pow_le_pow_right (by omega) hc
        omega
      constructor
      · rw [word_split_testBit _ hwlt, if_pos hlt]
        exact hl1
      · intro j hj
        rw [word_split_testBit _ hwlt, if_pos (by omega)]
        exact hl2 j hj
    · rw [if_neg hw] at h
      push_neg at hw
      subst hw
      cases he : internal.first_set W ws with
      | none =>
        rw [he] at h
        cases h
      | some g =>
        rw [he] at h
        have hf : f = g + W := by
          cases h
          rfl
        subst hf
        obtain ⟨ih1, ih2⟩ := ih (fun x hx => hwf x (by simp [hx])) he
        constructor
        · rw [word_split_testBit _ hwlt, if_neg (by omega)]
          have : g + W - W = g := by omega
          rw [this]
          exact ih1
        · intro j hj
          rw [word_split_testBit _ hwlt]
          by_cases hjW : j < W
          · rw [if_pos hjW]
            simp
          · rw [if_neg hjW]
            exact ih2 (j - W) (by omega)

theorem final_set_eq_none {W : Nat} : ∀ {v : List Nat},
    internal.final_set W v = none → toNat W v = 0 := by
  intro v
  induction v with
  | nil => intro; rfl
  | cons w ws ih =>
    intro h
    rw [internal.final_set] at h
    cases he : internal.final_set W ws with
    | some r =>
      rw [he] at h
      cases h
    | none =>
      rw [he] at h
      by_cases hw : w ≠ 0
      · rw [if_pos hw] at h
        cases h
      · push_neg at hw
        rw [toNat_cons, ih he, hw]
        omega

theorem final_set_eq_some {W : Nat} (hW : 1 ≤ W) : ∀ {v : List Nat} {l : Nat},
    (∀ x ∈ v, x < 2 ^ W) → internal.final_set W v = some l →
    (toNat W v).testBit l = true ∧ ∀ j, l < j → (toNat W v).testBit j = false := by
  intro v
  induction v with
  | nil => intro l _ h; cases h
  | cons w ws ih =>
    intro l hwf h
    have hwlt : w < 2 ^ W := hwf w (by simp)
    rw [internal.final_set] at h
    rw [toNat_cons]
    cases he : internal.final_set W ws with
    | some r =>
      rw [he] at h
      have hl : l = r + W := by
        cases h
        rfl
      subst hl
      obtain ⟨ih1, ih2⟩ := ih (fun x hx => hwf x (by simp [hx])) he
      constructor
      · rw [word_split_testBit _ hwlt, if_neg (by omega)]
        have : r + W - W = r := by omega
        rw [this]
        exact ih1
      · intro j hj
        rw [word_split_testBit _ hwlt, if_neg (by omega)]
        exact ih2 (j - W) (by omega)
    | none =>
      rw [he] at h
      by_cases hw : w ≠ 0
      · rw [if_pos hw] at h
        have hl : l = internal.msb w := by
          cases h
          rfl
        subst hl
        have hz : toNat W ws = 0 := final_set_eq_none he
        rw [hz, Nat.mul_zero, Nat.add_zero]
        exact ⟨testBit_size_sub_one hw, fun j hj => testBit_false_of_size_le (by
          show w.size ≤ j
          have := Nat.size_pos.mpr (Nat.pos_of_ne_zero hw)
          show w.size ≤ j
          have hm : internal.msb w = w.size - 1 := rfl
          omega)⟩
      · rw [if_neg hw] at h
        cases h

/-! ### Theorems: the `square_step` fold -/

theorem natfold_acc (g : Nat → Nat) : ∀ (L : List Nat) (a : Nat),
    L.foldl (fun acc i => acc ^^^ g i) a = a ^^^ L.foldl (fun acc i => acc ^^^ g i) 0 := by
  intro L
  induction L with
  | nil => intro a; simp
  | cons i L ih =>
    intro a
    rw [List.foldl_cons, List.foldl_cons, ih (a ^^^ g i), ih (0 ^^^ g i),
      Nat.zero_xor, Nat.xor_assoc]

theorem fold_cong {c : Nat} (g1 g2 : Nat → Nat) : ∀ (L : List Nat),
    (∀ i ∈ L, Cong c (g1 i) (g2 i)) →
    Cong c (L.foldl (fun a i => a ^^^ g1 i) 0) (L.foldl (fun a i => a ^^^ g2 i) 0) := by
  intro L
  induction L with
  | nil => intro; exact Cong.refl _ _
  | cons i L ih =>
    intro h
    rw [List.foldl_cons, List.foldl_cons, natfold_acc g1, natfold_acc g2,
      Nat.zero_xor, Nat.zero_xor]
    exact Cong.xor (h i (by simp)) (ih fun j hj => h j (by simp [hj]))

theorem gather_fold_testBit (n hi : Nat) : ∀ (L : List Nat), L.Nodup → ∀ t,
    (L.foldl (fun a i => a ^^^ (if hi.testBit i then 2 ^ (n + i) else 0)) 0).testBit t =
      (decide (n ≤ t) && decide ((t - n) ∈ L) && hi.testBit (t - n)) := by
  intro L
  induction L with
  | nil => intro _ t; simp
  | cons i L ih =>
    intro hnd t
    rw [List.foldl_cons, natfold_acc, Nat.zero_xor, Nat.testBit_xor,
      ih (List.nodup_cons.mp hnd).2 t]
    have hmemc : ((t - n) ∈ i :: L) ↔ (t - n = i ∨ (t - n) ∈ L) := List.mem_cons
    cases hb : hi.testBit i with
    | true =>
      rw [if_pos rfl, Nat.testBit_two_pow]
      by_cases hteq : n + i = t
      · have hnt : n ≤ t := by omega
        have hti : t - n = i := by omega
        have hinL : (t - n) ∉ L := by
          rw [hti]
          exact (List.nodup_cons.mp hnd).1
        have h1 : decide ((t - n) ∈ L) = false := decide_eq_false hinL
        have h2 : decide ((t - n) ∈ i :: L) = true := decide_eq_true (hmemc.mpr (Or.inl hti))
        have h3 : decide (n ≤ t) = true := decide_eq_true hnt
        rw [decide_eq_true hteq, h1, h2, h3, hti, hb]
        rfl
      · rw [decide_eq_false hteq, Bool.false_xor]
        by_cases hnt : n ≤ t
        · have hne : t - n ≠ i := by omega
          have hiff : ((t - n) ∈ i :: L) ↔ ((t - n) ∈ L) := by
            rw [hmemc]
            exact ⟨fun h2 => h2.resolve_left hne, Or.inr⟩
          rw [decide_eq_decide.mpr hiff]
        · rw [decide_eq_false hnt]
          rfl
    | false =>
      rw [if_neg (by simp), Nat.zero_testBit, Bool.false_xor]
      by_cases hti : t - n = i
      · rw [hti, hb]
        simp
      · have hiff : ((t - n) ∈ i :: L) ↔ ((t - n) ∈ L) := by
          rw [hmemc]
          exact ⟨fun h2 => h2.resolve_left hti, Or.inr⟩
        rw [decide_eq_decide.mpr hiff]

theorem gather_eq {n hi : Nat} {L : List Nat} (hnd : L.Nodup)
    (hcov : ∀ j, hi.testBit j = true → j ∈ L) :
    L.foldl (fun a i => a ^^^ (if hi.testBit i then 2 ^ (n + i) else 0)) 0 = hi <<< n := by
  apply Nat.eq_of_testBit_eq
  intro t
  rw [gather_fold_testBit n hi L hnd t, Nat.testBit_shiftLeft]
  by_cases hnt : n ≤ t
  · cases hb : hi.testBit (t - n)
    · simp [hnt, hb]
    · simp [hnt, hb, hcov _ hb]
  · simp [hnt, show ¬(t ≥ n) by omega]

theorem fold_add_pm {W N : Nat} (hW : 1 ≤ W) (hN : 1 ≤ N) {p : List Nat}
    (hplen : p.length = N) (hpw : ∀ x ∈ p, x < 2 ^ W) (hi : List Nat) :
    ∀ (L : List Nat) (acc : List Nat), WFv N W acc →
      WFv N W (L.foldl (fun acc i => if internal.test W hi i
          then internal.add acc (internal.power_mod W p i) else acc) acc) ∧
      toNat W (L.foldl (fun acc i => if internal.test W hi i
          then internal.add acc (internal.power_mod W p i) else acc) acc) =
        toNat W acc ^^^ L.foldl (fun a i => a ^^^ (if internal.test W hi i
          then toNat W (internal.power_mod W p i) else 0)) 0 := by
  intro L
  induction L with
  | nil =>
    intro acc hacc
    exact ⟨hacc, by simp⟩
  | cons i L ih =>
    intro acc hacc
    have hpm := power_mod_spec hW hN hplen hpw i
    have hstep : WFv N W (if internal.test W hi i
        then internal.add acc (internal.power_mod W p i) else acc) := by
      by_cases ht : internal.test W hi i
      · rw [if_pos ht, add_eq_xorV]
        exact WFv_xorV hacc ⟨hpm.1, hpm.2.1⟩
      · rw [if_neg ht]
        exact hacc
    have htn : toNat W (if internal.test W hi i
        then internal.add acc (internal.power_mod W p i) else acc) =
        toNat W acc ^^^
          (if internal.test W hi i then toNat W (internal.power_mod W p i) else 0) := by
      by_cases ht : internal.test W hi i
      · rw [if_pos ht, if_pos ht, add_eq_xorV, toNat_xorV hW hacc ⟨hpm.1, hpm.2.1⟩]
      · rw [if_neg ht, if_neg ht, Nat.xor_zero]
    obtain ⟨ihwf, ihtn⟩ := ih _ hstep
    refine ⟨ihwf, ?_⟩
    rw [List.foldl_cons, ihtn, htn, List.foldl_cons]
    conv_rhs => rw [natfold_acc]
    rw [Nat.zero_xor, Nat.xor_assoc]

/-- `square_step` squares modulo `c(x)`: the result is well-formed and
congruent to the GF(2) square (the `spread`) of its input. -/
theorem square_step_spec {W k N : Nat} (hk : 1 ≤ k) (hWk : W = 2 ^ k) (hN : 1 ≤ N)
    {p poly : List Nat} (hplen : p.length = N) (hpw : ∀ x ∈ p, x < 2 ^ W)
    (hlen : poly.length = N) (hwf : ∀ x ∈ poly, x < 2 ^ W) :
    (internal.square_step W p poly).length = N ∧
      (∀ x ∈ internal.square_step W p poly, x < 2 ^ W) ∧
      Cong (2 ^ (N * W) + toNat W p) (spread (toNat W poly))
        (toNat W (internal.square_step W p poly)) := by
  have hW : 1 ≤ W := by
    rw [hWk]
    exact Nat.one_le_two_pow
  obtain ⟨hlol, hhil, hlow, hhiw, hsum⟩ := riffle_arr_spec hk hWk hwf
  obtain ⟨lo, hi, hlohi⟩ : ∃ lo hi, internal.riffle_arr W poly = (lo, hi) := ⟨_, _, rfl⟩
  rw [hlohi, hlen] at hlol hhil hsum
  rw [hlohi] at hlow hhiw
  have hss : internal.square_step W p poly =
      (match internal.first_set W hi with
       | none => lo
       | some hi_first =>
         (List.range' hi_first
             (((internal.final_set W hi).getD 0 - hi_first) / 2 + 1) 2).foldl
           (fun acc i => if internal.test W hi i
             then internal.add acc (internal.power_mod W p i) else acc) lo) := by
    simp only [internal.square_step, hlohi]
  have hlolt : toNat W lo < 2 ^ (N * W) := by
    have := toNat_lt hlow
    rw [hlol] at this
    exact this
  cases hfs : internal.first_set W hi with
  | none =>
    rw [hss, hfs]
    refine ⟨hlol, hlow, ?_⟩
    have hhz : toNat W hi = 0 := first_set_eq_none hfs
    have hlo_eq : spread (toNat W poly) = toNat W lo := by
      rw [← hsum, hhz]
      ring
    rw [hlo_eq]
    exact Cong.refl _ _
  | some f =>
    obtain ⟨hf1, hf2⟩ := first_set_eq_some hW hhiw hfs
    have hhne : toNat W hi ≠ 0 := by
      intro hz
      rw [hz] at hf1
      simp at hf1
    cases hls : internal.final_set W hi with
    | none => exact absurd (final_set_eq_none hls) hhne
    | some l =>
      obtain ⟨hl1, hl2⟩ := final_set_eq_some hW hhiw hls
      rw [hss, hfs, hls]
      show _ ∧ _ ∧ Cong _ _ (toNat W ((List.range' f ((l - f) / 2 + 1) 2).foldl _ lo))
      obtain ⟨hfwf, hftn⟩ :=
        fold_add_pm hW hN hplen hpw hi (List.range' f ((l - f) / 2 + 1) 2) lo ⟨hlol, hlow⟩
      refine ⟨hfwf.1, hfwf.2, ?_⟩
      rw [hftn]
      -- parity of the state bit count
      have hWeven : 2 ∣ W := by
        refine ⟨2 ^ (k - 1), ?_⟩
        rw [hWk, ← pow_succ']
        congr 1
        omega
      have hneven : (N * W) % 2 = 0 := by
        obtain ⟨c, hc⟩ := hWeven
        have : N * W = 2 * (N * c) := by rw [hc]; ring
        omega
      -- bit j of hi is bit (n + j) of the spread
      have hbit : ∀ j, (toNat W hi).testBit j = (spread (toNat W poly)).testBit (N * W + j) := by
        intro j
        rw [← hsum, word_split_testBit _ hlolt, if_neg (by omega)]
        congr 1
        omega
      have heven : ∀ j, (toNat W hi).testBit j = true → j % 2 = 0 := by
        intro j hj
        rw [hbit j, spread_testBit] at hj
        have := (Bool.and_eq_true _ _).mp hj
        have h2 : (N * W + j) % 2 = 0 := by
          have := this.1
          simpa using this
        omega
      have hcov : ∀ j, (toNat W hi).testBit j = true →
          j ∈ List.range' f ((l - f) / 2 + 1) 2 := by
        intro j hj
        have hjf : f ≤ j := by
          by_contra hc
          push_neg at hc
          rw [hf2 j hc] at hj
          cases hj
        have hjl : j ≤ l := by
          by_contra hc
          push_neg at hc
          rw [hl2 j hc] at hj
          cases hj
        have hje := heven j hj
        have hfe := heven f hf1
        rw [List.mem_range']
        exact ⟨(j - f) / 2, by omega, by omega⟩
      have hg : (List.range' f ((l - f) / 2 + 1) 2).foldl
          (fun a i => a ^^^ (if internal.test W hi i
            then toNat W (internal.power_mod W p i) else 0)) 0 =
          (List.range' f ((l - f) / 2 + 1) 2).foldl
          (fun a i => a ^^^ (if (toNat W hi).testBit i
            then toNat W (internal.power_mod W p i) else 0)) 0 := by
        simp only [test_spec hW hhiw]
      have hcongfold : Cong (2 ^ (N * W) + toNat W p)
          ((List.range' f ((l - f) / 2 + 1) 2).foldl
            (fun a i => a ^^^ (if (toNat W hi).testBit i then 2 ^ (N * W + i) else 0)) 0)
          ((List.range' f ((l - f) / 2 + 1) 2).foldl
            (fun a i => a ^^^ (if (toNat W hi).testBit i
              then toNat W (internal.power_mod W p i) else 0)) 0) := by
        apply fold_cong
        intro i _
        by_cases hb : (toNat W hi).testBit i
        · rw [if_pos hb, if_pos hb]
          exact (power_mod_spec hW hN hplen hpw i).2.2
        · rw [if_neg hb, if_neg hb]
          exact Cong.refl _ _
      have hgather : (List.range' f ((l - f) / 2 + 1) 2).foldl
          (fun a i => a ^^^ (if (toNat W hi).testBit i then 2 ^ (N * W + i) else 0)) 0 =
          (toNat W hi) <<< (N * W) :=
        gather_eq (List.nodup_range' f ((l - f) / 2 + 1) 2 (by omega)) hcov
      rw [hgather] at hcongfold
      have hxorform : spread (toNat W poly) =
          toNat W lo ^^^ ((toNat W hi) <<< (N * W)) := by
        rw [← hsum]
        have h2 : toNat W lo + 2 ^ (N * W) * toNat W hi =
            toNat W lo ||| (toNat W hi) <<< (N * W) := by
          rw [Nat.shiftLeft_eq, Nat.or_comm, Nat.mul_comm (toNat W hi),
            ← Nat.mul_add_lt_is_or hlolt]
          omega
        rw [h2, or_shl_eq_xor_shl _ _ hlolt]
      rw [hxorform, hg]
      exact Cong.xor (Cong.refl _ _) hcongfold

/-! ### Theorems: the square-and-multiply loop and `reduce` -/

theorem smul_loop_zero (W : Nat) (p : List Nat) (J : Nat) (r : List Nat) :
    internal.smul_loop W p J 0 r = r := by
  rw [internal.smul_loop, dif_pos rfl]

theorem smul_loop_eq (W : Nat) (p : List Nat) (J J_bit : Nat) (r : List Nat)
    (h : J_bit ≠ 0) :
    internal.smul_loop W p J J_bit r =
      internal.smul_loop W p J (J_bit >>> 1)
        (if J &&& J_bit ≠ 0 then internal.times_x_step W p (internal.square_step W p r)
         else internal.square_step W p r) := by
  conv_lhs => rw [internal.smul_loop]
  rw [dif_neg h]

theorem smul_body_spec {W k N : Nat} (hk : 1 ≤ k) (hWk : W = 2 ^ k) (hN : 1 ≤ N)
    {p : List Nat} (hplen : p.length = N) (hpw : ∀ x ∈ p, x < 2 ^ W)
    {J m : Nat} {r : List Nat} (hr : WFv N W r)
    (hcong : Cong (2 ^ (N * W) + toNat W p) (2 ^ (J >>> (m + 1))) (toNat W r)) :
    WFv N W (if J &&& 2 ^ m ≠ 0
        then internal.times_x_step W p (internal.square_step W p r)
        else internal.square_step W p r) ∧
      Cong (2 ^ (N * W) + toNat W p) (2 ^ (J >>> m))
        (toNat W (if J &&& 2 ^ m ≠ 0
          then internal.times_x_step W p (internal.square_step W p r)
          else internal.square_step W p r)) := by
  obtain ⟨hsl, hsw, hsc⟩ := square_step_spec hk hWk hN hplen hpw hr.1 hr.2
  have hW : 1 ≤ W := by
    rw [hWk]
    exact Nat.one_le_two_pow
  have hsq : Cong (2 ^ (N * W) + toNat W p) (2 ^ (2 * (J >>> (m + 1))))
      (toNat W (internal.square_step W p r)) := by
    rw [← spread_pow]
    exact Cong.trans (Cong.square hcong) hsc
  have h2m : (2 : Nat) ^ m = 1 <<< m := by
    rw [Nat.shiftLeft_eq, Nat.one_mul]
  have hdiv : J >>> (m + 1) = (J >>> m) / 2 := Nat.shiftRight_succ J m
  by_cases hbit : J.testBit m = true
  · have hpar : (J >>> m) % 2 = 1 := by
      rw [Nat.testBit_to_div_mod] at hbit
      rw [Nat.shiftRight_eq_div_pow]
      exact of_decide_eq_true hbit
    have he : J >>> m = 2 * (J >>> (m + 1)) + 1 := by
      rw [hdiv]
      omega
    have hcnd : J &&& 2 ^ m ≠ 0 := by
      rw [h2m]
      exact (and_two_pow_ne_zero J m).mpr hbit
    rw [if_pos hcnd]
    obtain ⟨htl, htw⟩ := times_x_wf hW hplen hpw hsl hsw
    refine ⟨⟨htl, htw⟩, ?_⟩
    have hexp : (2 : Nat) ^ (J >>> m) = 2 ^ (2 * (J >>> (m + 1))) <<< 1 := by
      rw [Nat.shiftLeft_eq, pow_one, ← Nat.pow_succ, he]
    rw [hexp]
    exact Cong.trans (Cong.shl1 hsq) (times_x_cong hW hN hplen hpw hsl hsw)
  · have hpar : (J >>> m) % 2 = 0 := by
      rw [Nat.testBit_to_div_mod] at hbit
      simp only [decide_eq_true_eq] at hbit
      rw [Nat.shiftRight_eq_div_pow]
      omega
    have he : J >>> m = 2 * (J >>> (m + 1)) := by
      rw [hdiv]
      omega
    have hcnd : ¬(J &&& 2 ^ m ≠ 0) := by
      rw [h2m]
      exact fun hne => hbit ((and_two_pow_ne_zero J m).mp hne)
    rw [if_neg hcnd]
    refine ⟨⟨hsl, hsw⟩, ?_⟩
    rw [he]
    exact hsq

theorem smul_loop_spec {W k N : Nat} (hk : 1 ≤ k) (hWk : W = 2 ^ k) (hN : 1 ≤ N)
    {p : List Nat} (hplen : p.length = N) (hpw : ∀ x ∈ p, x < 2 ^ W) (J : Nat) :
    ∀ (m : Nat) (r : List Nat), WFv N W r →
      Cong (2 ^ (N * W) + toNat W p) (2 ^ (J >>> (m + 1))) (toNat W r) →
      WFv N W (internal.smul_loop W p J (2 ^ m) r) ∧
        Cong (2 ^ (N * W) + toNat W p) (2 ^ J)
          (toNat W (internal.smul_loop W p J (2 ^ m) r)) := by
  intro m
  induction m with
  | zero =>
    intro r hr hcong
    rw [smul_loop_eq W p J (2 ^ 0) r (by decide)]
    have hsh : (2 : Nat) ^ 0 >>> 1 = 0 := by decide
    rw [hsh, smul_loop_zero]
    obtain ⟨hwf2, hcong2⟩ := smul_body_spec hk hWk hN hplen hpw hr hcong
    refine ⟨hwf2, ?_⟩
    have hJ0 : J >>> 0 = J := Nat.shiftRight_zero
    rw [← hJ0]
    exact hcong2
  | succ m ih =>
    intro r hr hcong
    rw [smul_loop_eq W p J (2 ^ (m + 1)) r (by positivity)]
    have hsh : (2 : Nat) ^ (m + 1) >>> 1 = 2 ^ m := by
      rw [Nat.shiftRight_succ, Nat.shiftRight_zero, Nat.pow_succ,
        Nat.mul_div_cancel _ (by omega)]
    rw [hsh]
    obtain ⟨hwf2, hcong2⟩ := smul_body_spec hk hWk hN hplen hpw hr hcong
    exact ih _ hwf2 hcong2

theorem pow2_iterate_spec {W k N : Nat} (hk : 1 ≤ k) (hWk : W = 2 ^ k) (hN : 1 ≤ N)
    {p : List Nat} (hplen : p.length = N) (hpw : ∀ x ∈ p, x < 2 ^ W) (j : Nat) :
    WFv N W ((internal.square_step W p)^[j] (internal.set W (zeroV N) 1)) ∧
      Cong (2 ^ (N * W) + toNat W p) (2 ^ 2 ^ j)
        (toNat W ((internal.square_step W p)^[j] (internal.set W (zeroV N) 1))) := by
  have hW : 1 ≤ W := by
    rw [hWk]
    exact Nat.one_le_two_pow
  have hW2 : 2 ≤ W := by
    rw [hWk]
    calc (2 : Nat) = 2 ^ 1 := (pow_one 2).symm
    _ ≤ 2 ^ k := Nat.pow_le_pow_right (by omega) hk
  have hn2 : 1 < N * W := by
    have : 1 * 2 ≤ N * W := Nat.mul_le_mul hN hW2
    omega
  obtain ⟨hset, hsetlen, hsetwf⟩ := set_zero_spec (i := 1) hW hn2
  induction j with
  | zero =>
    rw [Function.iterate_zero, id_eq]
    refine ⟨⟨hsetlen, hsetwf⟩, ?_⟩
    have h0 : (2 : Nat) ^ 2 ^ 0 = 2 ^ 1 := by norm_num
    rw [h0, ← hset]
    exact Cong.refl _ _
  | succ j ih =>
    obtain ⟨⟨hlen, hwf⟩, hcong⟩ := ih
    rw [Function.iterate_succ_apply']
    obtain ⟨hsl, hsw, hsc⟩ := square_step_spec hk hWk hN hplen hpw hlen hwf
    refine ⟨⟨hsl, hsw⟩, ?_⟩
    have hexp : (2 : Nat) ^ 2 ^ (j + 1) = spread (2 ^ 2 ^ j) := by
      rw [spread_pow]
      congr 1
      rw [Nat.pow_succ]
      ring
    rw [hexp]
    exact Cong.trans (Cong.square hcong) hsc

/-- `reduce` produces a well-formed coefficient vector congruent to
`x^e mod c(x)` where `e = 2^J` in the power-of-two mode and `e = J`
otherwise. -/
theorem reduce_spec {W k N : Nat} (hk : 1 ≤ k) (hWk : W = 2 ^ k) (hN : 1 ≤ N)
    {p : List Nat} (hplen : p.length = N) (hpw : ∀ x ∈ p, x < 2 ^ W)
    (J : Nat) (pw2 : Bool) :
    WFv N W (internal.reduce W p J pw2) ∧
      Cong (2 ^ (N * W) + toNat W p) (2 ^ (if pw2 then 2 ^ J else J))
        (toNat W (internal.reduce W p J pw2)) := by
  have hW : 1 ≤ W := by
    rw [hWk]
    exact Nat.one_le_two_pow
  have hW2 : 2 ≤ W := by
    rw [hWk]
    calc (2 : Nat) = 2 ^ 1 := (pow_one 2).symm
    _ ≤ 2 ^ k := Nat.pow_le_pow_right (by omega) hk
  have hn2 : 1 < N * W := by
    have : 1 * 2 ≤ N * W := Nat.mul_le_mul hN hW2
    omega
  cases pw2 with
  | true =>
    have hr2 : internal.reduce W p J true =
        (internal.square_step W p)^[J] (internal.set W (zeroV N) 1) := by
      simp only [internal.reduce, hplen, zeroV, if_true]
    rw [hr2]
    exact pow2_iterate_spec hk hWk hN hplen hpw J
  | false =>
    by_cases hJn : J < N * W
    · have hr2 : internal.reduce W p J false = internal.set W (zeroV N) J := by
        simp only [internal.reduce, hplen, zeroV, Bool.false_eq_true, if_false]
        rw [if_pos hJn]
      rw [hr2]
      obtain ⟨hset, hsetlen, hsetwf⟩ := set_zero_spec (i := J) hW hJn
      refine ⟨⟨hsetlen, hsetwf⟩, ?_⟩
      rw [hset]
      exact Cong.refl _ _
    · by_cases hJe : J = N * W
      · have hr2 : internal.reduce W p J false = p := by
          simp only [internal.reduce, hplen, zeroV, Bool.false_eq_true, if_false]
          rw [if_neg hJn, if_pos hJe]
        rw [hr2]
        refine ⟨⟨hplen, hpw⟩, ⟨1, ?_⟩⟩
        have hpn : toNat W p < 2 ^ (N * W) := by
          have := toNat_lt hpw
          rw [hplen] at this
          exact this
        rw [pmul_one_left, if_neg Bool.false_ne_true, hJe,
          ← two_pow_add_eq_xor _ hpn]
      · have hJ3 : N * W < J := by omega
        have hs2 : 2 ≤ J.size := by
          have := Nat.lt_size.mpr (show 2 ^ 1 ≤ J by omega)
          omega
        have hbit_eq : (1 <<< (J.size - 1)) >>> 1 = 2 ^ (J.size - 2) := by
          rw [Nat.shiftLeft_eq, Nat.one_mul, Nat.shiftRight_succ, Nat.shiftRight_zero,
            show J.size - 1 = (J.size - 2) + 1 by omega, Nat.pow_succ,
            Nat.mul_div_cancel _ (by omega)]
        have hr2 : internal.reduce W p J false =
            internal.smul_loop W p J (2 ^ (J.size - 2))
              (internal.set W (zeroV N) 1) := by
          simp only [internal.reduce, hplen, zeroV, Bool.false_eq_true, if_false]
          rw [if_neg hJn, if_neg hJe, hbit_eq]
        rw [hr2]
        obtain ⟨hset, hsetlen, hsetwf⟩ := set_zero_spec (i := 1) hW hn2
        have hpre : Cong (2 ^ (N * W) + toNat W p) (2 ^ (J >>> (J.size - 2 + 1)))
            (toNat W (internal.set W (zeroV N) 1)) := by
          have h1 : J >>> (J.size - 2 + 1) = 1 := by
            rw [show J.size - 2 + 1 = J.size - 1 by omega, Nat.shiftRight_eq_div_pow]
            have hlo : 1 * 2 ^ (J.size - 1) ≤ J := by
              rw [Nat.one_mul]
              exact Nat.lt_size.mp (by omega)
            have hhi : J < (1 + 1) * 2 ^ (J.size - 1) := by
              have hself := Nat.lt_size_self J
              have h2 : 2 ^ J.size = 2 * 2 ^ (J.size - 1) := by
                rw [← Nat.pow_succ']
                congr 1
                omega
              omega
            exact Nat.div_eq_of_lt_le hlo hhi
          rw [h1, hset]
          exact Cong.refl _ _
        have hmain := smul_loop_spec hk hWk hN hplen hpw J (J.size - 2) _
          ⟨hsetlen, hsetwf⟩ hpre
        exact ⟨hmain.1, by rw [if_neg Bool.false_ne_true]; exact hmain.2⟩

theorem reduce_toNat {W k N : Nat} (hk : 1 ≤ k) (hWk : W = 2 ^ k) (hN : 1 ≤ N)
    {p : List Nat} (hplen : p.length = N) (hpw : ∀ x ∈ p, x < 2 ^ W)
    (J : Nat) (pw2 : Bool) :
    toNat W (internal.reduce W p J pw2) =
      pmod (2 ^ (if pw2 then 2 ^ J else J)) (2 ^ (N * W) + toNat W p) := by
  obtain ⟨⟨hlen, hwf⟩, hcong⟩ := reduce_spec hk hWk hN hplen hpw J pw2
  have hpn : toNat W p < 2 ^ (N * W) := by
    have := toNat_lt hpw
    rw [hplen] at this
    exact this
  have hsz : (2 ^ (N * W) + toNat W p).size = N * W + 1 := size_two_pow_add hpn
  have hcc0 : (2 ^ (N * W) + toNat W p) ≠ 0 := by
    have : 0 < 2 ^ (N * W) + toNat W p := by positivity
    omega
  refine (pmod_eq_of_cong hcc0 hcong ?_).symm
  rw [hsz]
  have := toNat_lt hwf
  rw [hlen] at this
  simpa using this

/-! ### Theorems: the GF(2) action `actV` -/

theorem actV_zero (N : Nat) (T : List Nat → List Nat) (v : List Nat) :
    actV N T 0 v = zeroV N := by
  rw [actV, dif_pos rfl]

theorem actV_ne {N : Nat} {T : List Nat → List Nat} {q : Nat} {v : List Nat}
    (h : q ≠ 0) :
    actV N T q v = xorV (if q % 2 = 1 then v else zeroV N) (actV N T (q / 2) (T v)) := by
  conv_lhs => rw [actV]
  rw [dif_neg h]

theorem actV_wf {N W : Nat} {T : List Nat → List Nat}
    (hT : ∀ v, WFv N W v → WFv N W (T v)) :
    ∀ q {v}, WFv N W v → WFv N W (actV N T q v) := by
  intro q
  induction q using Nat.strong_induction_on with
  | _ q ih =>
    intro v hv
    by_cases hq : q = 0
    · rw [hq, actV_zero]
      exact WFv_zeroV N W
    · rw [actV_ne hq]
      apply WFv_xorV
      · by_cases hqo : q % 2 = 1
        · rw [if_pos hqo]
          exact hv
        · rw [if_neg hqo]
          exact WFv_zeroV N W
      · exact ih (q / 2) (Nat.div_lt_self (Nat.pos_of_ne_zero hq) (by omega)) (hT v hv)

theorem actV_shl1 {N W : Nat} {T : List Nat → List Nat}
    (hT : ∀ v, WFv N W v → WFv N W (T v)) {v : List Nat} (hv : WFv N W v) (c : Nat) :
    actV N T (c <<< 1) v = actV N T c (T v) := by
  by_cases hc : c = 0
  · rw [hc, Nat.zero_shiftLeft, actV_zero, actV_zero]
  · have h1 : c <<< 1 ≠ 0 := by
      rw [Nat.shiftLeft_eq, pow_one]
      omega
    have h2 : (c <<< 1) % 2 = 0 := by
      rw [Nat.shiftLeft_eq, pow_one]
      omega
    have h3 : (c <<< 1) / 2 = c := by
      rw [Nat.shiftLeft_eq, pow_one]
      omega
    rw [actV_ne h1, if_neg (by omega), h3]
    exact xorV_zero_left (actV_wf hT c (hT v hv)).1

theorem xorV_ac4 {N : Nat} {p q r s : List Nat} (hp : p.length = N) (hq : q.length = N)
    (hr : r.length = N) (hs : s.length = N) :
    xorV (xorV p q) (xorV r s) = xorV (xorV p r) (xorV q s) := by
  apply List.ext_getElem
  · simp [xorV, hp, hq, hr, hs]
  · intro i h1 h2
    simp only [xorV, List.getElem_zipWith]
    have hx : ∀ a b c d : Nat, (a ^^^ b) ^^^ (c ^^^ d) = (a ^^^ c) ^^^ (b ^^^ d) := by
      intro a b c d
      rw [Nat.xor_assoc, Nat.xor_assoc]
      congr 1
      rw [← Nat.xor_assoc, ← Nat.xor_assoc, Nat.xor_comm b c]
    exact hx _ _ _ _

theorem actV_xor {N W : Nat} {T : List Nat → List Nat}
    (hT : ∀ v, WFv N W v → WFv N W (T v)) :
    ∀ a b {v}, WFv N W v →
      actV N T (a ^^^ b) v = xorV (actV N T a v) (actV N T b v) := by
  intro a
  induction a using Nat.strong_induction_on with
  | _ a ih =>
    intro b v hv
    by_cases ha : a = 0
    · rw [ha, Nat.zero_xor, actV_zero]
      exact (xorV_zero_left (actV_wf hT b hv).1).symm
    by_cases hb : b = 0
    · rw [hb, Nat.xor_zero, actV_zero]
      exact (xorV_zero_right (actV_wf hT a hv).1).symm
    by_cases hab : a ^^^ b = 0
    · have hae : a = b := xor_eq_zero_iff.mp hab
      rw [hab, actV_zero, hae, xorV_self, (actV_wf hT b hv).1]
    · rw [actV_ne hab, actV_ne ha, actV_ne hb, Nat.xor_div_two,
        ih (a / 2) (Nat.div_lt_self (Nat.pos_of_ne_zero ha) (by omega)) (b / 2) (hT v hv)]
      have hPab : (if (a ^^^ b) % 2 = 1 then v else zeroV N) =
          xorV (if a % 2 = 1 then v else zeroV N) (if b % 2 = 1 then v else zeroV N) := by
        have hm := xor_mod_two a b
        rcases Nat.mod_two_eq_zero_or_one a with h2 | h2 <;>
          rcases Nat.mod_two_eq_zero_or_one b with h3 | h3
        · rw [if_neg (by omega), if_neg (by omega), if_neg (by omega)]
          exact (xorV_zero_right (zeroV_length N)).symm
        · rw [if_pos (by omega), if_neg (by omega), if_pos (by omega)]
          exact (xorV_zero_left hv.1).symm
        · rw [if_pos (by omega), if_pos (by omega), if_neg (by omega)]
          exact (xorV_zero_right hv.1).symm
        · rw [if_neg (by omega), if_pos (by omega), if_pos (by omega)]
          rw [xorV_self, hv.1]
      rw [hPab]
      have hPa : (if a % 2 = 1 then v else zeroV N).length = N := by
        by_cases h2 : a % 2 = 1
        · rw [if_pos h2, hv.1]
        · rw [if_neg h2, zeroV_length]
      have hPb : (if b % 2 = 1 then v else zeroV N).length = N := by
        by_cases h3 : b % 2 = 1
        · rw [if_pos h3, hv.1]
        · rw [if_neg h3, zeroV_length]
      exact xorV_ac4 hPa hPb (actV_wf hT _ (hT v hv)).1 (actV_wf hT _ (hT v hv)).1

theorem actV_pow {N W : Nat} {T : List Nat → List Nat}
    (hT : ∀ v, WFv N W v → WFv N W (T v)) :
    ∀ (J : Nat) {v}, WFv N W v → actV N T (2 ^ J) v = T^[J] v := by
  intro J
  induction J with
  | zero =>
    intro v hv
    rw [pow_zero, actV_ne Nat.one_ne_zero, if_pos rfl,
      show (1 : Nat) / 2 = 0 from rfl, actV_zero, xorV_zero_right hv.1,
      Function.iterate_zero, id_eq]
  | succ J ih =>
    intro v hv
    have hsh : (2 : Nat) ^ (J + 1) = 2 ^ J <<< 1 := by
      rw [Nat.shiftLeft_eq, pow_one, Nat.pow_succ]
    rw [hsh, actV_shl1 hT hv, ih (hT v hv), ← Function.iterate_succ_apply]

theorem actV_pmul {N W : Nat} {T : List Nat → List Nat} {c : Nat}
    (hT : ∀ v, WFv N W v → WFv N W (T v)) (hann : Annihilates N W T c) :
    ∀ q {v}, WFv N W v → actV N T (pmul q c) v = zeroV N := by
  intro q
  induction q using Nat.strong_induction_on with
  | _ q ih =>
    intro v hv
    by_cases hq : q = 0
    · rw [hq, pmul_zero_left, actV_zero]
    · rw [pmul_bits q c, actV_xor hT _ _ hv]
      have h1 : actV N T (if q % 2 = 1 then c else 0) v = zeroV N := by
        by_cases hqo : q % 2 = 1
        · rw [if_pos hqo]
          exact hann v hv
        · rw [if_neg hqo, actV_zero]
      have h2 : actV N T ((pmul (q / 2) c) <<< 1) v = zeroV N := by
        rw [actV_shl1 hT hv,
          ih (q / 2) (Nat.div_lt_self (Nat.pos_of_ne_zero hq) (by omega)) (hT v hv)]
      rw [h1, h2]
      exact xorV_zero_right (zeroV_length N)

theorem actV_cong {N W : Nat} {T : List Nat → List Nat} {c : Nat}
    (hT : ∀ v, WFv N W v → WFv N W (T v)) (hann : Annihilates N W T c)
    {a b : Nat} (hc : Cong c a b) {v : List Nat} (hv : WFv N W v) :
    actV N T a v = actV N T b v := by
  obtain ⟨q, hq⟩ := hc
  have ha : a = b ^^^ pmul q c := by
    have h1 : a ^^^ b ^^^ b = pmul q c ^^^ b := by rw [hq]
    rw [Nat.xor_assoc, Nat.xor_self, Nat.xor_zero] at h1
    rw [h1, Nat.xor_comm]
  rw [ha, actV_xor hT _ _ hv, actV_pmul hT hann q hv,
    xorV_zero_right (actV_wf hT b hv).1]

/-! ### Theorems: lifting annihilation from the unit vectors -/

theorem xor_top_lt {x : Nat} (hx : x ≠ 0) :
    x ^^^ 2 ^ (x.size - 1) < 2 ^ (x.size - 1) := by
  have hs1 : 1 ≤ x.size := Nat.size_pos.mpr (Nat.pos_of_ne_zero hx)
  by_contra hc
  push_neg at hc
  have hy0 : x ^^^ 2 ^ (x.size - 1) ≠ 0 := by
    intro h0
    rw [h0] at hc
    have : 0 < 2 ^ (x.size - 1) := by positivity
    omega
  have hts : x.size - 1 < (x ^^^ 2 ^ (x.size - 1)).size := Nat.lt_size.mpr hc
  have htop := testBit_size_sub_one hy0
  have hbitsfalse : ∀ j, x.size - 1 ≤ j → (x ^^^ 2 ^ (x.size - 1)).testBit j = false := by
    intro j hj
    rw [Nat.testBit_xor, Nat.testBit_two_pow]
    rcases Nat.eq_or_lt_of_le hj with hje | hjl
    · have htt : x.testBit j = true := by
        rw [← hje]
        exact testBit_size_sub_one hx
      rw [htt, ← hje]
      simp
    · have hxj : x.testBit j = false := testBit_false_of_size_le (by omega)
      rw [hxj]
      simp only [Bool.false_xor, decide_eq_false_iff_not]
      omega
  have hf := hbitsfalse ((x ^^^ 2 ^ (x.size - 1)).size - 1) (by omega)
  rw [htop] at hf
  cases hf

theorem unitV_wf {N W : Nat} (hW : 1 ≤ W) (t : Nat) : WFv N W (unitV N W t) := by
  refine ⟨by simp [unitV], ?_⟩
  intro x hx
  rw [unitV] at hx
  obtain ⟨i, _, hxe⟩ := List.mem_map.mp hx
  by_cases hi : i = t / W
  · rw [if_pos hi] at hxe
    rw [← hxe, Nat.shiftLeft_eq, Nat.one_mul]
    exact Nat.pow_lt_pow_right (by omega) (Nat.mod_lt _ (by omega))
  · rw [if_neg hi] at hxe
    rw [← hxe]
    positivity

theorem unitV_toNat {N W t : Nat} (hW : 1 ≤ W) (ht : t < N * W) :
    toNat W (unitV N W t) = 2 ^ t := by
  apply Nat.eq_of_testBit_eq
  intro j
  rw [toNat_testBit hW (unitV_wf hW t).2, Nat.testBit_two_pow, unitV]
  by_cases hjN : j / W < N
  · rw [getD_map_range _ _ hjN]
    by_cases hdiv : j / W = t / W
    · rw [if_pos hdiv, Nat.shiftLeft_eq, Nat.one_mul, Nat.testBit_two_pow]
      have hje : t = j ↔ t % W = j % W := by
        constructor
        · intro h
          rw [h]
        · intro h
          have h1 := Nat.div_add_mod t W
          have h2 := Nat.div_add_mod j W
          have h3 : W * (t / W) = W * (j / W) := by rw [hdiv]
          omega
      by_cases hmod : t % W = j % W
      · rw [decide_eq_true (hje.mpr hmod), decide_eq_true hmod]
      · rw [decide_eq_false (fun h => hmod (hje.mp h)), decide_eq_false hmod]
    · rw [if_neg hdiv, Nat.zero_testBit]
      have : t ≠ j := by
        intro h
        rw [h] at hdiv
        exact hdiv rfl
      rw [decide_eq_false this]
  · rw [getD_map_range_ge _ _ (by omega), Nat.zero_testBit]
    have hjbig : N * W ≤ j := by
      have h1 : N * W ≤ (j / W) * W := Nat.mul_le_mul_right W (by omega)
      have h2 : (j / W) * W ≤ j := Nat.div_mul_le_self j W
      omega
    rw [decide_eq_false (by omega)]

theorem T_zeroV {N W : Nat} {T : List Nat → List Nat} (hT : LinearOn N W T) :
    T (zeroV N) = zeroV N := by
  have h := hT.2 (zeroV N) (zeroV N) (WFv_zeroV N W) (WFv_zeroV N W)
  rw [xorV_self, zeroV_length] at h
  rw [xorV_self, (hT.1 _ (WFv_zeroV N W)).1] at h
  exact h

theorem actV_zeroV {N W : Nat} {T : List Nat → List Nat} (hT : LinearOn N W T) :
    ∀ c, actV N T c (zeroV N) = zeroV N := by
  intro c
  induction c using Nat.strong_induction_on with
  | _ c ih =>
    by_cases hc : c = 0
    · rw [hc, actV_zero]
    · rw [actV_ne hc, T_zeroV hT,
        ih (c / 2) (Nat.div_lt_self (Nat.pos_of_ne_zero hc) (by omega)), ite_self]
      exact xorV_zero_right (zeroV_length N)

theorem actV_state_xor {N W : Nat} {T : List Nat → List Nat} (hT : LinearOn N W T) :
    ∀ q {u v}, WFv N W u → WFv N W v →
      actV N T q (xorV u v) = xorV (actV N T q u) (actV N T q v) := by
  intro q
  induction q using Nat.strong_induction_on with
  | _ q ih =>
    intro u v hu hv
    by_cases hq : q = 0
    · rw [hq, actV_zero, actV_zero, actV_zero]
      exact (xorV_zero_right (zeroV_length N)).symm
    · rw [actV_ne hq, actV_ne hq, actV_ne hq, hT.2 u v hu hv,
        ih (q / 2) (Nat.div_lt_self (Nat.pos_of_ne_zero hq) (by omega))
          (hT.1 u hu) (hT.1 v hv)]
      have hP : (if q % 2 = 1 then xorV u v else zeroV N) =
          xorV (if q % 2 = 1 then u else zeroV N) (if q % 2 = 1 then v else zeroV N) := by
        by_cases hqo : q % 2 = 1
        · rw [if_pos hqo, if_pos hqo, if_pos hqo]
        · rw [if_neg hqo, if_neg hqo, if_neg hqo]
          exact (xorV_zero_right (zeroV_length N)).symm
      rw [hP]
      have hPu : (if q % 2 = 1 then u else zeroV N).length = N := by
        by_cases hqo : q % 2 = 1
        · rw [if_pos hqo, hu.1]
        · rw [if_neg hqo, zeroV_length]
      have hPv : (if q % 2 = 1 then v else zeroV N).length = N := by
        by_cases hqo : q % 2 = 1
        · rw [if_pos hqo, hv.1]
        · rw [if_neg hqo, zeroV_length]
      exact xorV_ac4 hPu hPv (actV_wf hT.1 _ (hT.1 u hu)).1 (actV_wf hT.1 _ (hT.1 v hv)).1

theorem xorV_cancel {a b : List Nat} (h : a.length = b.length) :
    xorV (xorV a b) b = a := by
  apply List.ext_getElem
  · simp [xorV, h]
  · intro i h1 h2
    simp only [xorV, List.getElem_zipWith]
    rw [Nat.xor_assoc, Nat.xor_self, Nat.xor_zero]

theorem toNat_zero_all {W : Nat} : ∀ {v : List Nat}, toNat W v = 0 → ∀ x ∈ v, x = 0 := by
  intro v
  induction v with
  | nil => intro _ x hx; cases hx
  | cons w ws ih =>
    intro h x hx
    rw [toNat] at h
    have hw : w = 0 ∧ toNat W ws = 0 := by
      have : 0 < 2 ^ W := by positivity
      constructor <;> nlinarith [Nat.zero_le (toNat W ws)]
    rcases List.mem_cons.mp hx with hx | hx
    · rw [hx, hw.1]
    · exact ih hw.2 x hx

theorem annihilates_of_units {N W : Nat} {T : List Nat → List Nat} {c : Nat}
    (hW : 1 ≤ W) (hT : LinearOn N W T)
    (hu : ∀ t, t < N * W → actV N T c (unitV N W t) = zeroV N) :
    Annihilates N W T c := by
  suffices h : ∀ n v, WFv N W v → toNat W v = n → actV N T c v = zeroV N by
    exact fun v hv => h _ v hv rfl
  intro n
  induction n using Nat.strong_induction_on with
  | _ n ih =>
    intro v hv htn
    by_cases hn : n = 0
    · have hall : ∀ x ∈ v, x = 0 := toNat_zero_all (by rw [htn, hn])
      have hveq : v = zeroV N := by
        rw [zeroV]
        exact List.eq_replicate.mpr ⟨hv.1, hall⟩
      rw [hveq]
      exact actV_zeroV hT c
    · have hs1 : 1 ≤ n.size := Nat.size_pos.mpr (Nat.pos_of_ne_zero hn)
      have htNW : n.size - 1 < N * W := by
        have h1 : toNat W v < 2 ^ (N * W) := by
          have := toNat_lt hv.2
          rw [hv.1] at this
          exact this
        rw [htn] at h1
        have h2 : n.size ≤ N * W := Nat.size_le.mpr h1
        omega
      have huwf := unitV_wf (N := N) hW (n.size - 1)
      have hv' : WFv N W (xorV v (unitV N W (n.size - 1))) := WFv_xorV hv huwf
      have htn' : toNat W (xorV v (unitV N W (n.size - 1))) = n ^^^ 2 ^ (n.size - 1) := by
        rw [toNat_xorV hW hv huwf, unitV_toNat hW htNW, htn]
      have hlt : n ^^^ 2 ^ (n.size - 1) < n := by
        have h1 := xor_top_lt hn
        have h2 : 2 ^ (n.size - 1) ≤ n := Nat.lt_size.mp (by omega)
        omega
      have hzero' := ih _ hlt _ hv' htn'
      have hveq : v = xorV (xorV v (unitV N W (n.size - 1))) (unitV N W (n.size - 1)) :=
        (xorV_cancel (by rw [hv.1, huwf.1])).symm
      rw [hveq, actV_state_xor hT c hv' huwf, hzero', hu _ htNW]
      exact xorV_zero_right (zeroV_length N)

/-! ### Theorems: flattening the `jump` loops -/

theorem map_getD_xor {N : Nat} {a : List Nat} (h : a.length = N) (g : Nat → Nat) :
    (List.range N).map (fun w => a.getD w 0 ^^^ g w) = xorV a ((List.range N).map g) := by
  apply List.ext_getElem
  · simp [xorV, h]
  · intro i h1 h2
    have hiN : i < N := by simpa using h1
    simp only [List.getElem_map, List.getElem_range, xorV, List.getElem_zipWith]
    congr 1
    rw [List.getD_eq_getElem _ _ (by omega)]

theorem fold_if_none {α β : Type} {P : β → Prop} [DecidablePred P] (f : α → β → α) :
    ∀ (L : List β) (a : α), (∀ b ∈ L, ¬P b) →
      L.foldl (fun a b => if P b then f a b else a) a = a := by
  intro L
  induction L with
  | nil => intro a _; rfl
  | cons b L ih =>
    intro a h
    rw [List.foldl_cons, if_neg (h b (by simp))]
    exact ih a fun x hx => h x (by simp [hx])

theorem fold_if_congr {α β : Type} {P Q : β → Prop} [DecidablePred P] [DecidablePred Q]
    (f : α → β → α) :
    ∀ (L : List β) (a : α), (∀ b ∈ L, P b ↔ Q b) →
      L.foldl (fun a b => if P b then f a b else a) a =
        L.foldl (fun a b => if Q b then f a b else a) a := by
  intro L
  induction L with
  | nil => intro a _; rfl
  | cons b L ih =>
    intro a h
    rw [List.foldl_cons, List.foldl_cons,
      if_congr (h b (by simp)) rfl rfl]
    exact ih _ fun x hx => h x (by simp [hx])

theorem foldl_xorV_length {N : Nat} (g : Nat → List Nat) (P : Nat → Prop) [DecidablePred P] :
    ∀ (L : List Nat) (m : List Nat), m.length = N → (∀ t ∈ L, (g t).length = N) →
      (L.foldl (fun a t => if P t then xorV a (g t) else a) m).length = N := by
  intro L
  induction L with
  | nil => intro m hm _; exact hm
  | cons t L ih =>
    intro m hm hg
    rw [List.foldl_cons]
    apply ih
    · by_cases hp : P t
      · rw [if_pos hp, xorV_length, hm, hg t (by simp)]
        omega
      · rw [if_neg hp]
        exact hm
    · intro x hx
      exact hg x (by simp [hx])

theorem foldl_xorV_wf {N W : Nat} (g : Nat → List Nat) (P : Nat → Prop) [DecidablePred P] :
    ∀ (L : List Nat) (m : List Nat), WFv N W m → (∀ t ∈ L, WFv N W (g t)) →
      WFv N W (L.foldl (fun a t => if P t then xorV a (g t) else a) m) := by
  intro L
  induction L with
  | nil => intro m hm _; exact hm
  | cons t L ih =>
    intro m hm hg
    rw [List.foldl_cons]
    apply ih
    · by_cases hp : P t
      · rw [if_pos hp]
        exact WFv_xorV hm (hg t (by simp))
      · rw [if_neg hp]
        exact hm
    · intro x hx
      exact hg x (by simp [hx])

theorem fold_xorV_acc {N : Nat} (g : Nat → List Nat) (P : Nat → Prop) [DecidablePred P] :
    ∀ (L : List Nat) (acc : List Nat), acc.length = N → (∀ t ∈ L, (g t).length = N) →
      L.foldl (fun a t => if P t then xorV a (g t) else a) acc =
        xorV acc (L.foldl (fun a t => if P t then xorV a (g t) else a) (zeroV N)) := by
  intro L
  induction L with
  | nil =>
    intro acc hacc _
    exact (xorV_zero_right hacc).symm
  | cons t L ih =>
    intro acc hacc hg
    have hgt : (g t).length = N := hg t (by simp)
    have hgrest : ∀ x ∈ L, (g x).length = N := fun x hx => hg x (by simp [hx])
    have hstep : (if P t then xorV acc (g t) else acc).length = N := by
      by_cases hp : P t
      · rw [if_pos hp, xorV_length, hacc, hgt]
        omega
      · rw [if_neg hp]
        exact hacc
    have hstep0 : (if P t then xorV (zeroV N) (g t) else zeroV N).length = N := by
      by_cases hp : P t
      · rw [if_pos hp, xorV_length, zeroV_length, hgt]
        omega
      · rw [if_neg hp, zeroV_length]
    rw [List.foldl_cons, List.foldl_cons, ih _ hstep hgrest, ih _ hstep0 hgrest]
    have hF : (L.foldl (fun a t => if P t then xorV a (g t) else a) (zeroV N)).length = N :=
      foldl_xorV_length g P L (zeroV N) (zeroV_length N) hgrest
    by_cases hp : P t
    · rw [if_pos hp, if_pos hp, xorV_zero_left hgt]
      exact xorV_assoc (hacc.trans hgt.symm) (hgt.trans hF.symm)
    · rw [if_neg hp, if_neg hp, xorV_zero_left hF]

theorem actV_bits {N W : Nat} {T : List Nat → List Nat}
    (hT : ∀ v, WFv N W v → WFv N W (T v)) :
    ∀ (n R : Nat) {v : List Nat}, WFv N W v → R < 2 ^ n →
      actV N T R v = (List.range n).foldl
        (fun a t => if R.testBit t then xorV a (T^[t] v) else a) (zeroV N) := by
  intro n
  induction n with
  | zero =>
    intro R v hv hR
    have hR0 : R = 0 := by omega
    rw [hR0, actV_zero]
    rfl
  | succ n ih =>
    intro R v hv hR
    by_cases hR0 : R = 0
    · rw [hR0, actV_zero, fold_if_none]
      intro b _
      simp
    · have hTv := hT v hv
      have hit : ∀ t, WFv N W (T^[t] v) := by
        intro t
        induction t with
        | zero => exact hv
        | succ t iht =>
          rw [Function.iterate_succ_apply']
          exact hT _ iht
      rw [actV_ne hR0, List.range_succ_eq_map, List.foldl_cons, List.foldl_map,
        ih (R / 2) (hT v hv) (by omega)]
      have hacc0 : (if R.testBit 0 then xorV (zeroV N) (T^[0] v) else zeroV N).length = N := by
        by_cases hp : R.testBit 0
        · rw [if_pos hp, xorV_length, zeroV_length, Function.iterate_zero, id_eq, hv.1]
          omega
        · rw [if_neg hp, zeroV_length]
      rw [fold_xorV_acc _ _ _ _ hacc0 (fun t _ => (hit (Nat.succ t)).1)]
      have hbody : (List.range n).foldl
          (fun a t => if R.testBit (Nat.succ t) then xorV a (T^[Nat.succ t] v) else a)
          (zeroV N) =
          (List.range n).foldl
          (fun a t => if (R / 2).testBit t then xorV a (T^[t] (T v)) else a) (zeroV N) := by
        apply List.foldl_ext
        intro a t _
        rw [Nat.testBit_succ, Function.iterate_succ_apply]
      rw [hbody]
      congr 1
      rw [Function.iterate_zero, id_eq, Nat.testBit_zero]
      by_cases hp : R % 2 = 1
      · rw [if_pos hp, if_pos (by simp [hp]), xorV_zero_left hv.1]
      · rw [if_neg hp, if_neg (by simp [hp])]

theorem jump_inner_spec (M : StateModel) (ji : Nat) :
    ∀ (c : Nat) (s : M.σ) (m : List Nat), m.length = M.N →
      (List.range c).foldl
        (fun acc2 b =>
          (M.step acc2.1,
           if ji &&& 1 <<< b ≠ 0 then
             (List.range M.N).map (fun w => acc2.2.getD w 0 ^^^ M.elem acc2.1 w)
           else acc2.2))
        (s, m) =
      (M.step^[c] s,
       (List.range c).foldl
         (fun a b => if ji &&& 1 <<< b ≠ 0
           then xorV a (logical M (M.step^[b] s)) else a) m) := by
  intro c
  induction c with
  | zero =>
    intro s m _
    simp
  | succ c ih =>
    intro s m hm
    rw [List.range_succ, List.foldl_append, List.foldl_append, ih s m hm]
    simp only [List.foldl_cons, List.foldl_nil]
    rw [Function.iterate_succ_apply' M.step c s]
    by_cases hcond : ji &&& 1 <<< c ≠ 0
    · rw [if_pos hcond, if_pos hcond]
      have hmc : ((List.range c).foldl (fun a b => if ji &&& 1 <<< b ≠ 0
          then xorV a (logical M (M.step^[b] s)) else a) m).length = M.N := by
        apply foldl_xorV_length _ _ _ _ hm
        intro t _
        simp [logical]
      rw [map_getD_xor hmc]
      rfl
    · rw [if_neg hcond, if_neg hcond]

theorem jump_outer_spec (M : StateModel) (r : List Nat) :
    ∀ (n : Nat) (s : M.σ) (m : List Nat), m.length = M.N →
      (List.range n).foldl
        (fun acc i =>
          (List.range M.W).foldl
            (fun acc2 b =>
              (M.step acc2.1,
               if r.getD i 0 &&& 1 <<< b ≠ 0 then
                 (List.range M.N).map (fun w => acc2.2.getD w 0 ^^^ M.elem acc2.1 w)
               else acc2.2))
            acc)
        (s, m) =
      (M.step^[n * M.W] s,
       (List.range (n * M.W)).foldl
         (fun a t => if r.getD (t / M.W) 0 &&& 1 <<< (t % M.W) ≠ 0
           then xorV a (logical M (M.step^[t] s)) else a) m) := by
  intro n
  induction n with
  | zero =>
    intro s m _
    simp
  | succ n ih =>
    intro s m hm
    rw [List.range_succ, List.foldl_append, ih s m hm]
    simp only [List.foldl_cons, List.foldl_nil]
    have hmn : ((List.range (n * M.W)).foldl
        (fun a t => if r.getD (t / M.W) 0 &&& 1 <<< (t % M.W) ≠ 0
          then xorV a (logical M (M.step^[t] s)) else a) m).length = M.N := by
      apply foldl_xorV_length _ _ _ _ hm
      intro t _
      simp [logical]
    rw [jump_inner_spec M (r.getD n 0) M.W (M.step^[n * M.W] s) _ hmn]
    have hstate : M.step^[M.W] (M.step^[n * M.W] s) = M.step^[(n + 1) * M.W] s := by
      rw [← Function.iterate_add_apply]
      congr 1
      ring
    rw [hstate]
    have hsplit : List.range ((n + 1) * M.W) =
        List.range (n * M.W) ++ (List.range M.W).map (n * M.W + ·) := by
      rw [← List.range_add]
      congr 1
      ring
    rw [hsplit, List.foldl_append, List.foldl_map]
    have hsum : ∀ (m0 : List Nat),
        (List.range M.W).foldl
          (fun a b => if r.getD n 0 &&& 1 <<< b ≠ 0
            then xorV a (logical M (M.step^[b] (M.step^[n * M.W] s))) else a) m0 =
        (List.range M.W).foldl
          (fun a y => if r.getD ((n * M.W + y) / M.W) 0 &&& 1 <<< ((n * M.W + y) % M.W) ≠ 0
            then xorV a (logical M (M.step^[n * M.W + y] s)) else a) m0 := by
      intro m0
      apply List.foldl_ext
      intro a y hy
      have hyW : y < M.W := List.mem_range.mp hy
      have hdiv : (n * M.W + y) / M.W = n := by
        rw [Nat.mul_comm n M.W]
        exact div_mul_add (by omega) hyW n
      have hmod : (n * M.W + y) % M.W = y := by
        rw [Nat.mul_comm n M.W]
        exact mod_mul_add hyW n
      have hiter : M.step^[y] (M.step^[n * M.W] s) = M.step^[n * M.W + y] s := by
        rw [Nat.add_comm, Function.iterate_add_apply]
      rw [hdiv, hmod, hiter]
    rw [hsum]

/-- `xso::jump` reseeds the state from the xor, over all set bits `t` of the
jump polynomial, of the logical state after `t` native steps. -/
theorem jump_eq_fold (M : StateModel) (s : M.σ) (r : List Nat) :
    jump M s r = M.seed
      ((List.range (M.N * M.W)).foldl
        (fun a t => if r.getD (t / M.W) 0 &&& 1 <<< (t % M.W) ≠ 0
          then xorV a (logical M (M.step^[t] s)) else a) (zeroV M.N)) := by
  have h := jump_outer_spec M r M.N s (zeroV M.N) (zeroV_length M.N)
  simp only [jump]
  rw [show (List.replicate M.N 0 : List Nat) = zeroV M.N from rfl, h]

theorem iterate_wfv {N W : Nat} {T : List Nat → List Nat}
    (hT : ∀ v, WFv N W v → WFv N W (T v)) {ws : List Nat} (hws : WFv N W ws) :
    ∀ t, WFv N W (T^[t] ws) := by
  intro t
  induction t with
  | zero => exact hws
  | succ t ih =>
    rw [Function.iterate_succ_apply']
    exact hT _ ih

/-- The logical effect of one `xso::jump` call from a seeded state is the
GF(2) action of the packed jump polynomial on the seed words. -/
theorem jump_logical (M : StateModel) (T : List Nat → List Nat)
    (hW : 1 ≤ M.W)
    (hTwf : ∀ v, WFv M.N M.W v → WFv M.N M.W (T v))
    (hseed : ∀ v, WFv M.N M.W v → logical M (M.seed v) = v)
    {ws : List Nat} (hws : WFv M.N M.W ws)
    (hcoh : ∀ t, logical M (M.step^[t] (M.seed ws)) = T^[t] ws)
    {r : List Nat} (hr : WFv M.N M.W r) :
    logical M (jump M (M.seed ws) r) = actV M.N T (toNat M.W r) ws := by
  rw [jump_eq_fold]
  have hcond : ∀ t ∈ List.range (M.N * M.W),
      (r.getD (t / M.W) 0 &&& 1 <<< (t % M.W) ≠ 0) ↔ ((toNat M.W r).testBit t = true) := by
    intro t _
    rw [and_two_pow_ne_zero, toNat_testBit hW hr.2]
  rw [fold_if_congr _ _ _ hcond]
  have hext : (List.range (M.N * M.W)).foldl
      (fun a t => if (toNat M.W r).testBit t = true
        then xorV a (logical M (M.step^[t] (M.seed ws))) else a) (zeroV M.N) =
      (List.range (M.N * M.W)).foldl
      (fun a t => if (toNat M.W r).testBit t = true
        then xorV a (T^[t] ws) else a) (zeroV M.N) := by
    apply List.foldl_ext
    intro a t _
    rw [hcoh t]
  rw [hext]
  have hlt : toNat M.W r < 2 ^ (M.N * M.W) := by
    have := toNat_lt hr.2
    rw [hr.1] at this
    exact this
  rw [← actV_bits hTwf (M.N * M.W) (toNat M.W r) hws hlt]
  exact hseed _ (actV_wf hTwf _ hws)

/-- The master jump theorem: if the characteristic table entry `p`
annihilates the logical transition operator `T`, then one `xso::jump` call
with the coefficients of `jump_coefficients J pw2` has the same logical
effect as `J` (resp. `2^J`) native steps. -/
theorem jump_correct (M : StateModel) (T : List Nat → List Nat) {k : Nat}
    (hk : 1 ≤ k) (hWk : M.W = 2 ^ k) (hN : 1 ≤ M.N)
    (hT : LinearOn M.N M.W T)
    (hseed : ∀ v, WFv M.N M.W v → logical M (M.seed v) = v)
    {p : List Nat} (hp : M.characteristic_coefficients = some p)
    (hplen : p.length = M.N) (hpw : ∀ x ∈ p, x < 2 ^ M.W)
    (hann : Annihilates M.N M.W T (2 ^ (M.N * M.W) + toNat M.W p))
    {ws : List Nat} (hws : WFv M.N M.W ws)
    (hcoh : ∀ t, logical M (M.step^[t] (M.seed ws)) = T^[t] ws)
    (J : Nat) (pw2 : Bool) {r : List Nat}
    (hjc : jump_coefficients M J pw2 = some r) :
    logical M (jump M (M.seed ws) r) =
      logical M (M.step^[if pw2 then 2 ^ J else J] (M.seed ws)) := by
  have hW : 1 ≤ M.W := by
    rw [hWk]
    exact Nat.one_le_two_pow
  have hre : r = internal.reduce M.W p J pw2 := by
    rw [jump_coefficients, hp] at hjc
    simpa using hjc.symm
  obtain ⟨hrwf, hcong⟩ := reduce_spec hk hWk hN hplen hpw J pw2
  rw [← hre] at hrwf hcong
  rw [jump_logical M T hW hT.1 hseed hws hcoh hrwf]
  rw [actV_cong hT.1 hann (Cong.symm hcong) hws,
    actV_pow hT.1 _ hws, hcoh]

/-! ### Theorems: linearity and coherence of the `xoroshiro` realization -/

theorem xor_ac4 (a b c d : Nat) : (a ^^^ b) ^^^ (c ^^^ d) = (a ^^^ c) ^^^ (b ^^^ d) := by
  rw [Nat.xor_assoc, Nat.xor_assoc]
  congr 1
  rw [← Nat.xor_assoc, ← Nat.xor_assoc, Nat.xor_comm b c]

theorem xor_mod_two_pow (a b n : Nat) : (a ^^^ b) % 2 ^ n = a % 2 ^ n ^^^ b % 2 ^ n := by
  apply Nat.eq_of_testBit_eq
  intro i
  simp only [Nat.testBit_mod_two_pow, Nat.testBit_xor]
  cases Decidable.em (i < n) with
  | inl h => simp [h]
  | inr h => simp [h]

theorem shiftRight_lt_two_pow {x W m : Nat} (hx : x < 2 ^ W) (hm : m ≤ W) :
    x >>> m < 2 ^ (W - m) := by
  rw [Nat.shiftRight_eq_div_pow]
  apply Nat.div_lt_of_lt_mul
  rw [← Nat.pow_add, show m + (W - m) = W by omega]
  exact hx

theorem rotl_lt (W x s : Nat) : rotl W x s < 2 ^ W := by
  rw [rotl]
  exact Nat.mod_lt _ (by positivity)

theorem rotl_eq_xor {W x : Nat} (hW : 1 ≤ W) (hx : x < 2 ^ W) (s : Nat) :
    rotl W x s = ((x >>> (W - s % W)) ^^^ (x <<< (s % W))) % 2 ^ W := by
  rw [rotl, Nat.lor_comm, or_shl_eq_xor_shl]
  have h1 : x >>> (W - s % W) < 2 ^ (W - (W - s % W)) :=
    shiftRight_lt_two_pow hx (by omega)
  have h2 : W - (W - s % W) = s % W := by
    have := Nat.mod_lt s (y := W) (by omega)
    omega
  rw [h2] at h1
  exact h1

theorem rotl_xor {W x y : Nat} (hW : 1 ≤ W) (hx : x < 2 ^ W) (hy : y < 2 ^ W) (s : Nat) :
    rotl W (x ^^^ y) s = rotl W x s ^^^ rotl W y s := by
  rw [rotl_eq_xor hW (Nat.xor_lt_two_pow hx hy) s, rotl_eq_xor hW hx s,
    rotl_eq_xor hW hy s, shiftRight_xor_distrib, shiftLeft_xor_distrib]
  simp only [xor_mod_two_pow]
  exact xor_ac4 _ _ _ _

theorem shl_mod_xor (x y B W : Nat) :
    ((x ^^^ y) <<< B) % 2 ^ W = (x <<< B) % 2 ^ W ^^^ (y <<< B) % 2 ^ W := by
  rw [shiftLeft_xor_distrib, xor_mod_two_pow]

theorem xorV_map_range {N : Nat} (f g : Nat → Nat) :
    xorV ((List.range N).map f) ((List.range N).map g) =
      (List.range N).map (fun i => f i ^^^ g i) := by
  apply List.ext_getElem
  · simp [xorV]
  · intro i h1 h2
    simp only [xorV, List.getElem_zipWith, List.getElem_map, List.getElem_range]

theorem simple_step_length (W N A B C : Nat) (m : List Nat) :
    (xoroshiro.simple_step W N A B C m).length = N := by
  simp [xoroshiro.simple_step]

theorem simple_step_linear {W N A B C : Nat} (hW : 1 ≤ W) :
    LinearOn N W (xoroshiro.simple_step W N A B C) := by
  constructor
  · intro v hv
    refine ⟨simple_step_length W N A B C v, ?_⟩
    intro x hx
    simp only [xoroshiro.simple_step, List.mem_map, List.mem_range] at hx
    obtain ⟨i, _, hxe⟩ := hx
    rw [← hxe]
    by_cases h2 : i = N - 2
    · rw [if_pos h2]
      exact Nat.xor_lt_two_pow (Nat.xor_lt_two_pow (rotl_lt W _ A)
        (Nat.mod_lt _ (by positivity)))
        (Nat.xor_lt_two_pow (WFv.getD_lt hv.2 _) (WFv.getD_lt hv.2 _))
    · rw [if_neg h2]
      by_cases h1 : i = N - 1
      · rw [if_pos h1]
        exact rotl_lt W _ C
      · rw [if_neg h1]
        exact WFv.getD_lt hv.2 _
  · intro u v hu hv
    show (List.range N).map _ = xorV ((List.range N).map _) ((List.range N).map _)
    rw [xorV_map_range]
    apply List.map_congr_left
    intro i _
    have hlen : u.length = v.length := by rw [hu.1, hv.1]
    have hg : ∀ j, (xorV u v).getD j 0 = u.getD j 0 ^^^ v.getD j 0 :=
      fun j => xorV_getD hlen j
    have hs1 : (xorV u v).getD (N - 1) 0 ^^^ (xorV u v).getD 0 0 =
        (u.getD (N - 1) 0 ^^^ u.getD 0 0) ^^^ (v.getD (N - 1) 0 ^^^ v.getD 0 0) := by
      rw [hg, hg]
      exact xor_ac4 _ _ _ _
    by_cases h2 : i = N - 2
    · rw [if_pos h2, if_pos h2, if_pos h2, hs1, hg]
      rw [rotl_xor hW (WFv.getD_lt hu.2 0) (WFv.getD_lt hv.2 0) A,
        shl_mod_xor]
      rw [xor_ac4 (rotl W (u.getD 0 0) A) (rotl W (v.getD 0 0) A)]
      exact xor_ac4 _ _ _ _
    · rw [if_neg h2, if_neg h2, if_neg h2]
      by_cases h1 : i = N - 1
      · rw [if_pos h1, if_pos h1, if_pos h1, hs1]
        exact rotl_xor hW (Nat.xor_lt_two_pow (WFv.getD_lt hu.2 _) (WFv.getD_lt hu.2 _))
          (Nat.xor_lt_two_pow (WFv.getD_lt hv.2 _) (WFv.getD_lt hv.2 _)) C
      · rw [if_neg h1, if_neg h1, if_neg h1]
        exact hg _

theorem xoroshiro2_iterate (W A B C : Nat) (ws : List Nat) :
    ∀ t, (xoroshiro.model 2 W A B C).step^[t] ((xoroshiro.model 2 W A B C).seed ws) =
      ⟨(xoroshiro.simple_step W 2 A B C)^[t] ws, 1⟩ := by
  intro t
  induction t with
  | zero => rfl
  | succ t ih =>
    rw [Function.iterate_succ_apply', ih, Function.iterate_succ_apply']
    rfl

theorem xoroshiro2_logical {W A B C : Nat} {v : List Nat} (hv : v.length = 2) :
    logical (xoroshiro.model 2 W A B C) ⟨v, 1⟩ = v := by
  match v, hv with
  | [a, b], _ =>
    simp [logical, xoroshiro.model, xoroshiro.elem, List.range_succ]

theorem xoroshiro2_seed_logical (W A B C : Nat) :
    ∀ v : List Nat, WFv 2 W v → logical (xoroshiro.model 2 W A B C)
      ((xoroshiro.model 2 W A B C).seed v) = v := by
  intro v hv
  exact xoroshiro2_logical hv.1

theorem xoroshiro2_coherent {W A B C : Nat} (hW : 1 ≤ W) {ws : List Nat}
    (hws : WFv 2 W ws) :
    ∀ t, logical (xoroshiro.model 2 W A B C)
        ((xoroshiro.model 2 W A B C).step^[t] ((xoroshiro.model 2 W A B C).seed ws)) =
      (xoroshiro.simple_step W 2 A B C)^[t] ws := by
  intro t
  rw [xoroshiro2_iterate]
  exact xoroshiro2_logical
    (iterate_wfv (simple_step_linear hW).1 hws t).1

/-! ### Theorems: small helpers for the claim statements -/

theorem getD_set_eq {l : List Nat} {i : Nat} (a : Nat) (h : i < l.length) :
    (l.set i a).getD i 0 = a := by
  rw [List.getD_eq_getElem?_getD, List.getElem?_set_self h]
  rfl

theorem getD_set_ne {l : List Nat} {i j : Nat} (a : Nat) (h : i ≠ j) :
    (l.set i a).getD j 0 = l.getD j 0 := by
  rw [List.getD_eq_getElem?_getD, List.getElem?_set_ne h, ← List.getD_eq_getElem?_getD]

theorem mod_small_cases {x N : Nat} (hN : 0 < N) (h : x < 2 * N) :
    x % N = if x < N then x else x - N := by
  by_cases hx : x < N
  · rw [if_pos hx, Nat.mod_eq_of_lt hx]
  · rw [if_neg hx, Nat.mod_eq_sub_mod (by omega), Nat.mod_eq_of_lt (by omega)]

theorem map_getD_range_self {N : Nat} {v : List Nat} (h : v.length = N) :
    (List.range N).map (fun i => v.getD i 0) = v := by
  apply List.ext_getElem
  · simp [h]
  · intro i h1 h2
    simp only [List.getElem_map, List.getElem_range]
    rw [List.getD_eq_getElem _ _ (by omega)]

theorem size_sub_one_eq_clog {m : Nat} (hm : 1 ≤ m) :
    (m - 1).size = Nat.clog 2 m := by
  apply le_antisymm
  · have h1 : m ≤ 2 ^ Nat.clog 2 m := Nat.le_pow_clog (by omega) m
    exact Nat.size_le.mpr (by omega)
  · have h2 : m - 1 < 2 ^ (m - 1).size := Nat.lt_size_self (m - 1)
    exact (Nat.le_pow_iff_clog_le (by omega)).mp (by omega)

theorem range_fold_add_one (c0 : Nat) :
    ∀ (W : Nat), (List.range W).foldl (fun c2 _ => c2 + 1) c0 = c0 + W := by
  intro W
  induction W generalizing c0 with
  | zero => rfl
  | succ W ih =>
    rw [List.range_succ_eq_map, List.foldl_cons, List.foldl_map, ih (c0 + 1)]
    omega

/-! ### Claim theorems -/

/-- Claim C2: for every coefficient array `p` of the monic characteristic
polynomial `c(x) = x^n + p(x)` (`n = N·W`, `W` a power of two) and every
`J`, `internal::reduce(p, J, J_is_pow2)` returns exactly the packed
coefficients of `x^J mod c(x)` (resp. `x^(2^J) mod c(x)` when the flag is
set): the result has the same `N`-word format, its words fit the word
width, and its packed value is the canonical polynomial remainder, hence
of degree `< n`. -/
theorem C2_reduce_is_pow_mod {W k N : Nat} (hk : 1 ≤ k) (hWk : W = 2 ^ k) (hN : 1 ≤ N)
    {p : List Nat} (hplen : p.length = N) (hpw : ∀ x ∈ p, x < 2 ^ W)
    (J : Nat) (pw2 : Bool) :
    (internal.reduce W p J pw2).length = N ∧
      (∀ x ∈ internal.reduce W p J pw2, x < 2 ^ W) ∧
      toNat W (internal.reduce W p J pw2) =
        pmod (2 ^ (if pw2 then 2 ^ J else J)) (2 ^ (N * W) + toNat W p) := by
  obtain ⟨⟨h1, h2⟩, _⟩ := reduce_spec hk hWk hN hplen hpw J pw2
  exact ⟨h1, h2, reduce_toNat hk hWk hN hplen hpw J pw2⟩

theorem C2_witness :
    1 ≤ 5 ∧ 32 = 2 ^ 5 ∧ 1 ≤ 2 ∧
      ([0x6e2286c1, 0x53be9da] : List Nat).length = 2 ∧
      (internal.reduce 32 [0x6e2286c1, 0x53be9da] 100 false).length = 2 ∧
        (∀ x ∈ internal.reduce 32 [0x6e2286c1, 0x53be9da] 100 false, x < 2 ^ 32) ∧
        toNat 32 (internal.reduce 32 [0x6e2286c1, 0x53be9da] 100 false) =
          pmod (2 ^ (if false then 2 ^ 100 else 100))
            (2 ^ (2 * 32) + toNat 32 [0x6e2286c1, 0x53be9da]) :=
  ⟨by omega, by norm_num, by omega, by decide,
    C2_reduce_is_pow_mod (k := 5) (by omega) (by norm_num) (by omega) (by decide)
      (by decide) 100 false⟩

/-- Claim C8 (corrected): `xso::jump` calls the state's native `step()`
exactly once per bit position of every word of the jump polynomial — that
is, `N·W` times, a fixed count independent of `r` — not `1 +` the index of
`r`'s highest set coefficient as the spec's complexity note suggests. -/
theorem C8_jump_step_call_count (N W : Nat) (r : List Nat) :
    jump_step_calls N W r = N * W := by
  rw [jump_step_calls]
  have houter : ∀ (n : Nat) (c0 : Nat),
      (List.range n).foldl
        (fun calls _ => (List.range W).foldl (fun c2 _ => c2 + 1) calls) c0 =
        c0 + n * W := by
    intro n
    induction n with
    | zero => intro c0; simp
    | succ n ih =>
      intro c0
      rw [List.range_succ, List.foldl_append, ih c0]
      simp only [List.foldl_cons, List.foldl_nil]
      rw [range_fold_add_one]
      ring
  rw [houter N 0]
  omega

theorem C8_counterexample :
    internal.final_set 32 [1, 0] = some 0 ∧ jump_step_calls 2 32 [1, 0] ≠ 1 + 0 := by
  constructor
  · simp [internal.final_set, internal.msb, Nat.size_one]
  · decide

/-- Claim C9: the `characteristic_coefficients` lookup succeeds exactly on
the seven shipped parameterizations (three `xso::xoshiro`, four
`xso::xoroshiro` entries), each table entry holds exactly `N` coefficient
words, and every other parameter combination fails rather than being
approximated or defaulted. -/
theorem C9_characteristic_table :
    (∀ N W A B : Nat, (xoshiro.characteristic_coefficients N W A B).isSome ↔
      ((W = 32 ∧ N = 4 ∧ A = 9 ∧ B = 11) ∨ (W = 64 ∧ N = 4 ∧ A = 17 ∧ B = 45) ∨
        (W = 64 ∧ N = 8 ∧ A = 11 ∧ B = 21))) ∧
    (∀ N W A B C : Nat, (xoroshiro.characteristic_coefficients N W A B C).isSome ↔
      ((W = 32 ∧ N = 2 ∧ A = 26 ∧ B = 9 ∧ C = 13) ∨
        (W = 64 ∧ N = 2 ∧ A = 24 ∧ B = 16 ∧ C = 37) ∨
        (W = 64 ∧ N = 2 ∧ A = 49 ∧ B = 21 ∧ C = 28) ∨
        (W = 64 ∧ N = 16 ∧ A = 25 ∧ B = 27 ∧ C = 36))) ∧
    (∀ N W A B : Nat, ∀ q : List Nat,
      xoshiro.characteristic_coefficients N W A B = some q → q.length = N) ∧
    (∀ N W A B C : Nat, ∀ q : List Nat,
      xoroshiro.characteristic_coefficients N W A B C = some q → q.length = N) := by
  refine ⟨?_, ?_, ?_, ?_⟩
  · intro N W A B
    rw [xoshiro.characteristic_coefficients]
    by_cases h1 : W = 32 ∧ N = 4 ∧ A = 9 ∧ B = 11
    · simp [h1]
    by_cases h2 : W = 64 ∧ N = 4 ∧ A = 17 ∧ B = 45
    · simp [h1, h2]
    by_cases h3 : W = 64 ∧ N = 8 ∧ A = 11 ∧ B = 21
    · simp [h1, h2, h3]
    · simp [h1, h2, h3]
  · intro N W A B C
    rw [xoroshiro.characteristic_coefficients]
    by_cases h1 : W = 32 ∧ N = 2 ∧ A = 26 ∧ B = 9 ∧ C = 13
    · simp [h1]
    by_cases h2 : W = 64 ∧ N = 2 ∧ A = 24 ∧ B = 16 ∧ C = 37
    · simp [h1, h2]
    by_cases h3 : W = 64 ∧ N = 2 ∧ A = 49 ∧ B = 21 ∧ C = 28
    · simp [h1, h2, h3]
    by_cases h4 : W = 64 ∧ N = 16 ∧ A = 25 ∧ B = 27 ∧ C = 36
    · simp [h1, h2, h3, h4]
    · simp [h1, h2, h3, h4]
  · intro N W A B q hq
    rw [xoshiro.characteristic_coefficients] at hq
    by_cases h1 : W = 32 ∧ N = 4 ∧ A = 9 ∧ B = 11
    · rw [if_pos h1] at hq
      obtain ⟨_, hN4, _, _⟩ := h1
      rw [← Option.some_inj.mp hq, hN4]
      rfl
    rw [if_neg h1] at hq
    by_cases h2 : W = 64 ∧ N = 4 ∧ A = 17 ∧ B = 45
    · rw [if_pos h2] at hq
      obtain ⟨_, hN4, _, _⟩ := h2
      rw [← Option.some_inj.mp hq, hN4]
      rfl
    rw [if_neg h2] at hq
    by_cases h3 : W = 64 ∧ N = 8 ∧ A = 11 ∧ B = 21
    · rw [if_pos h3] at hq
      obtain ⟨_, hN8, _, _⟩ := h3
      rw [← Option.some_inj.mp hq, hN8]
      rfl
    · rw [if_neg h3] at hq
      cases hq
  · intro N W A B C q hq
    rw [xoroshiro.characteristic_coefficients] at hq
    by_cases h1 : W = 32 ∧ N = 2 ∧ A = 26 ∧ B = 9 ∧ C = 13
    · rw [if_pos h1] at hq
      obtain ⟨_, hN2, _, _, _⟩ := h1
      rw [← Option.some_inj.mp hq, hN2]
      rfl
    rw [if_neg h1] at hq
    by_cases h2 : W = 64 ∧ N = 2 ∧ A = 24 ∧ B = 16 ∧ C = 37
    · rw [if_pos h2] at hq
      obtain ⟨_, hN2, _, _, _⟩ := h2
      rw [← Option.some_inj.mp hq, hN2]
      rfl
    rw [if_neg h2] at hq
    by_cases h3 : W = 64 ∧ N = 2 ∧ A = 49 ∧ B = 21 ∧ C = 28
    · rw [if_pos h3] at hq
      obtain ⟨_, hN2, _, _, _⟩ := h3
      rw [← Option.some_inj.mp hq, hN2]
      rfl
    rw [if_neg h3] at hq
    by_cases h4 : W = 64 ∧ N = 16 ∧ A = 25 ∧ B = 27 ∧ C = 36
    · rw [if_pos h4] at hq
      obtain ⟨_, hN16, _, _, _⟩ := h4
      rw [← Option.some_inj.mp hq, hN16]
      rfl
    · rw [if_neg h4] at hq
      cases hq

theorem C9_witness :
    (xoshiro.characteristic_coefficients 4 32 9 11).isSome = true ∧
      (xoroshiro.characteristic_coefficients 3 32 26 9 13).isSome = false :=
  ⟨(C9_characteristic_table.1 4 32 9 11).mpr (Or.inl (by omega)) , by
    have h := (C9_characteristic_table.2.1 3 32 26 9 13)
    simp only [Bool.eq_false_iff]
    intro hs
    rcases h.mp (by rw [hs]) with h | h | h | h <;> omega⟩

/-- Claim C10: a default-constructed state of either family holds the word
array `(1, 0, …, 0)`; for `xso::xoroshiro` the default `m_final = N - 1`
makes the logical words read through `operator[]` coincide with that
physical array; the default state is therefore never all-zero (its packed
value is nonzero for every word width). -/
theorem C10_default_state (N W : Nat) (hN : 1 ≤ N) :
    (xoshiro.default_state N).length = N ∧
      xoroshiro.get_state N (xoroshiro.default_state N) = xoshiro.default_state N ∧
      toNat W (xoshiro.default_state N) ≠ 0 ∧
      toNat W (xoroshiro.default_state N).m_state ≠ 0 := by
  have hlen : (xoshiro.default_state N).length = N := by
    simp [xoshiro.default_state]
    omega
  have hnz : toNat W (xoshiro.default_state N) ≠ 0 := by
    rw [xoshiro.default_state, toNat]
    omega
  refine ⟨hlen, ?_, hnz, hnz⟩
  rw [xoroshiro.get_state]
  have helem : ∀ i ∈ List.range N, xoroshiro.elem N (xoroshiro.default_state N) i =
      (xoshiro.default_state N).getD i 0 := by
    intro i hi
    have hiN : i < N := List.mem_range.mp hi
    rw [xoroshiro.elem, xoroshiro.default_state]
    show List.getD _ ((i + (N - 1) + 1) % N) 0 = _
    rw [show (i + (N - 1) + 1) = i + N by omega, Nat.add_mod_right,
      Nat.mod_eq_of_lt hiN]
    rfl
  rw [List.map_congr_left helem]
  exact map_getD_range_self hlen

theorem C10_witness :
    1 ≤ 4 ∧ ((xoshiro.default_state 4).length = 4 ∧
      xoroshiro.get_state 4 (xoroshiro.default_state 4) = xoshiro.default_state 4 ∧
      toNat 32 (xoshiro.default_state 4) ≠ 0 ∧
      toNat 32 (xoroshiro.default_state 4).m_state ≠ 0) :=
  ⟨by omega, C10_default_state 4 32 (by omega)⟩

/-- The shipped `xoroshiro 2x32` characteristic polynomial annihilates the
`simple_step` transition operator: checked on the 64 unit vectors and
lifted to all well-formed states by linearity. -/
theorem xoroshiro32_annihilates :
    Annihilates 2 32 (xoroshiro.simple_step 32 2 26 9 13)
      (2 ^ 64 + toNat 32 [0x6e2286c1, 0x53be9da]) := by
  have hlin : LinearOn 2 32 (xoroshiro.simple_step 32 2 26 9 13) :=
    simple_step_linear (by omega)
  have hfold : ∀ t, t < 64 →
      (List.range 65).foldl
        (fun a j => if (2 ^ 64 + toNat 32 [0x6e2286c1, 0x53be9da]).testBit j
          then xorV a ((xoroshiro.simple_step 32 2 26 9 13)^[j] (unitV 2 32 t)) else a)
        (zeroV 2) = zeroV 2 := by decide
  apply annihilates_of_units (by omega) hlin
  intro t ht
  rw [actV_bits hlin.1 65 _ (unitV_wf (by omega) t) (by decide)]
  exact hfold t (by omega)

/-- Claim C1: for every state model whose precomputed characteristic
polynomial annihilates its (GF(2)-linear) logical transition operator,
`xso::jump` with the coefficients returned by
`jump_coefficients(J, J_is_pow2)` moves a seeded state to exactly the
state reached by `J` consecutive native `step()` calls (`2^J` when the
power-of-two flag is set), as observed through `operator[]`. -/
theorem C1_jump_advances_exactly (M : StateModel) (T : List Nat → List Nat) {k : Nat}
    (hk : 1 ≤ k) (hWk : M.W = 2 ^ k) (hN : 1 ≤ M.N)
    (hT : LinearOn M.N M.W T)
    (hseed : ∀ v, WFv M.N M.W v → logical M (M.seed v) = v)
    {p : List Nat} (hp : M.characteristic_coefficients = some p)
    (hplen : p.length = M.N) (hpw : ∀ x ∈ p, x < 2 ^ M.W)
    (hann : Annihilates M.N M.W T (2 ^ (M.N * M.W) + toNat M.W p))
    (hcoh : ∀ ws, WFv M.N M.W ws →
      ∀ t, logical M (M.step^[t] (M.seed ws)) = T^[t] ws)
    {ws : List Nat} (hws : WFv M.N M.W ws)
    (J : Nat) (pw2 : Bool) {r : List Nat}
    (hjc : jump_coefficients M J pw2 = some r) :
    logical M (jump M (M.seed ws) r) =
      logical M (M.step^[if pw2 then 2 ^ J else J] (M.seed ws)) :=
  jump_correct M T hk hWk hN hT hseed hp hplen hpw hann hws (hcoh ws hws) J pw2 hjc

theorem C1_witness :
    jump_coefficients (xoroshiro.model 2 32 26 9 13) 17 false =
        some (internal.reduce 32 [0x6e2286c1, 0x53be9da] 17 false) ∧
      logical (xoroshiro.model 2 32 26 9 13)
          (jump (xoroshiro.model 2 32 26 9 13)
            ((xoroshiro.model 2 32 26 9 13).seed [1, 2])
            (internal.reduce 32 [0x6e2286c1, 0x53be9da] 17 false)) =
        logical (xoroshiro.model 2 32 26 9 13)
          ((xoroshiro.model 2 32 26 9 13).step^[17]
            ((xoroshiro.model 2 32 26 9 13).seed [1, 2])) :=
  ⟨rfl,
    C1_jump_advances_exactly (xoroshiro.model 2 32 26 9 13)
      (xoroshiro.simple_step 32 2 26 9 13) (k := 5) (by omega) rfl (by decide)
      (simple_step_linear (by decide)) (xoroshiro2_seed_logical 32 26 9 13)
      (p := [0x6e2286c1, 0x53be9da]) rfl (by decide) (by decide)
      xoroshiro32_annihilates
      (fun ws hws => xoroshiro2_coherent (by decide) hws)
      (⟨rfl, by decide⟩ : WFv 2 32 [1, 2]) 17 false rfl⟩

/-- Claim C5 (corrected): `jump(s, jump_coefficients(J))` alone — with no
extra native step afterwards — matches `J` consecutive native steps from
the same initial seeded state, for the spec's literal `J ∈ {0, 1, 17,
1000000}` and pow2 `J ∈ {1, 10, 32}`; the spec's "followed by one more
native step" is off by one (see the counterexample at `J = 0`). -/
theorem C5_jump_without_extra_step (M : StateModel) (T : List Nat → List Nat) {k : Nat}
    (hk : 1 ≤ k) (hWk : M.W = 2 ^ k) (hN : 1 ≤ M.N)
    (hT : LinearOn M.N M.W T)
    (hseed : ∀ v, WFv M.N M.W v → logical M (M.seed v) = v)
    {p : List Nat} (hp : M.characteristic_coefficients = some p)
    (hplen : p.length = M.N) (hpw : ∀ x ∈ p, x < 2 ^ M.W)
    (hann : Annihilates M.N M.W T (2 ^ (M.N * M.W) + toNat M.W p))
    (hcoh : ∀ ws, WFv M.N M.W ws →
      ∀ t, logical M (M.step^[t] (M.seed ws)) = T^[t] ws)
    {ws : List Nat} (hws : WFv M.N M.W ws) :
    (∀ J ∈ ([0, 1, 17, 1000000] : List Nat), ∀ r : List Nat,
      jump_coefficients M J false = some r →
      logical M (jump M (M.seed ws) r) = logical M (M.step^[J] (M.seed ws))) ∧
    (∀ J ∈ ([1, 10, 32] : List Nat), ∀ r : List Nat,
      jump_coefficients M J true = some r →
      logical M (jump M (M.seed ws) r) = logical M (M.step^[2 ^ J] (M.seed ws))) := by
  constructor
  · intro J _ r hjc
    exact jump_correct M T hk hWk hN hT hseed hp hplen hpw hann hws (hcoh ws hws)
      J false hjc
  · intro J _ r hjc
    exact jump_correct M T hk hWk hN hT hseed hp hplen hpw hann hws (hcoh ws hws)
      J true hjc

theorem C5_counterexample :
    jump_coefficients (xoroshiro.model 2 32 26 9 13) 0 false =
        some (internal.reduce 32 [0x6e2286c1, 0x53be9da] 0 false) ∧
      logical (xoroshiro.model 2 32 26 9 13)
          ((xoroshiro.model 2 32 26 9 13).step
            (jump (xoroshiro.model 2 32 26 9 13)
              ((xoroshiro.model 2 32 26 9 13).seed [1, 2])
              (internal.reduce 32 [0x6e2286c1, 0x53be9da] 0 false))) ≠
        logical (xoroshiro.model 2 32 26 9 13)
          ((xoroshiro.model 2 32 26 9 13).step^[0]
            ((xoroshiro.model 2 32 26 9 13).seed [1, 2])) :=
  ⟨rfl, by decide⟩

theorem C5_witness :
    WFv 2 32 [1, 2] ∧
      ((∀ J ∈ ([0, 1, 17, 1000000] : List Nat), ∀ r : List Nat,
        jump_coefficients (xoroshiro.model 2 32 26 9 13) J false = some r →
        logical (xoroshiro.model 2 32 26 9 13)
            (jump (xoroshiro.model 2 32 26 9 13)
              ((xoroshiro.model 2 32 26 9 13).seed [1, 2]) r) =
          logical (xoroshiro.model 2 32 26 9 13)
            ((xoroshiro.model 2 32 26 9 13).step^[J]
              ((xoroshiro.model 2 32 26 9 13).seed [1, 2]))) ∧
      (∀ J ∈ ([1, 10, 32] : List Nat), ∀ r : List Nat,
        jump_coefficients (xoroshiro.model 2 32 26 9 13) J true = some r →
        logical (xoroshiro.model 2 32 26 9 13)
            (jump (xoroshiro.model 2 32 26 9 13)
              ((xoroshiro.model 2 32 26 9 13).seed [1, 2]) r) =
          logical (xoroshiro.model 2 32 26 9 13)
            ((xoroshiro.model 2 32 26 9 13).step^[2 ^ J]
              ((xoroshiro.model 2 32 26 9 13).seed [1, 2])))) :=
  ⟨⟨rfl, by decide⟩,
    C5_jump_without_extra_step (xoroshiro.model 2 32 26 9 13)
      (xoroshiro.simple_step 32 2 26 9 13) (k := 5) (by omega) rfl (by decide)
      (simple_step_linear (by decide)) (xoroshiro2_seed_logical 32 26 9 13)
      (p := [0x6e2286c1, 0x53be9da]) rfl (by decide) (by decide)
      xoroshiro32_annihilates
      (fun ws hws => xoroshiro2_coherent (by decide) hws)
      (⟨rfl, by decide⟩ : WFv 2 32 [1, 2])⟩

/-- Claim C6: for any characteristic coefficient array `p`,
`internal::reduce(p, 0, true)` returns the polynomial `x` (only the
coefficient of `x^1` set, packed value 2), so a jump requested as `2^0`
steps advances a seeded state by exactly one native `step()`. -/
theorem C6_pow2_zero_single_step (M : StateModel) (T : List Nat → List Nat) {k : Nat}
    (hk : 1 ≤ k) (hWk : M.W = 2 ^ k) (hN : 1 ≤ M.N)
    (hT : LinearOn M.N M.W T)
    (hseed : ∀ v, WFv M.N M.W v → logical M (M.seed v) = v)
    {p : List Nat} (hp : M.characteristic_coefficients = some p)
    (hplen : p.length = M.N) (hpw : ∀ x ∈ p, x < 2 ^ M.W)
    (hann : Annihilates M.N M.W T (2 ^ (M.N * M.W) + toNat M.W p))
    (hcoh : ∀ ws, WFv M.N M.W ws →
      ∀ t, logical M (M.step^[t] (M.seed ws)) = T^[t] ws)
    {ws : List Nat} (hws : WFv M.N M.W ws) :
    toNat M.W (internal.reduce M.W p 0 true) = 2 ∧
      ∀ r : List Nat, jump_coefficients M 0 true = some r →
        logical M (jump M (M.seed ws) r) = logical M (M.step (M.seed ws)) := by
  have hW : 1 ≤ M.W := by
    rw [hWk]
    exact Nat.one_le_two_pow
  have hW2 : 2 ≤ M.W := by
    rw [hWk]
    calc (2 : Nat) = 2 ^ 1 := (pow_one 2).symm
    _ ≤ 2 ^ k := Nat.pow_le_pow_right (by omega) hk
  have hn2 : 1 < M.N * M.W := by
    have : 1 * 2 ≤ M.N * M.W := Nat.mul_le_mul hN hW2
    omega
  constructor
  · have hr2 : internal.reduce M.W p 0 true = internal.set M.W (zeroV M.N) 1 := by
      simp only [internal.reduce, hplen, zeroV, if_true, Function.iterate_zero, id_eq]
    rw [hr2, (set_zero_spec (i := 1) hW hn2).1]
    rfl
  · intro r hjc
    have h := jump_correct M T hk hWk hN hT hseed hp hplen hpw hann hws (hcoh ws hws)
      0 true hjc
    rw [show ((if true then 2 ^ 0 else 0 : Nat)) = 1 from rfl,
      Function.iterate_one] at h
    exact h

theorem C6_witness :
    WFv 2 32 [1, 2] ∧
      (toNat 32 (internal.reduce 32 [0x6e2286c1, 0x53be9da] 0 true) = 2 ∧
        ∀ r : List Nat,
          jump_coefficients (xoroshiro.model 2 32 26 9 13) 0 true = some r →
          logical (xoroshiro.model 2 32 26 9 13)
              (jump (xoroshiro.model 2 32 26 9 13)
                ((xoroshiro.model 2 32 26 9 13).seed [1, 2]) r) =
            logical (xoroshiro.model 2 32 26 9 13)
              ((xoroshiro.model 2 32 26 9 13).step
                ((xoroshiro.model 2 32 26 9 13).seed [1, 2]))) :=
  ⟨⟨rfl, by decide⟩,
    C6_pow2_zero_single_step (xoroshiro.model 2 32 26 9 13)
      (xoroshiro.simple_step 32 2 26 9 13) (k := 5) (by omega) rfl (by decide)
      (simple_step_linear (by decide)) (xoroshiro2_seed_logical 32 26 9 13)
      (p := [0x6e2286c1, 0x53be9da]) rfl (by decide) (by decide)
      xoroshiro32_annihilates
      (fun ws hws => xoroshiro2_coherent (by decide) hws)
      (⟨rfl, by decide⟩ : WFv 2 32 [1, 2])⟩

/-- Claim C7: jumping by `2^10` steps twice (two `jump` calls with
`jump_coefficients(10, true)`) lands on exactly the same logical state as
one jump by `2^11` steps (`jump_coefficients(11, true)`) from the same
seeded start. -/
theorem C7_jump_composition (M : StateModel) (T : List Nat → List Nat) {k : Nat}
    (hk : 1 ≤ k) (hWk : M.W = 2 ^ k) (hN : 1 ≤ M.N)
    (hT : LinearOn M.N M.W T)
    (hseed : ∀ v, WFv M.N M.W v → logical M (M.seed v) = v)
    {p : List Nat} (hp : M.characteristic_coefficients = some p)
    (hplen : p.length = M.N) (hpw : ∀ x ∈ p, x < 2 ^ M.W)
    (hann : Annihilates M.N M.W T (2 ^ (M.N * M.W) + toNat M.W p))
    (hcoh : ∀ ws, WFv M.N M.W ws →
      ∀ t, logical M (M.step^[t] (M.seed ws)) = T^[t] ws)
    {ws : List Nat} (hws : WFv M.N M.W ws)
    {r10 r11 : List Nat}
    (h10 : jump_coefficients M 10 true = some r10)
    (h11 : jump_coefficients M 11 true = some r11) :
    logical M (jump M (jump M (M.seed ws) r10) r10) =
      logical M (jump M (M.seed ws) r11) := by
  set F := (List.range (M.N * M.W)).foldl
    (fun a t => if r10.getD (t / M.W) 0 &&& 1 <<< (t % M.W) ≠ 0
      then xorV a (logical M (M.step^[t] (M.seed ws))) else a) (zeroV M.N) with hFdef
  have hFwf : WFv M.N M.W F := by
    rw [hFdef]
    apply foldl_xorV_wf _ _ _ _ (WFv_zeroV _ _)
    intro t _
    rw [hcoh ws hws t]
    exact iterate_wfv hT.1 hws t
  have hinner : jump M (M.seed ws) r10 = M.seed F := jump_eq_fold M (M.seed ws) r10
  have hFval : F = T^[2 ^ 10] ws := by
    have h1 := jump_correct M T hk hWk hN hT hseed hp hplen hpw hann hws (hcoh ws hws)
      10 true h10
    rw [hinner, hseed F hFwf, hcoh ws hws] at h1
    exact h1
  calc logical M (jump M (jump M (M.seed ws) r10) r10)
      = logical M (jump M (M.seed F) r10) := by rw [hinner]
    _ = logical M (M.step^[2 ^ 10] (M.seed F)) :=
        jump_correct M T hk hWk hN hT hseed hp hplen hpw hann hFwf (hcoh F hFwf)
          10 true h10
    _ = T^[2 ^ 10] F := hcoh F hFwf (2 ^ 10)
    _ = T^[2 ^ 11] ws := by
        rw [hFval, ← Function.iterate_add_apply,
          show (2 : Nat) ^ 10 + 2 ^ 10 = 2 ^ 11 by decide]
    _ = logical M (M.step^[2 ^ 11] (M.seed ws)) := (hcoh ws hws (2 ^ 11)).symm
    _ = logical M (jump M (M.seed ws) r11) :=
        (jump_correct M T hk hWk hN hT hseed hp hplen hpw hann hws (hcoh ws hws)
          11 true h11).symm

theorem C7_witness :
    jump_coefficients (xoroshiro.model 2 32 26 9 13) 10 true =
        some (internal.reduce 32 [0x6e2286c1, 0x53be9da] 10 true) ∧
      jump_coefficients (xoroshiro.model 2 32 26 9 13) 11 true =
        some (internal.reduce 32 [0x6e2286c1, 0x53be9da] 11 true) ∧
      logical (xoroshiro.model 2 32 26 9 13)
          (jump (xoroshiro.model 2 32 26 9 13)
            (jump (xoroshiro.model 2 32 26 9 13)
              ((xoroshiro.model 2 32 26 9 13).seed [1, 2])
              (internal.reduce 32 [0x6e2286c1, 0x53be9da] 10 true))
            (internal.reduce 32 [0x6e2286c1, 0x53be9da] 10 true)) =
        logical (xoroshiro.model 2 32 26 9 13)
          (jump (xoroshiro.model 2 32 26 9 13)
            ((xoroshiro.model 2 32 26 9 13).seed [1, 2])
            (internal.reduce 32 [0x6e2286c1, 0x53be9da] 11 true)) :=
  ⟨rfl, rfl,
    C7_jump_composition (xoroshiro.model 2 32 26 9 13)
      (xoroshiro.simple_step 32 2 26 9 13) (k := 5) (by omega) rfl (by decide)
      (simple_step_linear (by decide)) (xoroshiro2_seed_logical 32 26 9 13)
      (p := [0x6e2286c1, 0x53be9da]) rfl (by decide) (by decide)
      xoroshiro32_annihilates
      (fun ws hws => xoroshiro2_coherent (by decide) hws)
      (⟨rfl, by decide⟩ : WFv 2 32 [1, 2]) rfl rfl⟩

/-! ### Theorems: ring-buffer vs array-shift equivalence (C3) -/

theorem get_state_seed {N : Nat} (hN : 1 ≤ N) {ws : List Nat} (hlen : ws.length = N) :
    xoroshiro.get_state N (xoroshiro.seed N ws) = ws := by
  rw [xoroshiro.get_state]
  have helem : ∀ i ∈ List.range N, xoroshiro.elem N (xoroshiro.seed N ws) i =
      ws.getD i 0 := by
    intro i hi
    have hiN : i < N := List.mem_range.mp hi
    rw [xoroshiro.elem, xoroshiro.seed]
    show ws.getD ((i + (N - 1) + 1) % N) 0 = _
    rw [show i + (N - 1) + 1 = i + N by omega, Nat.add_mod_right, Nat.mod_eq_of_lt hiN]
  rw [List.map_congr_left helem]
  exact map_getD_range_self hlen

/-- One `clever_step` on a consistent ring buffer has the same logical
effect as one `simple_step` on the untangled array, and preserves the
buffer invariants. -/
theorem clever_step_sim {W N A B C : Nat} (hN : 2 ≤ N) {arr : List Nat} {f : Nat}
    (hlen : arr.length = N) (hf : f < N) :
    xoroshiro.get_state N (xoroshiro.clever_step W N A B C ⟨arr, f⟩) =
      xoroshiro.simple_step W N A B C (xoroshiro.get_state N ⟨arr, f⟩) ∧
      (xoroshiro.clever_step W N A B C ⟨arr, f⟩).m_state.length = N ∧
      (xoroshiro.clever_step W N A B C ⟨arr, f⟩).m_final < N := by
  have hi1N : (f + 1) % N < N := Nat.mod_lt _ (by omega)
  have hcase : (f + 1 < N ∧ (f + 1) % N = f + 1) ∨ (f = N - 1 ∧ (f + 1) % N = 0) := by
    by_cases hc : f + 1 < N
    · exact Or.inl ⟨hc, Nat.mod_eq_of_lt hc⟩
    · have hfe : f = N - 1 := by omega
      refine Or.inr ⟨hfe, ?_⟩
      rw [hfe, show N - 1 + 1 = N by omega, Nat.mod_self]
  have hfi1 : f ≠ (f + 1) % N := by
    rcases hcase with ⟨h1, h2⟩ | ⟨h1, h2⟩ <;> omega
  have hcs : xoroshiro.clever_step W N A B C ⟨arr, f⟩ =
      ⟨(arr.set f
          ((rotl W (arr.getD ((f + 1) % N) 0) A) ^^^
            (((arr.getD f 0 ^^^ arr.getD ((f + 1) % N) 0) <<< B) % 2 ^ W) ^^^
            (arr.getD f 0 ^^^ arr.getD ((f + 1) % N) 0))).set ((f + 1) % N)
          (rotl W (arr.getD f 0 ^^^ arr.getD ((f + 1) % N) 0) C),
        (f + 1) % N⟩ := rfl
  rw [hcs]
  refine ⟨?_, by simp [hlen], hi1N⟩
  -- the two fixed reads of the simple step
  have hg0 : (xoroshiro.get_state N ⟨arr, f⟩).getD 0 0 = arr.getD ((f + 1) % N) 0 := by
    rw [xoroshiro.get_state, getD_map_range _ _ (by omega), xoroshiro.elem]
    show arr.getD ((0 + f + 1) % N) 0 = _
    rw [show 0 + f + 1 = f + 1 by omega]
  have hgN1 : (xoroshiro.get_state N ⟨arr, f⟩).getD (N - 1) 0 = arr.getD f 0 := by
    rw [xoroshiro.get_state, getD_map_range _ _ (by omega), xoroshiro.elem]
    show arr.getD ((N - 1 + f + 1) % N) 0 = _
    rw [show N - 1 + f + 1 = f + N by omega, Nat.add_mod_right, Nat.mod_eq_of_lt hf]
  rw [xoroshiro.get_state, xoroshiro.simple_step]
  simp only [hg0, hgN1]
  apply List.map_congr_left
  intro i hi
  have hiN : i < N := List.mem_range.mp hi
  rw [xoroshiro.elem]
  show ((arr.set f _).set ((f + 1) % N) _).getD ((i + (f + 1) % N + 1) % N) 0 = _
  by_cases hiN1 : i = N - 1
  · rw [if_neg (by omega), if_pos hiN1, hiN1,
      show N - 1 + (f + 1) % N + 1 = (f + 1) % N + N by omega,
      Nat.add_mod_right, Nat.mod_eq_of_lt hi1N,
      getD_set_eq _ (by simp [hlen]; omega)]
  · by_cases hiN2 : i = N - 2
    · have hslot : (i + (f + 1) % N + 1) % N = f := by
        rcases hcase with ⟨h1, h2⟩ | ⟨h1, h2⟩
        · rw [h2, hiN2, show N - 2 + (f + 1) + 1 = f + N by omega,
            Nat.add_mod_right, Nat.mod_eq_of_lt hf]
        · rw [h2, hiN2, show N - 2 + 0 + 1 = N - 1 by omega,
            Nat.mod_eq_of_lt (by omega), h1]
      rw [hslot, if_pos hiN2,
        getD_set_ne _ (fun he => hfi1 he.symm),
        getD_set_eq _ (by omega)]
    · have hmod := mod_small_cases (show 0 < N by omega)
        (show i + (f + 1) % N + 1 < 2 * N by omega)
      have hne1 : (f + 1) % N ≠ (i + (f + 1) % N + 1) % N := by
        rw [hmod]
        rcases hcase with ⟨h1, h2⟩ | ⟨h1, h2⟩
        · rw [h2]
          by_cases hsp : i + (f + 1) + 1 < N
          · rw [if_pos hsp]
            omega
          · rw [if_neg hsp]
            omega
        · rw [h2]
          by_cases hsp : i + 0 + 1 < N
          · rw [if_pos hsp]
            omega
          · rw [if_neg hsp]
            omega
      have hnef : f ≠ (i + (f + 1) % N + 1) % N := by
        rw [hmod]
        rcases hcase with ⟨h1, h2⟩ | ⟨h1, h2⟩
        · rw [h2]
          by_cases hsp : i + (f + 1) + 1 < N
          · rw [if_pos hsp]
            omega
          · rw [if_neg hsp]
            omega
        · rw [h2]
          by_cases hsp : i + 0 + 1 < N
          · rw [if_pos hsp]
            omega
          · rw [if_neg hsp]
            omega
      rw [if_neg hiN2, if_neg hiN1, getD_set_ne _ hne1, getD_set_ne _ hnef,
        xoroshiro.get_state, getD_map_range _ _ (by omega), xoroshiro.elem]
      show _ = arr.getD ((i + 1 + f + 1) % N) 0
      have hidx : (i + (f + 1) % N + 1) % N = (i + 1 + f + 1) % N := by
        rcases hcase with ⟨h1, h2⟩ | ⟨h1, h2⟩
        · rw [h2, show i + (f + 1) + 1 = i + 1 + f + 1 by omega]
        · rw [h2, show i + 0 + 1 = i + 1 by omega,
            show i + 1 + f + 1 = i + 1 + N by omega, Nat.add_mod_right]
      rw [hidx]

/-- Claim C3: for every word count `N ≥ 2` and every seed, the direct
array-shift realization (`simple_step`) and the ring-buffer realization
(`clever_step`, read back through `operator[]` / `get_state`) produce
bit-identical logical state sequences: after any number of steps of
either kind from the same seeded state, the `N` logical words agree. -/
theorem C3_realizations_agree {W N A B C : Nat} (hN : 2 ≤ N) {ws : List Nat}
    (hlen : ws.length = N) :
    ∀ t, xoroshiro.get_state N
        ((xoroshiro.clever_step W N A B C)^[t] (xoroshiro.seed N ws)) =
      (xoroshiro.simple_step W N A B C)^[t] ws := by
  have hmain : ∀ t,
      ((xoroshiro.clever_step W N A B C)^[t] (xoroshiro.seed N ws)).m_state.length = N ∧
      ((xoroshiro.clever_step W N A B C)^[t] (xoroshiro.seed N ws)).m_final < N ∧
      xoroshiro.get_state N ((xoroshiro.clever_step W N A B C)^[t] (xoroshiro.seed N ws)) =
        (xoroshiro.simple_step W N A B C)^[t] ws := by
    intro t
    induction t with
    | zero =>
      refine ⟨hlen, ?_, ?_⟩
      · show N - 1 < N
        omega
      · rw [Function.iterate_zero, id_eq, Function.iterate_zero, id_eq]
        exact get_state_seed (by omega) hlen
    | succ t ih =>
      obtain ⟨ihl, ihf, ihg⟩ := ih
      obtain ⟨arr2, f2, hst⟩ : ∃ a g, (xoroshiro.clever_step W N A B C)^[t]
          (xoroshiro.seed N ws) = ⟨a, g⟩ :=
        ⟨_, _, rfl⟩
      rw [Function.iterate_succ_apply', hst]
      rw [hst] at ihl ihf ihg
      obtain ⟨hsim, hlen2, hf2⟩ := clever_step_sim hN ihl ihf
      refine ⟨hlen2, hf2, ?_⟩
      rw [hsim, ihg, Function.iterate_succ_apply']
  intro t
  exact (hmain t).2.2

theorem C3_witness :
    2 ≤ 4 ∧ ([1, 2, 3, 4] : List Nat).length = 4 ∧
      ∀ t, xoroshiro.get_state 4
          ((xoroshiro.clever_step 32 4 26 9 13)^[t] (xoroshiro.seed 4 [1, 2, 3, 4])) =
        (xoroshiro.simple_step 32 4 26 9 13)^[t] [1, 2, 3, 4] :=
  ⟨by omega, rfl, C3_realizations_agree (by omega) rfl⟩

/-! ### Theorems: stream partitioning (C4) -/

/-- Claim C4: `partition(state, P)` (with `P = 0` silently bumped to 1)
caches the jump polynomial for a distance of exactly `2^(n-k)` steps,
where `k = ceil(log2(max(P,1)))` (the code's `bit_width(P'-1)`) and `n`
is the state bit count; `next()` returns the current frontier and then
advances it by one jump with the cached polynomial, so the state returned
by the `(i+1)`-th `next()` call is exactly the `i`-th one advanced by
`2^(n-k)` native steps. -/
theorem C4_partition (M : StateModel) (T : List Nat → List Nat) {k : Nat}
    (hk : 1 ≤ k) (hWk : M.W = 2 ^ k) (hN : 1 ≤ M.N)
    (hT : LinearOn M.N M.W T)
    (hseed : ∀ v, WFv M.N M.W v → logical M (M.seed v) = v)
    {p : List Nat} (hp : M.characteristic_coefficients = some p)
    (hplen : p.length = M.N) (hpw : ∀ x ∈ p, x < 2 ^ M.W)
    (hann : Annihilates M.N M.W T (2 ^ (M.N * M.W) + toNat M.W p))
    (hcoh : ∀ ws, WFv M.N M.W ws →
      ∀ t, logical M (M.step^[t] (M.seed ws)) = T^[t] ws)
    {ws : List Nat} (hws : WFv M.N M.W ws)
    (P : Nat) {pt : Partition M}
    (hpt : partition_new M (M.seed ws) P = some pt) :
    pt.m_state = M.seed ws ∧
      pt.m_jump_coefficients =
        internal.reduce M.W p (M.N * M.W - Nat.clog 2 (max P 1)) true ∧
      (∀ q : Partition M, Partition.next M q =
        (q.m_state, ⟨jump M q.m_state q.m_jump_coefficients, q.m_jump_coefficients⟩)) ∧
      ∀ i, logical M (partition_nth M pt (i + 1)) =
        logical M (M.step^[2 ^ (M.N * M.W - Nat.clog 2 (max P 1))]
          (partition_nth M pt i)) := by
  have hP' : (if P = 0 then 1 else P) = max P 1 := by
    by_cases hP0 : P = 0
    · simp [hP0]
    · rw [if_neg hP0]
      omega
  have hclog : (max P 1 - 1).size = Nat.clog 2 (max P 1) :=
    size_sub_one_eq_clog (by omega)
  have hform : partition_new M (M.seed ws) P =
      some ⟨M.seed ws,
        internal.reduce M.W p (M.N * M.W - Nat.clog 2 (max P 1)) true⟩ := by
    rw [partition_new, hP', hclog, jump_coefficients, hp]
    rfl
  rw [hform] at hpt
  have hpte := Option.some_inj.mp hpt
  have hstate : pt.m_state = M.seed ws := by rw [← hpte]
  have hjcs : pt.m_jump_coefficients =
      internal.reduce M.W p (M.N * M.W - Nat.clog 2 (max P 1)) true := by
    rw [← hpte]
  have hjc : jump_coefficients M (M.N * M.W - Nat.clog 2 (max P 1)) true =
      some pt.m_jump_coefficients := by
    rw [jump_coefficients, hp, hjcs]
    rfl
  refine ⟨hstate, hjcs, fun q => rfl, ?_⟩
  have hnth : ∀ i, ∃ v, WFv M.N M.W v ∧ partition_nth M pt i = M.seed v := by
    intro i
    induction i with
    | zero =>
      refine ⟨ws, hws, ?_⟩
      rw [partition_nth, Function.iterate_zero, id_eq, hstate]
    | succ i ih =>
      obtain ⟨v, hv, hnthi⟩ := ih
      have hstep : partition_nth M pt (i + 1) =
          jump M (partition_nth M pt i) pt.m_jump_coefficients := by
        rw [partition_nth, partition_nth, Function.iterate_succ_apply']
      refine ⟨(List.range (M.N * M.W)).foldl
        (fun a t => if pt.m_jump_coefficients.getD (t / M.W) 0 &&& 1 <<< (t % M.W) ≠ 0
          then xorV a (logical M (M.step^[t] (M.seed v))) else a) (zeroV M.N), ?_, ?_⟩
      · apply foldl_xorV_wf _ _ _ _ (WFv_zeroV _ _)
        intro t _
        rw [hcoh v hv t]
        exact iterate_wfv hT.1 hv t
      · rw [hstep, hnthi]
        exact jump_eq_fold M (M.seed v) pt.m_jump_coefficients
  intro i
  obtain ⟨v, hv, hnthi⟩ := hnth i
  have hstep : partition_nth M pt (i + 1) =
      jump M (partition_nth M pt i) pt.m_jump_coefficients := by
    rw [partition_nth, partition_nth, Function.iterate_succ_apply']
  rw [hstep, hnthi]
  have h := jump_correct M T hk hWk hN hT hseed hp hplen hpw hann hv (hcoh v hv)
    (M.N * M.W - Nat.clog 2 (max P 1)) true hjc
  exact h

theorem C4_witness :
    partition_new (xoroshiro.model 2 32 26 9 13)
        ((xoroshiro.model 2 32 26 9 13).seed [1, 2]) 3 =
      some ⟨(xoroshiro.model 2 32 26 9 13).seed [1, 2],
        internal.reduce 32 [0x6e2286c1, 0x53be9da]
          (2 * 32 - Nat.clog 2 (max 3 1)) true⟩ ∧
      ((⟨(xoroshiro.model 2 32 26 9 13).seed [1, 2],
          internal.reduce 32 [0x6e2286c1, 0x53be9da]
            (2 * 32 - Nat.clog 2 (max 3 1)) true⟩ :
        Partition (xoroshiro.model 2 32 26 9 13)).m_state =
          (xoroshiro.model 2 32 26 9 13).seed [1, 2] ∧
        (⟨(xoroshiro.model 2 32 26 9 13).seed [1, 2],
          internal.reduce 32 [0x6e2286c1, 0x53be9da]
            (2 * 32 - Nat.clog 2 (max 3 1)) true⟩ :
          Partition (xoroshiro.model 2 32 26 9 13)).m_jump_coefficients =
          internal.reduce 32 [0x6e2286c1, 0x53be9da]
            (2 * 32 - Nat.clog 2 (max 3 1)) true ∧
        (∀ q : Partition (xoroshiro.model 2 32 26 9 13),
          Partition.next (xoroshiro.model 2 32 26 9 13) q =
          (q.m_state, ⟨jump (xoroshiro.model 2 32 26 9 13) q.m_state
            q.m_jump_coefficients, q.m_jump_coefficients⟩)) ∧
        ∀ i, logical (xoroshiro.model 2 32 26 9 13)
            (partition_nth (xoroshiro.model 2 32 26 9 13)
              ⟨(xoroshiro.model 2 32 26 9 13).seed [1, 2],
                internal.reduce 32 [0x6e2286c1, 0x53be9da]
                  (2 * 32 - Nat.clog 2 (max 3 1)) true⟩ (i + 1)) =
          logical (xoroshiro.model 2 32 26 9 13)
            ((xoroshiro.model 2 32 26 9 13).step^[2 ^ (2 * 32 - Nat.clog 2 (max 3 1))]
              (partition_nth (xoroshiro.model 2 32 26 9 13)
                ⟨(xoroshiro.model 2 32 26 9 13).seed [1, 2],
                  internal.reduce 32 [0x6e2286c1, 0x53be9da]
                    (2 * 32 - Nat.clog 2 (max 3 1)) true⟩ i))) := by
  have hsc : ((3 : Nat) - 1).size = Nat.clog 2 (max 3 1) := by
    rw [show max 3 1 = 3 from rfl]
    exact size_sub_one_eq_clog (by omega)
  have hpt : partition_new (xoroshiro.model 2 32 26 9 13)
      ((xoroshiro.model 2 32 26 9 13).seed [1, 2]) 3 =
      some ⟨(xoroshiro.model 2 32 26 9 13).seed [1, 2],
        internal.reduce 32 [0x6e2286c1, 0x53be9da]
          (2 * 32 - Nat.clog 2 (max 3 1)) true⟩ := by
    rw [partition_new, show ((if (3 : Nat) = 0 then 1 else 3) : Nat) = 3 from rfl, hsc]
    rfl
  exact ⟨hpt,
    C4_partition (xoroshiro.model 2 32 26 9 13)
      (xoroshiro.simple_step 32 2 26 9 13) (k := 5) (by omega) rfl (by decide)
      (simple_step_linear (by decide)) (xoroshiro2_seed_logical 32 26 9 13)
      (p := [0x6e2286c1, 0x53be9da]) rfl (by decide) (by decide)
      xoroshiro32_annihilates
      (fun ws hws => xoroshiro2_coherent (by decide) hws)
      (⟨rfl, by decide⟩ : WFv 2 32 [1, 2]) 3 hpt⟩

end xso
